import Mathlib

/-!
Verification development for `trolls.py`: Knuth's coroutine generators of
constrained Gray sequences ("trolls" switching an array of lights).

The Python program is a family of mutually recursive generators
(`poke`, `bump`, `cobump`, `mbump`, `ebump`, `nudge`) over a shared global
list `Lights`, coupled by the wait-combinator `gwhile`.  We embed it as an
instruction machine: each generator body is compiled to a list of
instructions (its `while True:` loop body, plus for `nudge` a resume
prelude chosen at first advance); the runtime state of one generator
instance is its remaining instruction list together with the runtime
states of its (lazily created, at most two) child instances, exactly
mirroring Python's lazy generator semantics.  A total, structurally
recursive `microStep` performs one internal step or one `yield` of the
root coroutine; `advance` iterates `microStep` (with fuel) until a value
is yielded, which is one `next()` on the root.
-/

/-- The six generator variants selected by the command line. -/
inductive GKind where
  | poke | bump | cobump | mbump | ebump | nudge
deriving DecidableEq, Repr

/-- The module-level globals `N`, `M`, `E` of `trolls.py`
(set by `driver` before the first `next`). -/
structure Globals where
  N : Nat
  M : Nat
  E : List Nat
deriving DecidableEq, Repr

/-- `E[E.index(k)-1]`: the element of `E` before `k`, with Python's
negative indexing wrapping `E[-1]` to the last element. -/
def prevE (E : List Nat) (k : Nat) : Nat :=
  match E.indexOf k with
  | 0 => E.getLastD 0
  | i+1 => E.getD i 0

/-- One primitive action of a generator body:
`emit b` is `yield b`; `set k v` is `Lights[k-1] = v`;
`toggle k` is `Lights[k-1] = 1 - Lights[k-1]`;
`drain s` is `yield from gwhile(child_s)`;
`fwd s` is `yield next(child_s)`.
Slot `false` is the first child variable of the Python function
(`coro`/`kcoro`/`kp_coro`), slot `true` the second (`mcoro`/`ecoro`/`kpp_coro`). -/
inductive Instr where
  | emit (b : Bool)
  | set (k : Nat) (v : Nat)
  | toggle (k : Nat)
  | drain (s : Bool)
  | fwd (s : Bool)
deriving DecidableEq, Repr

/-- Which child generator (by index) lives in slot `s` of a unit `k`,
mirroring the `... if ... else None` child-creation lines of each variant. -/
def childSpec (g : Globals) (kind : GKind) (k : Nat) (s : Bool) : Option Nat :=
  match kind, s with
  | .poke, false => if 1 < k then some (k-1) else none
  | .poke, true => none
  | .bump, false => if k < g.N then some (k+1) else none
  | .bump, true => none
  | .cobump, false => if k < g.N then some (k+1) else none
  | .cobump, true => none
  | .mbump, false => if k < g.N then some (k+1) else none
  | .mbump, true => if k = 1 ∧ g.M < g.N then some (g.M+1) else none
  | .ebump, false => if k < g.N ∧ (k+1) ∉ g.E then some (k+1) else none
  | .ebump, true => if 1 < k ∧ k ∈ g.E then some (prevE g.E k) else none
  | .nudge, false => if k + 2 - (k % 2) ≤ g.N then some (k + 2 - (k % 2)) else none
  | .nudge, true => if k + 1 + (k % 2) ≤ g.N then some (k + 1 + (k % 2)) else none

/-- `nudge`'s `awake0` sub-generator. -/
def nudgeAwake0 (g : Globals) (k : Nat) : List Instr :=
  (if k + 2 - (k % 2) ≤ g.N then [.drain false] else []) ++ [.set k 1, .emit true]

/-- `nudge`'s `asleep1` sub-generator. -/
def nudgeAsleep1 (g : Globals) (k : Nat) : List Instr :=
  (if k + 1 + (k % 2) ≤ g.N then [.drain true] else []) ++ [.emit false]

/-- `nudge`'s `awake1` sub-generator. -/
def nudgeAwake1 (g : Globals) (k : Nat) : List Instr :=
  (if k + 1 + (k % 2) ≤ g.N then [.drain true] else []) ++ [.set k 0, .emit true]

/-- `nudge`'s `asleep0` sub-generator. -/
def nudgeAsleep0 (g : Globals) (k : Nat) : List Instr :=
  (if k + 2 - (k % 2) ≤ g.N then [.drain false] else []) ++ [.emit false]

/-- The `while True:` loop body of each generator, compiled to instructions. -/
def body (g : Globals) (kind : GKind) (k : Nat) : List Instr :=
  match kind with
  | .poke =>
      [.toggle k, .emit true, if 1 < k then .fwd false else .emit false]
  | .bump =>
      (if k < g.N then [.drain false] else []) ++
      [.set k 1, .emit true, .emit false, .set k 0, .emit true] ++
      (if k < g.N then [.drain false] else []) ++ [.emit false]
  | .cobump =>
      [.set k 1, .emit true] ++
      (if k < g.N then [.drain false] else []) ++ [.emit false] ++
      (if k < g.N then [.drain false] else []) ++
      [.set k 0, .emit true, .emit false]
  | .mbump =>
      (if k < g.M then [.drain false] else []) ++ [.set k 1, .emit true] ++
      (if g.M < k ∧ k < g.N then [.drain false] else []) ++
      (if k = 1 ∧ g.M < g.N then [.drain true] else []) ++ [.emit false] ++
      (if g.M < k ∧ k < g.N then [.drain false] else []) ++
      (if k = 1 ∧ g.M < g.N then [.drain true] else []) ++
      [.set k 0, .emit true] ++
      (if k < g.M then [.drain false] else []) ++ [.emit false]
  | .ebump =>
      (if k < g.N ∧ (k+1) ∉ g.E then [.drain false] else []) ++
      [.set k 1, .emit true] ++
      [if 1 < k ∧ k ∈ g.E then .fwd true else .emit false] ++
      [.set k 0, .emit true] ++
      (if k < g.N ∧ (k+1) ∉ g.E then [.drain false] else []) ++
      [if 1 < k ∧ k ∈ g.E then .fwd true else .emit false]
  | .nudge =>
      nudgeAwake0 g k ++ nudgeAsleep1 g k ++ nudgeAwake1 g k ++ nudgeAsleep0 g k

/-- The instructions a generator runs before entering its loop, decided at
first advance: empty except for `nudge`, which replays `awake1(); asleep0()`
when its light reads 1 (the mid-cycle resume of `trolls.py`). -/
def startCur (g : Globals) (kind : GKind) (k : Nat) (L : List Nat) : List Instr :=
  match kind with
  | .nudge => if L.getD (k-1) 0 = 1 then nudgeAwake1 g k ++ nudgeAsleep0 g k else []
  | _ => []

/-- Runtime state of one generator instance and (recursively) of the
instances it created: `absent` is a child slot still holding `None`-like
an uncreated generator, `unstarted k` a generator object whose body has
not run yet, `running k cur c0 c1` a suspended generator with remaining
instructions `cur` for the current loop pass and child slots `c0`, `c1`. -/
inductive GenS : Type where
  | absent : GenS
  | unstarted : Nat → GenS
  | running : Nat → List Instr → GenS → GenS → GenS
deriving DecidableEq, Repr

/-- One micro step of the machine rooted at the given state: either an
internal action (result `none`) or one `yield` of the root (result
`some b`), together with the new state and lights.  Draining a child
forwards the child's `true`s, silently absorbs its first `false`
(`gwhile`'s exit) and then continues with the rest of the body; `fwd`
forwards whatever the child yields, once. -/
def microStep (g : Globals) (kind : GKind) : GenS → List Nat → Option Bool × GenS × List Nat
  | .absent, L => (none, .absent, L)
  | .unstarted k, L => (none, .running k (startCur g kind k L) .absent .absent, L)
  | .running k [] c0 c1, L => (none, .running k (body g kind k) c0 c1, L)
  | .running k (.emit b :: rest) c0 c1, L => (some b, .running k rest c0 c1, L)
  | .running k (.set j v :: rest) c0 c1, L =>
      (none, .running k rest c0 c1, L.set (j-1) v)
  | .running k (.toggle j :: rest) c0 c1, L =>
      (none, .running k rest c0 c1, L.set (j-1) (1 - L.getD (j-1) 0))
  | .running k (.drain false :: rest) c0 c1, L =>
      if c0 = .absent then
        match childSpec g kind k false with
        | none => (none, .running k rest c0 c1, L)
        | some ck => (none, .running k (.drain false :: rest) (.unstarted ck) c1, L)
      else
        match microStep g kind c0 L with
        | (some true, c0', L') => (some true, .running k (.drain false :: rest) c0' c1, L')
        | (some false, c0', L') => (none, .running k rest c0' c1, L')
        | (none, c0', L') => (none, .running k (.drain false :: rest) c0' c1, L')
  | .running k (.drain true :: rest) c0 c1, L =>
      if c1 = .absent then
        match childSpec g kind k true with
        | none => (none, .running k rest c0 c1, L)
        | some ck => (none, .running k (.drain true :: rest) c0 (.unstarted ck), L)
      else
        match microStep g kind c1 L with
        | (some true, c1', L') => (some true, .running k (.drain true :: rest) c0 c1', L')
        | (some false, c1', L') => (none, .running k rest c0 c1', L')
        | (none, c1', L') => (none, .running k (.drain true :: rest) c0 c1', L')
  | .running k (.fwd false :: rest) c0 c1, L =>
      if c0 = .absent then
        match childSpec g kind k false with
        | none => (some false, .running k rest c0 c1, L)
        | some ck => (none, .running k (.fwd false :: rest) (.unstarted ck) c1, L)
      else
        match microStep g kind c0 L with
        | (some b, c0', L') => (some b, .running k rest c0' c1, L')
        | (none, c0', L') => (none, .running k (.fwd false :: rest) c0' c1, L')
  | .running k (.fwd true :: rest) c0 c1, L =>
      if c1 = .absent then
        match childSpec g kind k true with
        | none => (some false, .running k rest c0 c1, L)
        | some ck => (none, .running k (.fwd true :: rest) c0 (.unstarted ck), L)
      else
        match microStep g kind c1 L with
        | (some b, c1', L') => (some b, .running k rest c0 c1', L')
        | (none, c1', L') => (none, .running k (.fwd true :: rest) c0 c1', L')

/-- One `next()` on the root coroutine: micro-step (with fuel) until a
value is yielded. -/
def advance (g : Globals) (kind : GKind) : Nat → GenS → List Nat → Option (Bool × GenS × List Nat)
  | 0, _, _ => none
  | fuel+1, st, L =>
      match microStep g kind st L with
      | (some b, st', L') => some (b, st', L')
      | (none, st', L') => advance g kind fuel st' L'

/-- The first `n` advances of the root: the yielded signal and the lights
snapshot after each `next()`. -/
def runTrace (g : Globals) (kind : GKind) (fuel : Nat) :
    Nat → GenS → List Nat → Option (List (Bool × List Nat))
  | 0, _, _ => some []
  | n+1, st, L =>
      match advance g kind fuel st L with
      | none => none
      | some (b, st', L') => (runTrace g kind fuel n st' L').map (fun t => (b, L') :: t)

/-- `initial_nudge_sequence(n)`: the first `n` letters of the infinite
repetition of `0,0,0,1,1,1`. -/
def initial_nudge_sequence (n : Nat) : List Nat :=
  (List.range n).map (fun i => if i % 6 < 3 then 0 else 1)

/-- `gwhile(coro, val)` run against the list of signals the child would
yield: returns the values yielded by the combinator and the number of
`next(coro)` calls it made. -/
def gwhile (sig : List Bool) (val : Bool) : List Bool × Nat :=
  match sig with
  | [] => ([], 0)
  | b :: rest =>
      if val = b then
        let r := gwhile rest val
        (val :: r.1, r.2 + 1)
      else ([], 1)

/-- The unit index on which the `__main__` dispatch roots the traversal:
`poke(args.N)`, `bump(1)`, `cobump(1)`, `mbump(1)`, `ebump(max(args.E))`,
`nudge(1)`. -/
def rootUnit (kind : GKind) (n : Nat) (e : List Nat) : Nat :=
  match kind with
  | .poke => n
  | .bump => 1
  | .cobump => 1
  | .mbump => 1
  | .ebump => e.foldl max 0
  | .nudge => 1

/-- The checks `__main__` actually performs before calling `driver`:
for `mbump`, `args.M is None` (never true, since argparse supplies the
default `2`, modelled by `mPresent`); for `ebump`, `not args.E` (absent or
empty endpoint list) and `max(args.E) > args.N`.  No other case is
checked.  Returns `true` when construction proceeds. -/
def mainValidate (case : GKind) (n m : Int) (mPresent : Bool)
    (e : Option (List Int)) : Bool :=
  match case with
  | .mbump => mPresent
  | .ebump =>
      match e with
      | none => false
      | some el =>
          if el = [] then false
          else if el.foldl max (el.headD 0) > n then false
          else true
  | _ => true

/-- The lights snapshots "visited" over a run: the initial array followed
by the snapshot after every advance that returned `Active`. -/
def visitedActive (t : List (Bool × List Nat)) (L0 : List Nat) : List (List Nat) :=
  L0 :: (t.filter (fun p => p.1)).map (fun p => p.2)

/-- Projection of a lights array onto the 1-based indices `idx`. -/
def projIdx (idx : List Nat) (L : List Nat) : List Nat :=
  idx.map (fun i => L.getD (i-1) 0)

/-- Project each visited snapshot and drop consecutive duplicates (steps
that only moved lights outside the projected segment). -/
def projVisited (idx : List Nat) (v : List (List Nat)) : List (List Nat) :=
  (v.map (projIdx idx)).destutter (· ≠ ·)

/-! ### Relational semantics: silent runs, single advances, emission traces -/

/-- Zero or more silent micro steps (no value yielded by the root). -/
inductive Sil (g : Globals) (kind : GKind) : GenS → List Nat → GenS → List Nat → Prop where
  | refl (s : GenS) (L : List Nat) : Sil g kind s L s L
  | step {s L s1 L1 s2 L2} : microStep g kind s L = (none, s1, L1) →
      Sil g kind s1 L1 s2 L2 → Sil g kind s L s2 L2

/-- One `next()` on the root, relationally: some silent micro steps, then a
micro step yielding `b`.  Equivalent to `advance` succeeding for some fuel. -/
def AdvR (g : Globals) (kind : GKind) (s : GenS) (L : List Nat) (b : Bool)
    (s' : GenS) (L' : List Nat) : Prop :=
  ∃ s0 L0, Sil g kind s L s0 L0 ∧ microStep g kind s0 L0 = (some b, s', L')

/-- A sequence of advances emitting the given (signal, lights-after) trace,
ending exactly at the micro step that yields the last signal. -/
inductive Emits (g : Globals) (kind : GKind) : GenS → List Nat → List (Bool × List Nat) → GenS → List Nat → Prop where
  | nil (s : GenS) (L : List Nat) : Emits g kind s L [] s L
  | cons {s L b s1 L1 tr s2 L2} : AdvR g kind s L b s1 L1 →
      Emits g kind s1 L1 tr s2 L2 → Emits g kind s L ((b, L1) :: tr) s2 L2

/-- Tag every snapshot in a list as an `Active` step. -/
def activesOf (snaps : List (List Nat)) : List (Bool × List Nat) :=
  snaps.map (fun s => (true, s))

/-! ### Canonical configurations and traces of the forward and reverse chains -/

/-- Snapshots (and final lights) of the first half of a `bump` pass over
units `k .. k+h`: the deepest unit `k+h` lights first, then `k+h-1`, down
to `k`. -/
def fwdHalf : Nat → Nat → List Nat → List (List Nat) × List Nat
  | k, 0, L => ([L.set (k-1) 1], L.set (k-1) 1)
  | k, h+1, L =>
      let r := fwdHalf (k+1) h L
      (r.1 ++ [r.2.set (k-1) 1], r.2.set (k-1) 1)

/-- Snapshots of the second half of a `bump` pass: unit `k` clears first,
then `k+1`, up to `k+h`. -/
def bwdHalf : Nat → Nat → List Nat → List (List Nat) × List Nat
  | k, 0, L => ([L.set (k-1) 0], L.set (k-1) 0)
  | k, h+1, L =>
      let r := bwdHalf (k+1) h (L.set (k-1) 0)
      (L.set (k-1) 0 :: r.1, r.2)

/-- Snapshots of the first half of a `cobump` pass: unit `k` lights first,
then `k+1`, up to `k+h`. -/
def cofwdHalf : Nat → Nat → List Nat → List (List Nat) × List Nat
  | k, 0, L => ([L.set (k-1) 1], L.set (k-1) 1)
  | k, h+1, L =>
      let r := cofwdHalf (k+1) h (L.set (k-1) 1)
      (L.set (k-1) 1 :: r.1, r.2)

/-- Snapshots of the second half of a `cobump` pass: the deepest unit
`k+h` clears first, down to `k`. -/
def cobwdHalf : Nat → Nat → List Nat → List (List Nat) × List Nat
  | k, 0, L => ([L.set (k-1) 0], L.set (k-1) 0)
  | k, h+1, L =>
      let r := cobwdHalf (k+1) h L
      (r.1 ++ [r.2.set (k-1) 0], r.2.set (k-1) 0)

/-- `bump` subtree over units `k .. k+h`, suspended right after its
`asleep 1` idle step (about to run `awake 1`). -/
def bumpMidS : Nat → Nat → GenS
  | 0, k => .running k [.set k 0, .emit true, .emit false] .absent .absent
  | h+1, k => .running k [.set k 0, .emit true, .drain false, .emit false]
      (bumpMidS h (k+1)) .absent

/-- `bump` subtree suspended right before its `asleep 1` idle step. -/
def bumpPreMidS : Nat → Nat → GenS
  | 0, k => .running k [.emit false, .set k 0, .emit true, .emit false] .absent .absent
  | h+1, k => .running k [.emit false, .set k 0, .emit true, .drain false, .emit false]
      (bumpMidS h (k+1)) .absent

/-- `bump` subtree suspended at the end of a full pass (about to reload
its loop body). -/
def bumpEndS : Nat → Nat → GenS
  | 0, k => .running k [] .absent .absent
  | h+1, k => .running k [] (bumpEndS h (k+1)) .absent

/-- `bump` subtree suspended right before its final `asleep 0` idle step. -/
def bumpPreEndS : Nat → Nat → GenS
  | 0, k => .running k [.emit false] .absent .absent
  | h+1, k => .running k [.emit false] (bumpEndS h (k+1)) .absent

/-- `cobump` subtree suspended right after its `asleep 1` idle step. -/
def coMidS : Nat → Nat → GenS
  | 0, k => .running k [.set k 0, .emit true, .emit false] .absent .absent
  | h+1, k => .running k [.drain false, .set k 0, .emit true, .emit false]
      (coMidS h (k+1)) .absent

/-- `cobump` subtree suspended right before its `asleep 1` idle step. -/
def coPreMidS : Nat → Nat → GenS
  | 0, k => .running k [.emit false, .set k 0, .emit true, .emit false] .absent .absent
  | h+1, k => .running k [.emit false, .drain false, .set k 0, .emit true, .emit false]
      (coMidS h (k+1)) .absent

/-- `cobump` subtree suspended at the end of a full pass. -/
def coEndS : Nat → Nat → GenS
  | 0, k => .running k [] .absent .absent
  | h+1, k => .running k [] (coEndS h (k+1)) .absent

/-- `cobump` subtree suspended right before its final `asleep 0` idle step. -/
def coPreEndS : Nat → Nat → GenS
  | 0, k => .running k [.emit false] .absent .absent
  | h+1, k => .running k [.emit false] (coEndS h (k+1)) .absent

/-- `bump` subtree just after the last active step of its second half
(the idle signal is about to cascade up from the leaf). -/
def bumpTailS : Nat → Nat → GenS
  | 0, k => .running k [.emit false] .absent .absent
  | h+1, k => .running k [.drain false, .emit false] (bumpTailS h (k+1)) .absent

/-- `cobump` subtree just after the last active step of its first half. -/
def coTailS : Nat → Nat → GenS
  | 0, k => .running k [.emit false, .set k 0, .emit true, .emit false] .absent .absent
  | h+1, k => .running k [.drain false, .emit false, .drain false, .set k 0, .emit true,
      .emit false] (coTailS h (k+1)) .absent

/-- The chain-monotone array with `i` ones at the high end (`bump`'s
visited states). -/
def lowVec (n i : Nat) : List Nat :=
  List.replicate (n - i) 0 ++ List.replicate i 1

/-- The chain-monotone array with `i` ones at the low end (`cobump`'s
visited states). -/
def hiVec (n i : Nat) : List Nat :=
  List.replicate i 1 ++ List.replicate (n - i) 0

/-- The full cycle of the forward chain rooted at unit 1 from all-zero:
`n` active steps lighting `n, n-1, …, 1`, an idle step, `n` active steps
clearing `1, 2, …, n`, an idle step. -/
def bumpCycleTr (n : Nat) : List (Bool × List Nat) :=
  activesOf ((List.range n).map (fun i => lowVec n (i+1))) ++ [(false, lowVec n n)] ++
  activesOf ((List.range n).map (fun i => lowVec n (n-1-i))) ++ [(false, lowVec n 0)]

/-- The full cycle of the reverse chain rooted at unit 1 from all-zero. -/
def cobumpCycleTr (n : Nat) : List (Bool × List Nat) :=
  activesOf ((List.range n).map (fun i => hiVec n (i+1))) ++ [(false, hiVec n n)] ++
  activesOf ((List.range n).map (fun i => hiVec n (n-1-i))) ++ [(false, hiVec n 0)]

/-- Do all `set`/`toggle` instructions in the list target unit `j`? -/
def setsOwn (j : Nat) : List Instr → Bool
  | [] => true
  | .set i _ :: r => i = j && setsOwn j r
  | .toggle i :: r => i = j && setsOwn j r
  | _ :: r => setsOwn j r

/-- Does every generator instance in the tree have unit index at least `m`,
with all its writes targeting its own unit? -/
def unitsGe (m : Nat) : GenS → Bool
  | .absent => true
  | .unstarted k => m ≤ k
  | .running k cur c0 c1 => (m ≤ k && setsOwn k cur) && (unitsGe m c0 && unitsGe m c1)

/-- Iterate `advance` (each with fuel `F`) `n` times, returning the final
configuration and lights. -/
def advanceN (g : Globals) (kind : GKind) (F : Nat) : Nat → GenS → List Nat → Option (GenS × List Nat)
  | 0, s, L => some (s, L)
  | n+1, s, L =>
      match advance g kind F s L with
      | none => none
      | some (_, s', L') => advanceN g kind F n s' L'

/-- The value of the first `.set` on unit `k`'s light in an instruction
list, skipping everything else. -/
def firstSetK (k : Nat) : List Instr → Option Nat
  | [] => none
  | .set j v :: r => if j = k then some v else firstSetK k r
  | _ :: r => firstSetK k r

/-- Is every node of unit `k` in the tree "clean": its next pending write
to light `k` (within the current pass) is a reset to 0? -/
def CleanK (k : Nat) : GenS → Bool
  | .absent => true
  | .unstarted _ => true
  | .running j cur c0 c1 =>
      (if j = k then firstSetK k cur == some 0 else true) &&
      (CleanK k c0 && CleanK k c1)

/-- No `.toggle` instruction in the list. -/
def noTog : List Instr → Bool
  | [] => true
  | .toggle _ :: _ => false
  | _ :: r => noTog r

/-- No `.toggle` instruction anywhere in the tree. -/
def noTogS : GenS → Bool
  | .absent => true
  | .unstarted _ => true
  | .running _ cur c0 c1 => noTog cur && (noTogS c0 && noTogS c1)

/-- The light write (unit, value) the next micro step would perform, if
any: the observer instrumenting `microStep` with its set events. -/
def setEvent : GenS → List Nat → Option (Nat × Nat)
  | .running _ (.set j v :: _) _ _, _ => some (j, v)
  | .running _ (.toggle j :: _) _ _, L => some (j, 1 - L.getD (j-1) 0)
  | .running _ (.drain false :: _) c0 _, L =>
      if c0 = .absent then none else setEvent c0 L
  | .running _ (.drain true :: _) _ c1, L =>
      if c1 = .absent then none else setEvent c1 L
  | .running _ (.fwd false :: _) c0 _, L =>
      if c0 = .absent then none else setEvent c0 L
  | .running _ (.fwd true :: _) _ c1, L =>
      if c1 = .absent then none else setEvent c1 L
  | _, _ => none

/-- `advance` instrumented with the list of light writes its micro steps
perform, in order. -/
def advanceEv (g : Globals) (kind : GKind) :
    Nat → GenS → List Nat → Option (List (Nat × Nat) × Bool × GenS × List Nat)
  | 0, _, _ => none
  | fuel+1, s, L =>
      match microStep g kind s L with
      | (some b, s', L') => some ((setEvent s L).toList, b, s', L')
      | (none, s', L') =>
          (advanceEv g kind fuel s' L').map
            (fun r => ((setEvent s L).toList ++ r.1, r.2))

/-- The flattened stream of light writes performed during the first `n`
advances of the root. -/
def runEv (g : Globals) (kind : GKind) (F : Nat) :
    Nat → GenS → List Nat → Option (List (Nat × Nat))
  | 0, _, _ => some []
  | n+1, s, L =>
      match advanceEv g kind F s L with
      | none => none
      | some (es, _, s', L') => (runEv g kind F n s' L').map (fun t => es ++ t)

/-- Number of positions where two lists differ (unequal lengths count the
overhang). -/
def diffCount : List Nat → List Nat → Nat
  | [], [] => 0
  | [], ys => ys.length
  | xs, [] => xs.length
  | x :: xs, y :: ys => (if x = y then 0 else 1) + diffCount xs ys

/-- The single-flip check over a trace of advances: starting from lights
`L`, every `Active` advance changes exactly one position and every `Idle`
advance changes none. -/
def flipOk (L : List Nat) : List (Bool × List Nat) → Bool
  | [] => true
  | (b, L2) :: t =>
      (if b then diffCount L L2 == 1 else L == L2) && flipOk L2 t

/-- The lights after the last entry of a trace (or `L` if empty). -/
def endSnap (L : List Nat) (t : List (Bool × List Nat)) : List Nat :=
  match t.getLast? with
  | none => L
  | some p => p.2

/-- The instruction a `poke` unit is left with after its active yield. -/
def pokeTail (k : Nat) : Instr :=
  if 1 < k then .fwd false else .emit false

/-- Well-formed `poke` subtree for unit `k` at an advance boundary: the
node is between yields (empty pass or just the final forward/idle
instruction pending), the second child slot is unused, and the first
child is a well-formed subtree for unit `k-1` (only for `k > 1`). -/
def pokeOk (k : Nat) : GenS → Bool
  | .absent => true
  | .unstarted j => j == k
  | .running j cur c0 c1 =>
      (j == k) && (cur == [] || cur == [pokeTail k]) && (c1 == GenS.absent) &&
      (if 1 < k then pokeOk (k-1) c0 else c0 == GenS.absent)

/-! ### The wait-combinator `gwhile` (claims C3, C9) -/

/-- Number of leading child signals equal to the target. -/
def leadCount (sig : List Bool) (val : Bool) : Nat :=
  (sig.takeWhile (· == val)).length

theorem gwhile_eq_of_ne_mem (sig : List Bool) (val : Bool)
    (h : ∃ b ∈ sig, b ≠ val) :
    gwhile sig val = (List.replicate (leadCount sig val) val, leadCount sig val + 1) := by
  induction sig with
  | nil => simp at h
  | cons b rest ih =>
      by_cases hb : val = b
      · subst hb
        have h' : ∃ c ∈ rest, c ≠ val := by
          rcases h with ⟨c, hc, hcne⟩
          rcases List.mem_cons.mp hc with rfl | hc'
          · exact absurd rfl hcne
          · exact ⟨c, hc', hcne⟩
        simp only [gwhile, if_pos rfl, ih h', leadCount, List.takeWhile_cons,
          beq_self_eq_true, List.length_cons]
        simp [List.replicate_succ]
      · have hb' : (b == val) = false := by
          simp only [beq_eq_false_iff_ne, ne_eq]
          exact fun hh => hb hh.symm
        simp [gwhile, if_neg hb, leadCount, List.takeWhile_cons, hb']

theorem gwhile_take_countP (sig : List Bool) (val : Bool)
    (h : ∃ b ∈ sig, b ≠ val) :
    (sig.take (gwhile sig val).2).countP (fun b => b != val) = 1 := by
  induction sig with
  | nil => simp at h
  | cons b rest ih =>
      by_cases hb : val = b
      · subst hb
        have h' : ∃ c ∈ rest, c ≠ val := by
          rcases h with ⟨c, hc, hcne⟩
          rcases List.mem_cons.mp hc with rfl | hc'
          · exact absurd rfl hcne
          · exact ⟨c, hc', hcne⟩
        simp only [gwhile, if_pos rfl, List.take_succ_cons, List.countP_cons]
        simp [ih h']
      · have hb' : (b != val) = true := by
          simp only [bne_iff_ne, ne_eq]
          exact fun hh => hb hh.symm
        simp [gwhile, if_neg hb, List.countP_cons, hb']

/-- C3: `gwhile(child, target)` repeatedly advances the child and forwards a
copy of the target signal for as long as the child's signal equals the
target — its yields are exactly the maximal matching prefix of the child's
signals — and it returns (yields nothing further) on the first child signal
different from the target, having advanced the child `leadCount + 1`
times. -/
theorem gwhile_forwards_while_target (sig : List Bool) (val : Bool)
    (h : ∃ b ∈ sig, b ≠ val) :
    (gwhile sig val).1 = sig.takeWhile (· == val) ∧
    (gwhile sig val).2 = leadCount sig val + 1 := by
  rw [gwhile_eq_of_ne_mem sig val h]
  refine ⟨?_, rfl⟩
  symm
  refine List.eq_replicate_of_mem ?_
  intro b hb
  have := List.mem_takeWhile_imp hb
  simpa [beq_iff_eq] using this

theorem gwhile_forwards_while_target_witness :
    (gwhile [true, true, false, true] true).1 =
      ([true, true, false, true].takeWhile (· == true)) ∧
    (gwhile [true, true, false, true] true).2 = leadCount [true, true, false, true] true + 1 :=
  gwhile_forwards_while_target [true, true, false, true] true ⟨false, by decide, by decide⟩

/-- C9: when `gwhile(child, target)` returns, exactly one of the child
signals it consumed differs from the target (the terminal one), and that
differing signal is absorbed rather than forwarded: every value the
combinator itself yields equals the target. -/
theorem gwhile_absorbs_terminal (sig : List Bool) (val : Bool)
    (h : ∃ b ∈ sig, b ≠ val) :
    (sig.take (gwhile sig val).2).countP (fun b => b != val) = 1 ∧
    ∀ b ∈ (gwhile sig val).1, b = val := by
  refine ⟨gwhile_take_countP sig val h, ?_⟩
  rw [gwhile_eq_of_ne_mem sig val h]
  intro b hb
  exact List.eq_of_mem_replicate hb

theorem gwhile_absorbs_terminal_witness :
    ((List.take (gwhile [true, false, true] true).2 [true, false, true]).countP
      (fun b => b != true) = 1) ∧
    ∀ b ∈ (gwhile [true, false, true] true).1, b = true :=
  gwhile_absorbs_terminal [true, false, true] true ⟨false, by decide, by decide⟩

/-! ### ebump wiring and the `__main__` dispatch (claim C4) -/


theorem foldl_max_le_iff {α : Type} [LinearOrder α] (l : List α) (a c : α) :
    l.foldl max a ≤ c ↔ a ≤ c ∧ ∀ x ∈ l, x ≤ c := by
  induction l generalizing a with
  | nil => simp
  | cons b t ih =>
      simp only [List.foldl_cons, ih, max_le_iff, List.mem_cons]
      constructor
      · rintro ⟨⟨ha, hb⟩, ht⟩
        exact ⟨ha, fun x hx => hx.elim (fun hx => hx ▸ hb) (ht x)⟩
      · rintro ⟨ha, ht⟩
        exact ⟨⟨ha, ht b (Or.inl rfl)⟩, fun x hx => ht x (Or.inr hx)⟩

theorem foldl_max_mem {α : Type} [LinearOrder α] (l : List α) (a : α) :
    l.foldl max a = a ∨ l.foldl max a ∈ l := by
  induction l generalizing a with
  | nil => simp
  | cons b t ih =>
      simp only [List.foldl_cons]
      rcases ih (max a b) with h | h
      · rcases max_cases a b with ⟨hm, _⟩ | ⟨hm, _⟩
        · exact Or.inl (h.trans hm)
        · exact Or.inr (List.mem_cons.mpr (Or.inl (h.trans hm)))
      · exact Or.inr (List.mem_cons.mpr (Or.inr h))

/-- C4, counterexample: with the driver example `N = 6`, `E = [1, 3, 4]`,
unit 2 is not an endpoint and `2 ≠ N`, yet its chain child is `None`
(because `3 ∈ E`), not unit 3 as the claim states. -/
theorem ebump_child_counterexample :
    2 ∉ (⟨6, 3, [1, 3, 4]⟩ : Globals).E ∧ (2 : Nat) ≠ 6 ∧
    childSpec ⟨6, 3, [1, 3, 4]⟩ .ebump 2 false = none := by decide

/-- C4, amended: in `ebump`, a unit `k` has the chain child `k+1` exactly
when `k < N` **and** `k+1` is not itself an endpoint (so the child is also
absent at interior segment ends, not only at `k = N`); a unit `k ∈ E` with
`k > 1` has a second child holding the previous endpoint of `E` cyclically
(position `i-1` for position `i`, wrapping position `0` to the last
endpoint); and the root of the traversal is the maximum element of `E`. -/
theorem ebump_children_amended (g : Globals) (hne : g.E ≠ []) (hnd : g.E.Nodup) :
    (∀ k, childSpec g .ebump k false =
      if k < g.N ∧ (k+1) ∉ g.E then some (k+1) else none) ∧
    (∀ i, i < g.E.length → 1 < g.E.getD i 0 →
      childSpec g .ebump (g.E.getD i 0) true =
        some (g.E.getD ((i + g.E.length - 1) % g.E.length) 0)) ∧
    (rootUnit .ebump g.N g.E ∈ g.E ∧ ∀ x ∈ g.E, x ≤ rootUnit .ebump g.N g.E) := by
  have hlen : 0 < g.E.length := List.length_pos.mpr hne
  refine ⟨fun k => rfl, ?_, ?_⟩
  · intro i hi hgt
    have hgd : g.E.getD i 0 = g.E[i] := List.getD_eq_getElem g.E 0 hi
    rw [hgd] at hgt ⊢
    have hmem : g.E[i] ∈ g.E := List.getElem_mem hi
    have hidx : g.E.indexOf g.E[i] = i := List.indexOf_getElem hnd i hi
    have hprev : prevE g.E g.E[i] = g.E.getD ((i + g.E.length - 1) % g.E.length) 0 := by
      unfold prevE
      rw [hidx]
      rcases i with _ | j
      · show g.E.getLastD 0 = _
        have harith : (0 + g.E.length - 1) % g.E.length = g.E.length - 1 := by
          rw [Nat.zero_add]
          exact Nat.mod_eq_of_lt (Nat.sub_lt hlen Nat.one_pos)
        rw [harith, List.getLastD_eq_getLast?, List.getLast?_eq_getLast g.E hne]
        show g.E.getLast hne = _
        rw [List.getLast_eq_getElem, List.getD_eq_getElem g.E 0 (Nat.sub_lt hlen Nat.one_pos)]
      · show g.E.getD j 0 = _
        have hj : j < g.E.length := Nat.lt_of_succ_lt hi
        have harith : (j + 1 + g.E.length - 1) % g.E.length = j := by
          have h1 : j + 1 + g.E.length - 1 = j + g.E.length := by omega
          rw [h1, Nat.add_mod_right]
          exact Nat.mod_eq_of_lt hj
        rw [harith]
    show (if 1 < g.E[i] ∧ g.E[i] ∈ g.E then some (prevE g.E g.E[i]) else none) = _
    rw [if_pos ⟨hgt, hmem⟩, hprev]
  · constructor
    · show g.E.foldl max 0 ∈ g.E
      rcases foldl_max_mem g.E 0 with h | h
      · obtain ⟨b, hb⟩ := List.exists_mem_of_ne_nil g.E hne
        have hble : b ≤ g.E.foldl max 0 :=
          ((foldl_max_le_iff g.E 0 (g.E.foldl max 0)).mp le_rfl).2 b hb
        rw [h] at hble
        have hb0 : b = 0 := Nat.le_zero.mp hble
        rw [h, ← hb0]
        exact hb
      · exact h
    · intro x hx
      show x ≤ g.E.foldl max 0
      have := (foldl_max_le_iff g.E 0 (g.E.foldl max 0)).mp le_rfl
      exact this.2 x hx

theorem ebump_children_amended_witness :
    ((⟨6, 3, [1, 3, 4]⟩ : Globals).E ≠ [] ∧ (⟨6, 3, [1, 3, 4]⟩ : Globals).E.Nodup) ∧
    ((∀ k, childSpec ⟨6, 3, [1, 3, 4]⟩ .ebump k false =
      if k < 6 ∧ (k+1) ∉ [1, 3, 4] then some (k+1) else none) ∧
    (∀ i, i < ([1, 3, 4] : List Nat).length → 1 < ([1, 3, 4] : List Nat).getD i 0 →
      childSpec ⟨6, 3, [1, 3, 4]⟩ .ebump (([1, 3, 4] : List Nat).getD i 0) true =
        some (([1, 3, 4] : List Nat).getD ((i + 3 - 1) % 3) 0)) ∧
    (rootUnit .ebump 6 [1, 3, 4] ∈ ([1, 3, 4] : List Nat) ∧
      ∀ x ∈ ([1, 3, 4] : List Nat), x ≤ rootUnit .ebump 6 [1, 3, 4])) :=
  ⟨⟨by decide, by decide⟩,
    ebump_children_amended ⟨6, 3, [1, 3, 4]⟩ (by decide) (by decide)⟩

/-! ### Construction-time validation in `__main__` (claim C8) -/


/-- C8, counterexample: the dispatch accepts `mbump` with `M = 7 > N = 4`
(no `1 ≤ M ≤ N` check exists), accepts `bump` with `N = 0` (no positivity
check exists), and accepts `ebump` with endpoint `0 < 1`; each of these
proceeds to construction, contradicting the claimed fail-fast
validation. -/
theorem mainValidate_counterexample :
    mainValidate .mbump 4 7 true none = true ∧
    mainValidate .bump 0 2 true none = true ∧
    mainValidate .ebump 4 2 true (some [0, 3]) = true := by decide

/-- C8, amended: the only construction-time validation is for the
multi-endpoint chain: `ebump` fails fast (before any advance) when `E` is
absent or empty or when some endpoint exceeds `N`, and otherwise proceeds;
every other case — in particular a non-positive `N`, an `M` outside
`[1, N]`, and endpoints below 1 — is accepted unchecked (`mbump`'s
`M is None` test never fires because argparse supplies a default). -/
theorem mainValidate_amended (n m : Int) (el : List Int) (hne : el ≠ []) :
    (mainValidate .ebump n m true (some el) = true ↔ ∀ x ∈ el, x ≤ n) ∧
    (mainValidate .ebump n m true none = false) ∧
    (mainValidate .ebump n m true (some []) = false) ∧
    (∀ case, case ≠ .ebump → mainValidate case n m true (some el) = true) := by
  have hhead : el.headD 0 ∈ el := by
    rcases el with _ | ⟨b, t⟩
    · exact absurd rfl hne
    · exact List.mem_cons_self b t
  refine ⟨?_, rfl, by simp [mainValidate], ?_⟩
  · show (if el = [] then false
      else if el.foldl max (el.headD 0) > n then false else true) = true ↔ _
    rw [if_neg hne]
    by_cases hgt : el.foldl max (el.headD 0) > n
    · rw [if_pos hgt]
      simp only [Bool.false_eq_true, false_iff]
      intro hall
      have : el.foldl max (el.headD 0) ≤ n :=
        (foldl_max_le_iff el (el.headD 0) n).mpr ⟨hall _ hhead, hall⟩
      exact absurd hgt (not_lt.mpr this)
    · rw [if_neg hgt]
      simp only [true_iff]
      push_neg at hgt
      exact ((foldl_max_le_iff el (el.headD 0) n).mp hgt).2
  · intro c hc
    cases c with
    | poke => rfl
    | bump => rfl
    | cobump => rfl
    | mbump => rfl
    | ebump => exact absurd rfl hc
    | nudge => rfl

theorem mainValidate_amended_witness :
    (([2, 5] : List Int) ≠ []) ∧
    ((mainValidate .ebump 5 3 true (some [2, 5]) = true ↔ ∀ x ∈ ([2, 5] : List Int), x ≤ 5) ∧
    (mainValidate .ebump 5 3 true none = false) ∧
    (mainValidate .ebump 5 3 true (some []) = false) ∧
    (∀ case, case ≠ .ebump → mainValidate case 5 3 true (some [2, 5]) = true)) :=
  ⟨by decide, mainValidate_amended 5 3 [2, 5] (by decide)⟩

/-! ### Forward-chain cycle for N = 3 (claim C2) and branch-chain
projections for N = 4, M = 2 (claim C6): concrete runs -/

/-- C2, counterexample: the forward chain with `N = 3` rooted at unit 1
and started from `[0,0,0]` emits, over its full cycle of 8 advances, only
6 = 2·3 Active steps (not 2^3 = 8), visiting only 4 distinct arrays (the
monotone ones, not all 8 three-bit combinations): the collected snapshots
are [001, 011, 111, 011, 001, 000], which is not the binary-reflected
Gray code of length 3. -/
theorem bump3_counterexample :
    runTrace ⟨3, 3, [1, 3, 4]⟩ .bump 100 8 (.unstarted 1) [0, 0, 0] =
      some [(true, [0,0,1]), (true, [0,1,1]), (true, [1,1,1]), (false, [1,1,1]),
            (true, [0,1,1]), (true, [0,0,1]), (true, [0,0,0]), (false, [0,0,0])] ∧
    (([(true, [0,0,1]), (true, [0,1,1]), (true, [1,1,1]), (false, [1,1,1]),
       (true, [0,1,1]), (true, [0,0,1]), (true, [0,0,0]), (false, [0,0,0])].filter
        (fun p => p.1)).length = 6 ∧ (6 : Nat) ≠ 2^3) ∧
    ((visitedActive [(true, [0,0,1]), (true, [0,1,1]), (true, [1,1,1]), (false, [1,1,1]),
       (true, [0,1,1]), (true, [0,0,1]), (true, [0,0,0]), (false, [0,0,0])]
        [0,0,0]).dedup.length = 4 ∧ (4 : Nat) ≠ 2^3) := by decide

/-- C6, counterexample: for the branch chain with `N = 4`, `M = 2`, the
projection of the visited sequence onto indices `{3,4}` (consecutive
duplicates dropped) is `[00, 10, 11, 10, 00]`, which differs from the
forward-chain visited sequence for `N = 2`, `[00, 01, 11, 01, 00]`: the
upper segment runs with the opposite coupling orientation. -/
theorem mbump_proj34_counterexample :
    (runTrace ⟨4, 2, [1, 3, 4]⟩ .mbump 1000 10 (.unstarted 1) [0,0,0,0]).map
        (fun t => projVisited [3, 4] (visitedActive t [0,0,0,0])) =
      some [[0,0], [1,0], [1,1], [1,0], [0,0]] ∧
    (runTrace ⟨2, 2, [1, 3, 4]⟩ .bump 1000 6 (.unstarted 1) [0,0]).map
        (fun t => visitedActive t [0,0]) =
      some [[0,0], [0,1], [1,1], [0,1], [0,0]] ∧
    ([[0,0], [1,0], [1,1], [1,0], [0,0]] : List (List Nat)) ≠
      [[0,0], [0,1], [1,1], [0,1], [0,0]] := by decide

/-- C6, amended: for the branch chain with `N = 4`, `M = 2` (full cycle =
10 advances from all-zero), the projection of the visited sequence onto
indices `{1,2}` (consecutive duplicates dropped) equals the forward-chain
(`bump`) visited sequence for `N = 2`, while the projection onto `{3,4}`
equals the *reverse-chain* (`cobump`) visited sequence for `N = 2`: the
two segments are segment-locally self-similar, but the upper segment
follows the reverse-chain coupling, not the forward-chain one. -/
theorem mbump_projections_amended :
    (runTrace ⟨4, 2, [1, 3, 4]⟩ .mbump 1000 10 (.unstarted 1) [0,0,0,0]).map
        (fun t => projVisited [1, 2] (visitedActive t [0,0,0,0])) =
      (runTrace ⟨2, 2, [1, 3, 4]⟩ .bump 1000 6 (.unstarted 1) [0,0]).map
        (fun t => (visitedActive t [0,0]).destutter (· ≠ ·)) ∧
    (runTrace ⟨4, 2, [1, 3, 4]⟩ .mbump 1000 10 (.unstarted 1) [0,0,0,0]).map
        (fun t => projVisited [3, 4] (visitedActive t [0,0,0,0])) =
      (runTrace ⟨2, 2, [1, 3, 4]⟩ .cobump 1000 6 (.unstarted 1) [0,0]).map
        (fun t => (visitedActive t [0,0]).destutter (· ≠ ·)) := by decide

/-! ### Basic lemmas about the relational semantics -/

theorem Sil.trans {g kind} {s L s1 L1 s2 L2} (h1 : Sil g kind s L s1 L1)
    (h2 : Sil g kind s1 L1 s2 L2) : Sil g kind s L s2 L2 := by
  induction h1 with
  | refl => exact h2
  | step hm _ ih => exact Sil.step hm (ih h2)

theorem Sil.advR {g kind} {s L s1 L1 b s2 L2} (h1 : Sil g kind s L s1 L1)
    (h2 : AdvR g kind s1 L1 b s2 L2) : AdvR g kind s L b s2 L2 := by
  obtain ⟨t, M, hsil, hm⟩ := h2
  exact ⟨t, M, h1.trans hsil, hm⟩

theorem Sil.emits {g kind} {s L s1 L1 b p tr s2 L2} (h1 : Sil g kind s L s1 L1)
    (h2 : Emits g kind s1 L1 ((b, p) :: tr) s2 L2) :
    Emits g kind s L ((b, p) :: tr) s2 L2 := by
  cases h2 with
  | cons ha he => exact Emits.cons (h1.advR ha) he

theorem Emits.append {g kind} {s L tr1 s1 L1 tr2 s2 L2}
    (h1 : Emits g kind s L tr1 s1 L1) (h2 : Emits g kind s1 L1 tr2 s2 L2) :
    Emits g kind s L (tr1 ++ tr2) s2 L2 := by
  induction h1 with
  | nil => exact h2
  | cons ha _ ih => exact Emits.cons ha (ih h2)

theorem microStep_ne_absent {g kind s L} (h : s ≠ .absent) :
    (microStep g kind s L).2.1 ≠ .absent := by
  match s with
  | .absent => exact absurd rfl h
  | .unstarted k => simp [microStep]
  | .running k [] c0 c1 => simp [microStep]
  | .running k (.emit b :: r) c0 c1 => simp [microStep]
  | .running k (.set j v :: r) c0 c1 => simp [microStep]
  | .running k (.toggle j :: r) c0 c1 => simp [microStep]
  | .running k (.drain false :: r) c0 c1 =>
      by_cases hc : c0 = .absent
      · simp only [microStep, if_pos hc]
        match childSpec g kind k false with
        | none => simp
        | some ck => simp
      · simp only [microStep, if_neg hc]
        match microStep g kind c0 L with
        | (some true, c0', L') => simp
        | (some false, c0', L') => simp
        | (none, c0', L') => simp
  | .running k (.drain true :: r) c0 c1 =>
      by_cases hc : c1 = .absent
      · simp only [microStep, if_pos hc]
        match childSpec g kind k true with
        | none => simp
        | some ck => simp
      · simp only [microStep, if_neg hc]
        match microStep g kind c1 L with
        | (some true, c1', L') => simp
        | (some false, c1', L') => simp
        | (none, c1', L') => simp
  | .running k (.fwd false :: r) c0 c1 =>
      by_cases hc : c0 = .absent
      · simp only [microStep, if_pos hc]
        match childSpec g kind k false with
        | none => simp
        | some ck => simp
      · simp only [microStep, if_neg hc]
        match microStep g kind c0 L with
        | (some b, c0', L') => simp
        | (none, c0', L') => simp
  | .running k (.fwd true :: r) c0 c1 =>
      by_cases hc : c1 = .absent
      · simp only [microStep, if_pos hc]
        match childSpec g kind k true with
        | none => simp
        | some ck => simp
      · simp only [microStep, if_neg hc]
        match microStep g kind c1 L with
        | (some b, c1', L') => simp
        | (none, c1', L') => simp

theorem microStep_result_ne_absent {g kind s L o s' L'} (h : s ≠ .absent)
    (hm : microStep g kind s L = (o, s', L')) : s' ≠ .absent := by
  have h2 : (microStep g kind s L).2.1 ≠ .absent := microStep_ne_absent h
  rw [hm] at h2
  exact h2

theorem microStep_drain0 {g kind k r c0 c1 L} (hc : c0 ≠ .absent) :
    microStep g kind (.running k (.drain false :: r) c0 c1) L =
      match microStep g kind c0 L with
      | (some true, c0', L') => (some true, .running k (.drain false :: r) c0' c1, L')
      | (some false, c0', L') => (none, .running k r c0' c1, L')
      | (none, c0', L') => (none, .running k (.drain false :: r) c0' c1, L') := by
  simp only [microStep, if_neg hc]

theorem microStep_drain1 {g kind k r c0 c1 L} (hc : c1 ≠ .absent) :
    microStep g kind (.running k (.drain true :: r) c0 c1) L =
      match microStep g kind c1 L with
      | (some true, c1', L') => (some true, .running k (.drain true :: r) c0 c1', L')
      | (some false, c1', L') => (none, .running k r c0 c1', L')
      | (none, c1', L') => (none, .running k (.drain true :: r) c0 c1', L') := by
  simp only [microStep, if_neg hc]

theorem microStep_fwd0 {g kind k r c0 c1 L} (hc : c0 ≠ .absent) :
    microStep g kind (.running k (.fwd false :: r) c0 c1) L =
      match microStep g kind c0 L with
      | (some b, c0', L') => (some b, .running k r c0' c1, L')
      | (none, c0', L') => (none, .running k (.fwd false :: r) c0' c1, L') := by
  simp only [microStep, if_neg hc]

theorem microStep_fwd1 {g kind k r c0 c1 L} (hc : c1 ≠ .absent) :
    microStep g kind (.running k (.fwd true :: r) c0 c1) L =
      match microStep g kind c1 L with
      | (some b, c1', L') => (some b, .running k r c0 c1', L')
      | (none, c1', L') => (none, .running k (.fwd true :: r) c0 c1', L') := by
  simp only [microStep, if_neg hc]

theorem Sil.drain0 {g kind k r c1} {c L c' L'} (h : Sil g kind c L c' L')
    (hc : c ≠ .absent) :
    Sil g kind (.running k (.drain false :: r) c c1) L
      (.running k (.drain false :: r) c' c1) L' := by
  induction h with
  | refl => exact Sil.refl _ _
  | step hm hs ih =>
      refine Sil.step ?_ (ih ?_)
      · rw [microStep_drain0 hc, hm]
      · exact microStep_result_ne_absent hc hm

theorem Sil.drain1 {g kind k r c0} {c L c' L'} (h : Sil g kind c L c' L')
    (hc : c ≠ .absent) :
    Sil g kind (.running k (.drain true :: r) c0 c) L
      (.running k (.drain true :: r) c0 c') L' := by
  induction h with
  | refl => exact Sil.refl _ _
  | step hm hs ih =>
      refine Sil.step ?_ (ih ?_)
      · rw [microStep_drain1 hc, hm]
      · exact microStep_result_ne_absent hc hm

theorem Sil.fwd0 {g kind k r c1} {c L c' L'} (h : Sil g kind c L c' L')
    (hc : c ≠ .absent) :
    Sil g kind (.running k (.fwd false :: r) c c1) L
      (.running k (.fwd false :: r) c' c1) L' := by
  induction h with
  | refl => exact Sil.refl _ _
  | step hm hs ih =>
      refine Sil.step ?_ (ih ?_)
      · rw [microStep_fwd0 hc, hm]
      · exact microStep_result_ne_absent hc hm

theorem Sil.fwd1 {g kind k r c0} {c L c' L'} (h : Sil g kind c L c' L')
    (hc : c ≠ .absent) :
    Sil g kind (.running k (.fwd true :: r) c0 c) L
      (.running k (.fwd true :: r) c0 c') L' := by
  induction h with
  | refl => exact Sil.refl _ _
  | step hm hs ih =>
      refine Sil.step ?_ (ih ?_)
      · rw [microStep_fwd1 hc, hm]
      · exact microStep_result_ne_absent hc hm

theorem Sil_ne_absent {g kind} {s L s' L'} (h : Sil g kind s L s' L')
    (hs : s ≠ .absent) : s' ≠ .absent := by
  induction h with
  | refl => exact hs
  | step hm _ ih =>
      exact ih (microStep_result_ne_absent hs hm)

theorem AdvR.drain0_true {g kind k r c1} {c L c' L'}
    (h : AdvR g kind c L true c' L') (hc : c ≠ .absent) :
    AdvR g kind (.running k (.drain false :: r) c c1) L true
      (.running k (.drain false :: r) c' c1) L' := by
  obtain ⟨c0, L0, hsil, hm⟩ := h
  refine ⟨_, _, hsil.drain0 hc, ?_⟩
  rw [microStep_drain0 (Sil_ne_absent hsil hc), hm]

theorem AdvR.drain1_true {g kind k r c0} {c L c' L'}
    (h : AdvR g kind c L true c' L') (hc : c ≠ .absent) :
    AdvR g kind (.running k (.drain true :: r) c0 c) L true
      (.running k (.drain true :: r) c0 c') L' := by
  obtain ⟨t, L0, hsil, hm⟩ := h
  refine ⟨_, _, hsil.drain1 hc, ?_⟩
  rw [microStep_drain1 (Sil_ne_absent hsil hc), hm]

theorem AdvR.drain0_false {g kind k r c1} {c L c' L'}
    (h : AdvR g kind c L false c' L') (hc : c ≠ .absent) :
    Sil g kind (.running k (.drain false :: r) c c1) L
      (.running k r c' c1) L' := by
  obtain ⟨t, L0, hsil, hm⟩ := h
  refine (hsil.drain0 hc).trans (Sil.step ?_ (Sil.refl _ _))
  rw [microStep_drain0 (Sil_ne_absent hsil hc), hm]

theorem AdvR.drain1_false {g kind k r c0} {c L c' L'}
    (h : AdvR g kind c L false c' L') (hc : c ≠ .absent) :
    Sil g kind (.running k (.drain true :: r) c0 c) L
      (.running k r c0 c') L' := by
  obtain ⟨t, L0, hsil, hm⟩ := h
  refine (hsil.drain1 hc).trans (Sil.step ?_ (Sil.refl _ _))
  rw [microStep_drain1 (Sil_ne_absent hsil hc), hm]

theorem AdvR.fwd0_lift {g kind k r c1} {c L b c' L'}
    (h : AdvR g kind c L b c' L') (hc : c ≠ .absent) :
    AdvR g kind (.running k (.fwd false :: r) c c1) L b
      (.running k r c' c1) L' := by
  obtain ⟨t, L0, hsil, hm⟩ := h
  refine ⟨_, _, hsil.fwd0 hc, ?_⟩
  rw [microStep_fwd0 (Sil_ne_absent hsil hc), hm]

theorem AdvR.fwd1_lift {g kind k r c0} {c L b c' L'}
    (h : AdvR g kind c L b c' L') (hc : c ≠ .absent) :
    AdvR g kind (.running k (.fwd true :: r) c0 c) L b
      (.running k r c0 c') L' := by
  obtain ⟨t, L0, hsil, hm⟩ := h
  refine ⟨_, _, hsil.fwd1 hc, ?_⟩
  rw [microStep_fwd1 (Sil_ne_absent hsil hc), hm]

theorem Emits_ne_absent {g kind} {s L tr s' L'} (h : Emits g kind s L tr s' L')
    (hs : s ≠ .absent) : s' ≠ .absent := by
  induction h with
  | nil => exact hs
  | cons ha _ ih =>
      obtain ⟨t, M, hsil, hm⟩ := ha
      exact ih (microStep_result_ne_absent (Sil_ne_absent hsil hs) hm)

theorem Emits.drainLift0 {g kind k r c1} {c L snaps c' L'}
    (h : Emits g kind c L (activesOf snaps) c' L') (hc : c ≠ .absent) :
    Emits g kind (.running k (.drain false :: r) c c1) L (activesOf snaps)
      (.running k (.drain false :: r) c' c1) L' := by
  induction snaps generalizing c L with
  | nil =>
      cases h
      exact Emits.nil _ _
  | cons p t ih =>
      cases h with
      | cons ha he =>
          refine Emits.cons (ha.drain0_true hc) (ih he ?_)
          obtain ⟨t0, M, hsil, hm⟩ := ha
          exact microStep_result_ne_absent (Sil_ne_absent hsil hc) hm

theorem Emits.drainLift1 {g kind k r c0} {c L snaps c' L'}
    (h : Emits g kind c L (activesOf snaps) c' L') (hc : c ≠ .absent) :
    Emits g kind (.running k (.drain true :: r) c0 c) L (activesOf snaps)
      (.running k (.drain true :: r) c0 c') L' := by
  induction snaps generalizing c L with
  | nil =>
      cases h
      exact Emits.nil _ _
  | cons p t ih =>
      cases h with
      | cons ha he =>
          refine Emits.cons (ha.drain1_true hc) (ih he ?_)
          obtain ⟨t0, M, hsil, hm⟩ := ha
          exact microStep_result_ne_absent (Sil_ne_absent hsil hc) hm

theorem Sil.emitsNe {g kind} {s L s1 L1 tr s2 L2} (h1 : Sil g kind s L s1 L1)
    (h2 : Emits g kind s1 L1 tr s2 L2) (hne : tr ≠ []) :
    Emits g kind s L tr s2 L2 := by
  cases h2 with
  | nil => exact absurd rfl hne
  | cons ha he => exact Emits.cons (h1.advR ha) he

theorem activesOf_append (a b : List (List Nat)) :
    activesOf (a ++ b) = activesOf a ++ activesOf b := by
  simp [activesOf]

theorem fwdHalf_fst_ne_nil (k h : Nat) (L : List Nat) : (fwdHalf k h L).1 ≠ [] := by
  cases h <;> simp [fwdHalf]

theorem bump_body_lt {g : Globals} {k : Nat} (h : k < g.N) :
    body g .bump k = [.drain false, .set k 1, .emit true, .emit false,
      .set k 0, .emit true, .drain false, .emit false] := by
  simp [body, if_pos h]

theorem bump_body_leaf {g : Globals} {k : Nat} (h : ¬ k < g.N) :
    body g .bump k =
      [.set k 1, .emit true, .emit false, .set k 0, .emit true, .emit false] := by
  simp [body, if_neg h]

theorem bump_pre_mid (g : Globals) (h k : Nat) (L : List Nat) :
    AdvR g .bump (bumpPreMidS h k) L false (bumpMidS h k) L := by
  cases h <;> exact ⟨_, _, Sil.refl _ _, rfl⟩

theorem bump_pre_end (g : Globals) (h k : Nat) (L : List Nat) :
    AdvR g .bump (bumpPreEndS h k) L false (bumpEndS h k) L := by
  cases h <;> exact ⟨_, _, Sil.refl _ _, rfl⟩

theorem bump_first_half (g : Globals) :
    ∀ h k L s, k + h = g.N → (s = .unstarted k ∨ s = bumpEndS h k) →
      Emits g .bump s L (activesOf (fwdHalf k h L).1) (bumpPreMidS h k)
        (fwdHalf k h L).2 := by
  intro h
  induction h with
  | zero =>
      intro k L s hk hs
      have hnl : ¬ k < g.N := by omega
      have e2 : microStep g .bump (.running k [] .absent .absent) L =
          (none, .running k [.set k 1, .emit true, .emit false,
            .set k 0, .emit true, .emit false] .absent .absent, L) := by
        show (none, GenS.running k (body g .bump k) .absent .absent, L) = _
        rw [bump_body_leaf hnl]
      have hsil : Sil g .bump s L
          (.running k [.set k 1, .emit true, .emit false,
            .set k 0, .emit true, .emit false] .absent .absent) L := by
        rcases hs with rfl | rfl
        · exact Sil.step rfl (Sil.step e2 (Sil.refl _ _))
        · exact Sil.step e2 (Sil.refl _ _)
      exact Emits.cons ⟨_, _, hsil.trans (Sil.step rfl (Sil.refl _ _)), rfl⟩ (Emits.nil _ _)
  | succ h ih =>
      intro k L s hk hs
      have hlt : k < g.N := by omega
      have e2 : microStep g .bump
          (.running k [] (bumpEndS h (k+1)) .absent) L =
          (none, .running k [.drain false, .set k 1, .emit true, .emit false,
            .set k 0, .emit true, .drain false, .emit false] (bumpEndS h (k+1)) .absent, L) := by
        show (none, GenS.running k (body g .bump k) _ _, L) = _
        rw [bump_body_lt hlt]
      have e2' : microStep g .bump (.running k [] .absent .absent) L =
          (none, .running k [.drain false, .set k 1, .emit true, .emit false,
            .set k 0, .emit true, .drain false, .emit false] .absent .absent, L) := by
        show (none, GenS.running k (body g .bump k) _ _, L) = _
        rw [bump_body_lt hlt]
      have ecreate : microStep g .bump
          (.running k (.drain false :: [.set k 1, .emit true, .emit false,
            .set k 0, .emit true, .drain false, .emit false]) .absent .absent) L =
          (none, .running k (.drain false :: [.set k 1, .emit true, .emit false,
            .set k 0, .emit true, .drain false, .emit false]) (.unstarted (k+1)) .absent, L) := by
        have : childSpec g .bump k false = some (k+1) := by
          simp [childSpec, if_pos hlt]
        simp [microStep, this]
      -- silent prefix to the drain state with the child at its loop point
      have key : ∀ c, (c = GenS.unstarted (k+1) ∨ c = bumpEndS h (k+1)) →
          Sil g .bump s L (.running k (.drain false :: [.set k 1, .emit true, .emit false,
            .set k 0, .emit true, .drain false, .emit false]) c .absent) L →
          Emits g .bump s L (activesOf (fwdHalf k (h+1) L).1) (bumpPreMidS (h+1) k)
            (fwdHalf k (h+1) L).2 := by
        intro c hc hsil
        have hcne : c ≠ .absent := by rcases hc with rfl | rfl <;> (cases h <;> simp [bumpEndS])
        have hchild := ih (k+1) L c (by omega) hc
        have hlift : Emits g .bump
            (.running k (.drain false :: [.set k 1, .emit true, .emit false,
              .set k 0, .emit true, .drain false, .emit false]) c .absent) L
            (activesOf (fwdHalf (k+1) h L).1)
            (.running k (.drain false :: [.set k 1, .emit true, .emit false,
              .set k 0, .emit true, .drain false, .emit false]) (bumpPreMidS h (k+1)) .absent)
            (fwdHalf (k+1) h L).2 := hchild.drainLift0 hcne
        have habsorb : Sil g .bump
            (.running k (.drain false :: [.set k 1, .emit true, .emit false,
              .set k 0, .emit true, .drain false, .emit false]) (bumpPreMidS h (k+1)) .absent)
            (fwdHalf (k+1) h L).2
            (.running k [.set k 1, .emit true, .emit false,
              .set k 0, .emit true, .drain false, .emit false] (bumpMidS h (k+1)) .absent)
            (fwdHalf (k+1) h L).2 :=
          (bump_pre_mid g h (k+1) (fwdHalf (k+1) h L).2).drain0_false
            (by cases h <;> simp [bumpPreMidS])
        have hset : Sil g .bump
            (.running k [.set k 1, .emit true, .emit false,
              .set k 0, .emit true, .drain false, .emit false] (bumpMidS h (k+1)) .absent)
            (fwdHalf (k+1) h L).2
            (.running k [.emit true, .emit false,
              .set k 0, .emit true, .drain false, .emit false] (bumpMidS h (k+1)) .absent)
            ((fwdHalf (k+1) h L).2.set (k-1) 1) :=
          Sil.step rfl (Sil.refl _ _)
        have hfinal : AdvR g .bump
            (.running k [.set k 1, .emit true, .emit false,
              .set k 0, .emit true, .drain false, .emit false] (bumpMidS h (k+1)) .absent)
            (fwdHalf (k+1) h L).2 true
            (.running k [.emit false, .set k 0, .emit true, .drain false, .emit false]
              (bumpMidS h (k+1)) .absent)
            ((fwdHalf (k+1) h L).2.set (k-1) 1) :=
          ⟨_, _, hset, rfl⟩
        have hemits := hlift.append
          (Emits.cons ((habsorb.advR hfinal)) (Emits.nil _ _))
        have htr : activesOf (fwdHalf (k+1) h L).1 ++
            [(true, (fwdHalf (k+1) h L).2.set (k-1) 1)] = activesOf (fwdHalf k (h+1) L).1 := by
          show _ = activesOf ((fwdHalf (k+1) h L).1 ++ [(fwdHalf (k+1) h L).2.set (k-1) 1])
          rw [activesOf_append]
          rfl
        rw [htr] at hemits
        exact hsil.emitsNe hemits (by
          intro hemp
          have := fwdHalf_fst_ne_nil k (h+1) L
          simp [activesOf] at hemp
          exact this hemp)
      rcases hs with rfl | rfl
      · exact key (GenS.unstarted (k+1)) (Or.inl rfl)
          (Sil.step rfl (Sil.step e2' (Sil.step ecreate (Sil.refl _ _))))
      · exact key (bumpEndS h (k+1)) (Or.inr rfl)
          (Sil.step e2 (Sil.refl _ _))

theorem bump_tail_adv (g : Globals) (h k : Nat) (L : List Nat) :
    AdvR g .bump (bumpTailS h k) L false (bumpEndS h k) L := by
  induction h generalizing k with
  | zero => exact ⟨_, _, Sil.refl _ _, rfl⟩
  | succ h ih =>
      have habsorb : Sil g .bump
          (.running k [.drain false, .emit false] (bumpTailS h (k+1)) .absent) L
          (.running k [.emit false] (bumpEndS h (k+1)) .absent) L :=
        (ih (k+1)).drain0_false (by cases h <;> simp [bumpTailS])
      exact ⟨_, _, habsorb, rfl⟩

theorem bwdHalf_fst_ne_nil (k h : Nat) (L : List Nat) : (bwdHalf k h L).1 ≠ [] := by
  cases h <;> simp [bwdHalf]

theorem bump_second_half (g : Globals) :
    ∀ h k L, k + h = g.N →
      Emits g .bump (bumpMidS h k) L (activesOf (bwdHalf k h L).1) (bumpTailS h k)
        (bwdHalf k h L).2 := by
  intro h
  induction h with
  | zero =>
      intro k L hk
      exact Emits.cons ⟨_, _, Sil.step rfl (Sil.refl _ _), rfl⟩ (Emits.nil _ _)
  | succ h ih =>
      intro k L hk
      -- set k 0, then the active step of unit k, then the child's second half
      have hstep : AdvR g .bump (bumpMidS (h+1) k) L true
          (.running k [.drain false, .emit false] (bumpMidS h (k+1)) .absent)
          (L.set (k-1) 0) :=
        ⟨_, _, Sil.step rfl (Sil.refl _ _), rfl⟩
      have hchild := ih (k+1) (L.set (k-1) 0) (by omega)
      have hlift : Emits g .bump
          (.running k [.drain false, .emit false] (bumpMidS h (k+1)) .absent)
          (L.set (k-1) 0)
          (activesOf (bwdHalf (k+1) h (L.set (k-1) 0)).1)
          (.running k [.drain false, .emit false] (bumpTailS h (k+1)) .absent)
          (bwdHalf (k+1) h (L.set (k-1) 0)).2 :=
        hchild.drainLift0 (by cases h <;> simp [bumpMidS])
      have := Emits.cons hstep hlift
      show Emits g .bump (bumpMidS (h+1) k) L
        (activesOf (L.set (k-1) 0 :: (bwdHalf (k+1) h (L.set (k-1) 0)).1))
        (bumpTailS (h+1) k) (bwdHalf (k+1) h (L.set (k-1) 0)).2
      exact this

theorem bump_cycle_emits (g : Globals) (h k : Nat) (L : List Nat) (s : GenS)
    (hk : k + h = g.N) (hs : s = .unstarted k ∨ s = bumpEndS h k) :
    Emits g .bump s L
      (activesOf (fwdHalf k h L).1 ++ [(false, (fwdHalf k h L).2)] ++
       activesOf (bwdHalf k h (fwdHalf k h L).2).1 ++
       [(false, (bwdHalf k h (fwdHalf k h L).2).2)])
      (bumpEndS h k) (bwdHalf k h (fwdHalf k h L).2).2 := by
  have h1 := bump_first_half g h k L s hk hs
  have h2 := Emits.cons (bump_pre_mid g h k (fwdHalf k h L).2) (Emits.nil _ _)
  have h3 := bump_second_half g h k (fwdHalf k h L).2 hk
  have h4 := Emits.cons (bump_tail_adv g h k (bwdHalf k h (fwdHalf k h L).2).2) (Emits.nil _ _)
  have := ((h1.append h2).append h3).append h4
  simpa using this

theorem cobump_body_lt {g : Globals} {k : Nat} (h : k < g.N) :
    body g .cobump k = [.set k 1, .emit true, .drain false, .emit false,
      .drain false, .set k 0, .emit true, .emit false] := by
  simp [body, if_pos h]

theorem cobump_body_leaf {g : Globals} {k : Nat} (h : ¬ k < g.N) :
    body g .cobump k =
      [.set k 1, .emit true, .emit false, .set k 0, .emit true, .emit false] := by
  simp [body, if_neg h]

theorem co_tail_adv (g : Globals) (h k : Nat) (L : List Nat) :
    AdvR g .cobump (coTailS h k) L false (coMidS h k) L := by
  induction h generalizing k with
  | zero => exact ⟨_, _, Sil.refl _ _, rfl⟩
  | succ h ih =>
      have habsorb : Sil g .cobump
          (.running k [.drain false, .emit false, .drain false, .set k 0, .emit true,
            .emit false] (coTailS h (k+1)) .absent) L
          (.running k [.emit false, .drain false, .set k 0, .emit true,
            .emit false] (coMidS h (k+1)) .absent) L :=
        (ih (k+1)).drain0_false (by cases h <;> simp [coTailS])
      exact ⟨_, _, habsorb, rfl⟩

theorem co_pre_end (g : Globals) (h k : Nat) (L : List Nat) :
    AdvR g .cobump (coPreEndS h k) L false (coEndS h k) L := by
  cases h <;> exact ⟨_, _, Sil.refl _ _, rfl⟩

theorem cofwdHalf_fst_ne_nil (k h : Nat) (L : List Nat) : (cofwdHalf k h L).1 ≠ [] := by
  cases h <;> simp [cofwdHalf]

theorem co_first_half (g : Globals) :
    ∀ h k L s, k + h = g.N → (s = .unstarted k ∨ s = coEndS h k) →
      Emits g .cobump s L (activesOf (cofwdHalf k h L).1) (coTailS h k)
        (cofwdHalf k h L).2 := by
  intro h
  induction h with
  | zero =>
      intro k L s hk hs
      have hnl : ¬ k < g.N := by omega
      have e2 : microStep g .cobump (.running k [] .absent .absent) L =
          (none, .running k [.set k 1, .emit true, .emit false,
            .set k 0, .emit true, .emit false] .absent .absent, L) := by
        show (none, GenS.running k (body g .cobump k) .absent .absent, L) = _
        rw [cobump_body_leaf hnl]
      have hsil : Sil g .cobump s L
          (.running k [.set k 1, .emit true, .emit false,
            .set k 0, .emit true, .emit false] .absent .absent) L := by
        rcases hs with rfl | rfl
        · exact Sil.step rfl (Sil.step e2 (Sil.refl _ _))
        · exact Sil.step e2 (Sil.refl _ _)
      exact Emits.cons ⟨_, _, hsil.trans (Sil.step rfl (Sil.refl _ _)), rfl⟩ (Emits.nil _ _)
  | succ h ih =>
      intro k L s hk hs
      have hlt : k < g.N := by omega
      have e2 : microStep g .cobump (.running k [] (coEndS h (k+1)) .absent) L =
          (none, .running k [.set k 1, .emit true, .drain false, .emit false,
            .drain false, .set k 0, .emit true, .emit false] (coEndS h (k+1)) .absent, L) := by
        show (none, GenS.running k (body g .cobump k) _ _, L) = _
        rw [cobump_body_lt hlt]
      have e2' : microStep g .cobump (.running k [] .absent .absent) L =
          (none, .running k [.set k 1, .emit true, .drain false, .emit false,
            .drain false, .set k 0, .emit true, .emit false] .absent .absent, L) := by
        show (none, GenS.running k (body g .cobump k) _ _, L) = _
        rw [cobump_body_lt hlt]
      have hne : activesOf (cofwdHalf (k+1) h (L.set (k-1) 1)).1 ≠ [] := by
        intro hemp
        exact cofwdHalf_fst_ne_nil (k+1) h (L.set (k-1) 1) (by simpa [activesOf] using hemp)
      rcases hs with rfl | rfl
      · have hstep : AdvR g .cobump (.unstarted k) L true
            (.running k [.drain false, .emit false, .drain false, .set k 0, .emit true,
              .emit false] .absent .absent) (L.set (k-1) 1) :=
          ⟨_, _, Sil.step rfl (Sil.step e2' (Sil.step rfl (Sil.refl _ _))), rfl⟩
        have ecreate : microStep g .cobump
            (.running k [.drain false, .emit false, .drain false, .set k 0, .emit true,
              .emit false] .absent .absent) (L.set (k-1) 1) =
            (none, .running k [.drain false, .emit false, .drain false, .set k 0, .emit true,
              .emit false] (.unstarted (k+1)) .absent, L.set (k-1) 1) := by
          have hcs : childSpec g .cobump k false = some (k+1) := by
            simp [childSpec, if_pos hlt]
          simp [microStep, hcs]
        have hchild := ih (k+1) (L.set (k-1) 1) (.unstarted (k+1)) (by omega) (Or.inl rfl)
        have hlift : Emits g .cobump
            (.running k [.drain false, .emit false, .drain false, .set k 0, .emit true,
              .emit false] (.unstarted (k+1)) .absent) (L.set (k-1) 1)
            (activesOf (cofwdHalf (k+1) h (L.set (k-1) 1)).1)
            (.running k [.drain false, .emit false, .drain false, .set k 0, .emit true,
              .emit false] (coTailS h (k+1)) .absent)
            (cofwdHalf (k+1) h (L.set (k-1) 1)).2 :=
          hchild.drainLift0 (by simp)
        have hrest := (Sil.step ecreate (Sil.refl _ _)).emitsNe hlift hne
        have hall := Emits.cons hstep hrest
        show Emits g .cobump _ L
          (activesOf (L.set (k-1) 1 :: (cofwdHalf (k+1) h (L.set (k-1) 1)).1))
          (coTailS (h+1) k) (cofwdHalf (k+1) h (L.set (k-1) 1)).2
        exact hall
      · have hstep : AdvR g .cobump (coEndS (h+1) k) L true
            (.running k [.drain false, .emit false, .drain false, .set k 0, .emit true,
              .emit false] (coEndS h (k+1)) .absent) (L.set (k-1) 1) :=
          ⟨_, _, Sil.step e2 (Sil.step rfl (Sil.refl _ _)), rfl⟩
        have hchild := ih (k+1) (L.set (k-1) 1) (coEndS h (k+1)) (by omega) (Or.inr rfl)
        have hlift : Emits g .cobump
            (.running k [.drain false, .emit false, .drain false, .set k 0, .emit true,
              .emit false] (coEndS h (k+1)) .absent) (L.set (k-1) 1)
            (activesOf (cofwdHalf (k+1) h (L.set (k-1) 1)).1)
            (.running k [.drain false, .emit false, .drain false, .set k 0, .emit true,
              .emit false] (coTailS h (k+1)) .absent)
            (cofwdHalf (k+1) h (L.set (k-1) 1)).2 :=
          hchild.drainLift0 (by cases h <;> simp [coEndS])
        have hall := Emits.cons hstep hlift
        show Emits g .cobump _ L
          (activesOf (L.set (k-1) 1 :: (cofwdHalf (k+1) h (L.set (k-1) 1)).1))
          (coTailS (h+1) k) (cofwdHalf (k+1) h (L.set (k-1) 1)).2
        exact hall

theorem co_second_half (g : Globals) :
    ∀ h k L, k + h = g.N →
      Emits g .cobump (coMidS h k) L (activesOf (cobwdHalf k h L).1) (coPreEndS h k)
        (cobwdHalf k h L).2 := by
  intro h
  induction h with
  | zero =>
      intro k L hk
      exact Emits.cons ⟨_, _, Sil.step rfl (Sil.refl _ _), rfl⟩ (Emits.nil _ _)
  | succ h ih =>
      intro k L hk
      have hchild := ih (k+1) L (by omega)
      have hlift : Emits g .cobump (coMidS (h+1) k) L
          (activesOf (cobwdHalf (k+1) h L).1)
          (.running k [.drain false, .set k 0, .emit true, .emit false]
            (coPreEndS h (k+1)) .absent)
          (cobwdHalf (k+1) h L).2 :=
        hchild.drainLift0 (by cases h <;> simp [coMidS])
      have habsorb : Sil g .cobump
          (.running k [.drain false, .set k 0, .emit true, .emit false]
            (coPreEndS h (k+1)) .absent) (cobwdHalf (k+1) h L).2
          (.running k [.set k 0, .emit true, .emit false] (coEndS h (k+1)) .absent)
          (cobwdHalf (k+1) h L).2 :=
        (co_pre_end g h (k+1) (cobwdHalf (k+1) h L).2).drain0_false
          (by cases h <;> simp [coPreEndS])
      have hfinal : AdvR g .cobump
          (.running k [.set k 0, .emit true, .emit false] (coEndS h (k+1)) .absent)
          (cobwdHalf (k+1) h L).2 true
          (.running k [.emit false] (coEndS h (k+1)) .absent)
          ((cobwdHalf (k+1) h L).2.set (k-1) 0) :=
        ⟨_, _, Sil.step rfl (Sil.refl _ _), rfl⟩
      have hall := hlift.append (Emits.cons (habsorb.advR hfinal) (Emits.nil _ _))
      have htr : activesOf (cobwdHalf (k+1) h L).1 ++
          [(true, (cobwdHalf (k+1) h L).2.set (k-1) 0)] =
          activesOf (cobwdHalf k (h+1) L).1 := by
        show _ = activesOf ((cobwdHalf (k+1) h L).1 ++ [(cobwdHalf (k+1) h L).2.set (k-1) 0])
        rw [activesOf_append]
        rfl
      rw [htr] at hall
      exact hall

theorem co_cycle_emits (g : Globals) (h k : Nat) (L : List Nat) (s : GenS)
    (hk : k + h = g.N) (hs : s = .unstarted k ∨ s = coEndS h k) :
    Emits g .cobump s L
      (activesOf (cofwdHalf k h L).1 ++ [(false, (cofwdHalf k h L).2)] ++
       activesOf (cobwdHalf k h (cofwdHalf k h L).2).1 ++
       [(false, (cobwdHalf k h (cofwdHalf k h L).2).2)])
      (coEndS h k) (cobwdHalf k h (cofwdHalf k h L).2).2 := by
  have h1 := co_first_half g h k L s hk hs
  have h2 := Emits.cons (co_tail_adv g h k (cofwdHalf k h L).2) (Emits.nil _ _)
  have h3 := co_second_half g h k (cofwdHalf k h L).2 hk
  have h4 := Emits.cons (co_pre_end g h k (cobwdHalf k h (cofwdHalf k h L).2).2) (Emits.nil _ _)
  have := ((h1.append h2).append h3).append h4
  simpa using this

theorem replicate_set_last (m : Nat) :
    (List.replicate (m+1) (0:Nat)).set m 1 = List.replicate m 0 ++ [1] := by
  induction m with
  | zero => rfl
  | succ m ih =>
      show ((0:Nat) :: List.replicate (m+1) 0).set (m+1) 1 = _
      rw [List.set_cons_succ, ih]
      rfl

theorem replicate_set_head (m : Nat) :
    (List.replicate (m+1) (1:Nat)).set 0 0 = 0 :: List.replicate m 1 := rfl

theorem lowVec_set_one {n i : Nat} (h : i < n) :
    (lowVec n i).set (n - i - 1) 1 = lowVec n (i+1) := by
  obtain ⟨a, ha⟩ : ∃ a, n - i = a + 1 := ⟨n - i - 1, by omega⟩
  have hb : n - i - 1 = a := by omega
  have hc : n - (i+1) = a := by omega
  unfold lowVec
  rw [List.set_append, if_pos (by simp; omega), hb, ha, replicate_set_last, hc,
    List.append_assoc]
  rfl

theorem lowVec_set_zero {n i : Nat} (h1 : 1 ≤ i) (h2 : i ≤ n) :
    (lowVec n i).set (n - i) 0 = lowVec n (i-1) := by
  obtain ⟨j, hj⟩ : ∃ j, i = j + 1 := ⟨i - 1, by omega⟩
  subst hj
  have ha : n - j = (n - (j+1)) + 1 := by omega
  unfold lowVec
  rw [List.set_append, if_neg (by simp)]
  have hlen : (List.replicate (n - (j+1)) (0:Nat)).length = n - (j+1) := by simp
  rw [hlen, Nat.sub_self]
  show List.replicate (n - (j+1)) 0 ++ ((0:Nat) :: List.replicate j 1) = _
  rw [show (j + 1 - 1) = j from by omega, ha,
    show List.replicate (n - (j+1) + 1) (0:Nat) = List.replicate (n - (j+1)) 0 ++ [0] from by
      simp [List.replicate_succ'],
    List.append_assoc]
  rfl

theorem hiVec_set_one {n i : Nat} (h : i < n) :
    (hiVec n i).set i 1 = hiVec n (i+1) := by
  obtain ⟨a, ha⟩ : ∃ a, n - i = a + 1 := ⟨n - i - 1, by omega⟩
  have hc : n - (i+1) = a := by omega
  unfold hiVec
  rw [List.set_append, if_neg (by simp)]
  have hlen : (List.replicate i (1:Nat)).length = i := by simp
  rw [hlen, Nat.sub_self, ha]
  show List.replicate i 1 ++ ((1:Nat) :: List.replicate a 0) = _
  rw [hc, show List.replicate (i+1) (1:Nat) = List.replicate i 1 ++ [1] from by
      simp [List.replicate_succ'], List.append_assoc]
  rfl

theorem hiVec_set_zero {n i : Nat} (h1 : 1 ≤ i) (h2 : i ≤ n) :
    (hiVec n i).set (i - 1) 0 = hiVec n (i-1) := by
  obtain ⟨j, hj⟩ : ∃ j, i = j + 1 := ⟨i - 1, by omega⟩
  subst hj
  have ha : n - j = (n - (j+1)) + 1 := by omega
  unfold hiVec
  rw [show (j + 1 - 1) = j from by omega]
  rw [show List.replicate (j+1) (1:Nat) = List.replicate j 1 ++ [1] from by
      simp [List.replicate_succ']]
  rw [List.append_assoc, List.set_append, if_neg (by simp)]
  have hlen : (List.replicate j (1:Nat)).length = j := by simp
  rw [hlen, Nat.sub_self]
  rw [ha, show List.replicate (n - (j+1) + 1) (0:Nat) = (0:Nat) :: List.replicate (n - (j+1)) 0 from rfl]
  rfl

theorem fwdHalf_char (n : Nat) :
    ∀ h k, 1 ≤ k → k + h = n →
      fwdHalf k h (lowVec n 0) =
        ((List.range (h+1)).map (fun i => lowVec n (i+1)), lowVec n (h+1)) := by
  intro h
  induction h with
  | zero =>
      intro k hk1 hkn
      show ([(lowVec n 0).set (k-1) 1], (lowVec n 0).set (k-1) 1) = _
      have := lowVec_set_one (n := n) (i := 0) (by omega)
      rw [show k - 1 = n - 0 - 1 from by omega, this]
      rfl
  | succ h ih =>
      intro k hk1 hkn
      show ((fwdHalf (k+1) h (lowVec n 0)).1 ++ [(fwdHalf (k+1) h (lowVec n 0)).2.set (k-1) 1],
        (fwdHalf (k+1) h (lowVec n 0)).2.set (k-1) 1) = _
      rw [ih (k+1) (by omega) (by omega)]
      have hset := lowVec_set_one (n := n) (i := h+1) (by omega)
      rw [show k - 1 = n - (h+1) - 1 from by omega]
      show ((List.range (h+1)).map (fun i => lowVec n (i+1)) ++ [(lowVec n (h+1)).set (n-(h+1)-1) 1],
        (lowVec n (h+1)).set (n-(h+1)-1) 1) = _
      rw [hset, show List.range (h+1+1) = List.range (h+1) ++ [h+1] from List.range_succ (h+1),
        List.map_append]
      rfl

theorem bwdHalf_char (n : Nat) :
    ∀ h k, 1 ≤ k → k + h = n →
      bwdHalf k h (lowVec n (n - k + 1)) =
        ((List.range (h+1)).map (fun i => lowVec n (n-k-i)), lowVec n (n-k-h)) := by
  intro h
  induction h with
  | zero =>
      intro k hk1 hkn
      show ((lowVec n (n-k+1)).set (k-1) 0 :: [], (lowVec n (n-k+1)).set (k-1) 0) = _
      have := lowVec_set_zero (n := n) (i := n-k+1) (by omega) (by omega)
      rw [show k - 1 = n - (n-k+1) from by omega, this,
        show n - k + 1 - 1 = n - k from by omega]
      rfl
  | succ h ih =>
      intro k hk1 hkn
      have hL0 : (lowVec n (n-k+1)).set (k-1) 0 = lowVec n (n-k) := by
        have := lowVec_set_zero (n := n) (i := n-k+1) (by omega) (by omega)
        rw [show k - 1 = n - (n-k+1) from by omega, this,
          show n - k + 1 - 1 = n - k from by omega]
      have ih' := ih (k+1) (by omega) (by omega)
      rw [show n - (k+1) + 1 = n - k from by omega] at ih'
      show ((lowVec n (n-k+1)).set (k-1) 0 ::
          (bwdHalf (k+1) h ((lowVec n (n-k+1)).set (k-1) 0)).1,
        (bwdHalf (k+1) h ((lowVec n (n-k+1)).set (k-1) 0)).2) = _
      rw [hL0, ih']
      refine Prod.ext ?_ ?_
      · show lowVec n (n-k) :: (List.range (h+1)).map (fun i => lowVec n (n-(k+1)-i)) =
          (List.range (h+1+1)).map (fun i => lowVec n (n-k-i))
        rw [show List.range (h+1+1) = 0 :: (List.range (h+1)).map Nat.succ from
          List.range_succ_eq_map (h+1), List.map_cons, List.map_map]
        refine congrArg₂ List.cons ?_ ?_
        · show lowVec n (n-k) = lowVec n (n-k-0)
          rw [Nat.sub_zero]
        · refine List.map_congr_left ?_
          intro i hi
          show lowVec n (n-(k+1)-i) = lowVec n (n-k-(Nat.succ i))
          rw [show n-(k+1)-i = n-k-(Nat.succ i) from by omega]
      · show lowVec n (n-(k+1)-h) = lowVec n (n-k-(h+1))
        rw [show n-(k+1)-h = n-k-(h+1) from by omega]

theorem cofwdHalf_char (n : Nat) :
    ∀ h k, 1 ≤ k → k + h = n →
      cofwdHalf k h (hiVec n (k-1)) =
        ((List.range (h+1)).map (fun i => hiVec n (k+i)), hiVec n (k+h)) := by
  intro h
  induction h with
  | zero =>
      intro k hk1 hkn
      show ((hiVec n (k-1)).set (k-1) 1 :: [], (hiVec n (k-1)).set (k-1) 1) = _
      have := hiVec_set_one (n := n) (i := k-1) (by omega)
      rw [this, show k - 1 + 1 = k from by omega]
      rfl
  | succ h ih =>
      intro k hk1 hkn
      have hL1 : (hiVec n (k-1)).set (k-1) 1 = hiVec n k := by
        have := hiVec_set_one (n := n) (i := k-1) (by omega)
        rw [this, show k - 1 + 1 = k from by omega]
      have ih' := ih (k+1) (by omega) (by omega)
      rw [show (k+1) - 1 = k from by omega] at ih'
      show ((hiVec n (k-1)).set (k-1) 1 ::
          (cofwdHalf (k+1) h ((hiVec n (k-1)).set (k-1) 1)).1,
        (cofwdHalf (k+1) h ((hiVec n (k-1)).set (k-1) 1)).2) = _
      rw [hL1, ih']
      refine Prod.ext ?_ ?_
      · show hiVec n k :: (List.range (h+1)).map (fun i => hiVec n ((k+1)+i)) =
          (List.range (h+1+1)).map (fun i => hiVec n (k+i))
        rw [show List.range (h+1+1) = 0 :: (List.range (h+1)).map Nat.succ from
          List.range_succ_eq_map (h+1), List.map_cons, List.map_map]
        refine congrArg₂ List.cons ?_ ?_
        · show hiVec n k = hiVec n (k+0)
          rw [Nat.add_zero]
        · refine List.map_congr_left ?_
          intro i hi
          show hiVec n ((k+1)+i) = hiVec n (k+(Nat.succ i))
          rw [show (k+1)+i = k+(Nat.succ i) from by omega]
      · show hiVec n ((k+1)+h) = _
        rw [show (k+1)+h = k+(h+1) from by omega]

theorem cobwdHalf_char (n : Nat) :
    ∀ h k, 1 ≤ k → k + h = n →
      cobwdHalf k h (hiVec n n) =
        ((List.range (h+1)).map (fun i => hiVec n (n-1-i)), hiVec n (k-1)) := by
  intro h
  induction h with
  | zero =>
      intro k hk1 hkn
      show ((hiVec n n).set (k-1) 0 :: [], (hiVec n n).set (k-1) 0) = _
      have := hiVec_set_zero (n := n) (i := n) (by omega) (by omega)
      rw [show k - 1 = n - 1 from by omega, this]
      rfl
  | succ h ih =>
      intro k hk1 hkn
      show ((cobwdHalf (k+1) h (hiVec n n)).1 ++ [(cobwdHalf (k+1) h (hiVec n n)).2.set (k-1) 0],
        (cobwdHalf (k+1) h (hiVec n n)).2.set (k-1) 0) = _
      rw [ih (k+1) (by omega) (by omega)]
      have hset : (hiVec n ((k+1)-1)).set (k-1) 0 = hiVec n (k-1) := by
        have := hiVec_set_zero (n := n) (i := k) (by omega) (by omega)
        rw [show (k+1) - 1 = k from by omega, this]
      show ((List.range (h+1)).map (fun i => hiVec n (n-1-i)) ++ [(hiVec n ((k+1)-1)).set (k-1) 0],
        (hiVec n ((k+1)-1)).set (k-1) 0) = _
      rw [hset]
      refine Prod.ext ?_ rfl
      show (List.range (h+1)).map (fun i => hiVec n (n-1-i)) ++ [hiVec n (k-1)] =
        (List.range (h+1+1)).map (fun i => hiVec n (n-1-i))
      have hr : List.range (h+1+1) = List.range (h+1) ++ [h+1] := List.range_succ (h+1)
      rw [hr, List.map_append]
      refine congrArg₂ _ rfl ?_
      show [hiVec n (k-1)] = [hiVec n (n-1-(h+1))]
      rw [show n-1-(h+1) = k-1 from by omega]

theorem advance_mono {g : Globals} {kind : GKind} :
    ∀ {f f' : Nat} {s L r}, f ≤ f' → advance g kind f s L = some r →
      advance g kind f' s L = some r := by
  intro f
  induction f with
  | zero => intro f' s L r _ h; simp [advance] at h
  | succ f ih =>
      intro f' s L r hle h
      obtain ⟨f'', rfl⟩ : ∃ f'', f' = f'' + 1 := ⟨f' - 1, by omega⟩
      rcases hms : microStep g kind s L with ⟨o, s1, L1⟩
      cases o with
      | some b =>
          rw [advance, hms] at h ⊢
          exact h
      | none =>
          rw [advance, hms] at h ⊢
          exact ih (by omega) h

theorem AdvR_advance {g : Globals} {kind : GKind} {s L b s' L'}
    (h : AdvR g kind s L b s' L') :
    ∃ f, advance g kind f s L = some (b, s', L') := by
  obtain ⟨s0, L0, hsil, hm⟩ := h
  induction hsil with
  | refl s L =>
      exact ⟨1, by rw [advance, hm]⟩
  | step hstep hs ih =>
      obtain ⟨f, hf⟩ := ih hm
      exact ⟨f + 1, by rw [advance, hstep]; exact hf⟩

theorem runTrace_succ_some {g : Globals} {kind : GKind} {F n s L b s1 L1}
    (ha : advance g kind F s L = some (b, s1, L1)) :
    runTrace g kind F (n+1) s L =
      (runTrace g kind F n s1 L1).map (fun t => (b, L1) :: t) := by
  rw [runTrace, ha]

theorem runTrace_mono {g : Globals} {kind : GKind} :
    ∀ {n : Nat} {F F' : Nat} {s L t}, F ≤ F' →
      runTrace g kind F n s L = some t → runTrace g kind F' n s L = some t := by
  intro n
  induction n with
  | zero => intro F F' s L t _ h; simpa [runTrace] using h
  | succ n ih =>
      intro F F' s L t hle h
      rcases ha : advance g kind F s L with _ | ⟨⟨b, s1, L1⟩⟩
      · rw [runTrace, ha] at h; exact absurd h (by simp)
      · rw [runTrace_succ_some ha] at h
        rw [runTrace_succ_some (advance_mono hle ha)]
        rcases hr : runTrace g kind F n s1 L1 with _ | t'
        · rw [hr] at h; exact absurd h (by simp)
        · rw [hr] at h
          rw [ih hle hr]
          exact h

theorem Emits_runTrace {g : Globals} {kind : GKind} {s L tr s' L'}
    (h : Emits g kind s L tr s' L') :
    ∃ F, runTrace g kind F tr.length s L = some tr := by
  induction h with
  | nil s L => exact ⟨1, rfl⟩
  | cons ha he ih =>
      obtain ⟨f1, hf1⟩ := AdvR_advance ha
      obtain ⟨F2, hF2⟩ := ih
      refine ⟨max f1 F2, ?_⟩
      have hF2' := runTrace_mono (Nat.le_max_right f1 F2) hF2
      rw [List.length_cons, runTrace_succ_some (advance_mono (Nat.le_max_left f1 F2) hf1),
        hF2']
      rfl

theorem lowVec_zero (n : Nat) : lowVec n 0 = List.replicate n 0 := by
  simp [lowVec]

theorem hiVec_zero (n : Nat) : hiVec n 0 = List.replicate n 0 := by
  simp [hiVec]

theorem lowVec_reverse (n i : Nat) : (lowVec n i).reverse = hiVec n i := by
  simp [lowVec, hiVec, List.reverse_append, List.reverse_replicate]

theorem bump_root_cycle (g : Globals) (hN : 1 ≤ g.N) (s : GenS)
    (hs : s = .unstarted 1 ∨ s = bumpEndS (g.N - 1) 1) :
    Emits g .bump s (List.replicate g.N 0) (bumpCycleTr g.N) (bumpEndS (g.N-1) 1)
      (lowVec g.N 0) := by
  have hk : 1 + (g.N - 1) = g.N := by omega
  have hc := bump_cycle_emits g (g.N - 1) 1 (List.replicate g.N 0) s hk hs
  rw [← lowVec_zero] at hc
  rw [fwdHalf_char g.N (g.N-1) 1 le_rfl hk] at hc
  have e1 : g.N - 1 + 1 = g.N := by omega
  simp only [] at hc
  rw [e1] at hc
  have hbwd := bwdHalf_char g.N (g.N-1) 1 le_rfl hk
  rw [show g.N - 1 + 1 = g.N from e1] at hbwd
  rw [hbwd] at hc
  have e2 : g.N - 1 - (g.N - 1) = 0 := by omega
  simp only [] at hc
  rw [e2] at hc
  unfold bumpCycleTr
  rw [← lowVec_zero]
  exact hc

theorem cobump_root_cycle (g : Globals) (hN : 1 ≤ g.N) (s : GenS)
    (hs : s = .unstarted 1 ∨ s = coEndS (g.N - 1) 1) :
    Emits g .cobump s (List.replicate g.N 0) (cobumpCycleTr g.N) (coEndS (g.N-1) 1)
      (hiVec g.N 0) := by
  have hk : 1 + (g.N - 1) = g.N := by omega
  have hc := co_cycle_emits g (g.N - 1) 1 (List.replicate g.N 0) s hk hs
  rw [← hiVec_zero] at hc
  have hch := cofwdHalf_char g.N (g.N-1) 1 le_rfl hk
  rw [show (1:Nat) - 1 = 0 from rfl] at hch
  have hmap : (List.range g.N).map (fun i => hiVec g.N (1+i)) =
      (List.range g.N).map (fun i => hiVec g.N (i+1)) := by
    refine List.map_congr_left ?_
    intro i _
    rw [Nat.add_comm]
  rw [show g.N - 1 + 1 = g.N from by omega] at hch
  rw [hmap, hk] at hch
  rw [hch] at hc
  simp only [] at hc
  have hcb := cobwdHalf_char g.N (g.N-1) 1 le_rfl hk
  rw [show (1:Nat) - 1 = 0 from rfl] at hcb
  rw [show g.N - 1 + 1 = g.N from by omega] at hcb
  rw [hcb] at hc
  simp only [] at hc
  unfold cobumpCycleTr
  rw [← hiVec_zero]
  exact hc

theorem activesOf_countP (l : List (List Nat)) :
    (activesOf l).countP (fun p => p.1) = l.length := by
  induction l with
  | nil => rfl
  | cons a t ih => simp [activesOf, List.countP_cons, ih]

theorem activesOf_map_rev (l : List (List Nat)) :
    (activesOf l).map (fun p => (p.1, p.2.reverse)) = activesOf (l.map List.reverse) := by
  induction l with
  | nil => rfl
  | cons a t ih => simp [activesOf, ih]

theorem bumpCycleTr_countP (n : Nat) : (bumpCycleTr n).countP (fun p => p.1) = 2*n := by
  unfold bumpCycleTr
  rw [List.countP_append, List.countP_append, List.countP_append,
    activesOf_countP, activesOf_countP]
  simp [List.countP_cons]
  omega

theorem bumpCycleTr_length (n : Nat) : (bumpCycleTr n).length = 2*n+2 := by
  simp [bumpCycleTr, activesOf]
  omega

theorem cobumpCycleTr_length (n : Nat) : (cobumpCycleTr n).length = 2*n+2 := by
  simp [cobumpCycleTr, activesOf]
  omega

theorem bumpCycleTr_getLast (n : Nat) :
    (bumpCycleTr n).getLast? = some (false, List.replicate n 0) := by
  unfold bumpCycleTr
  rw [List.append_assoc, List.append_assoc]
  rw [List.getLast?_append_of_ne_nil, List.getLast?_append_of_ne_nil, List.getLast?_concat,
    lowVec_zero]
  · simp
  · simp

theorem cobumpCycleTr_eq_map_reverse (n : Nat) :
    cobumpCycleTr n = (bumpCycleTr n).map (fun p => (p.1, p.2.reverse)) := by
  unfold bumpCycleTr cobumpCycleTr
  rw [List.map_append, List.map_append, List.map_append, activesOf_map_rev,
    activesOf_map_rev, List.map_map, List.map_map]
  refine congrArg₂ _ (congrArg₂ _ (congrArg₂ _ ?_ ?_) ?_) ?_
  · refine congrArg _ (List.map_congr_left ?_)
    intro i _
    show hiVec n (i+1) = (List.reverse ∘ fun i => lowVec n (i+1)) i
    simp [Function.comp, lowVec_reverse]
  · simp [lowVec_reverse]
  · refine congrArg _ (List.map_congr_left ?_)
    intro i _
    show hiVec n (n-1-i) = (List.reverse ∘ fun i => lowVec n (n-1-i)) i
    simp [Function.comp, lowVec_reverse]
  · simp [lowVec_reverse]

/-- C2, amended: the forward chain (`bump`) with `N = 3` rooted at unit 1,
started from `[0,0,0]`, yields over its full cycle the Active snapshots
`[001, 011, 111, 011, 001, 000]` — the `N+1 = 4` distinct chain-monotone
arrays, with consecutive snapshots differing in one bit — returning to
`[0,0,0]` after exactly `2N = 6` active steps; and in general, for every
`N ≥ 1`, the forward-chain traversal from all-zero runs the deterministic
cycle `bumpCycleTr N` (light `N, N-1, …, 1`, idle, clear `1, 2, …, N`,
idle) of `2N` active steps ending back at all-zero, and then repeats it. -/
theorem bump_cycle_amended :
    (runTrace ⟨3, 3, [1, 3, 4]⟩ .bump 100 8 (.unstarted 1) [0, 0, 0] =
      some [(true, [0,0,1]), (true, [0,1,1]), (true, [1,1,1]), (false, [1,1,1]),
            (true, [0,1,1]), (true, [0,0,1]), (true, [0,0,0]), (false, [0,0,0])] ∧
     (visitedActive [(true, [0,0,1]), (true, [0,1,1]), (true, [1,1,1]), (false, [1,1,1]),
       (true, [0,1,1]), (true, [0,0,1]), (true, [0,0,0]), (false, [0,0,0])]
       [0,0,0]).dedup.length = 4) ∧
    (∀ g : Globals, 1 ≤ g.N →
      ∃ F, runTrace g .bump F (2*g.N+2) (.unstarted 1) (List.replicate g.N 0) =
          some (bumpCycleTr g.N) ∧
        runTrace g .bump F (2*(2*g.N+2)) (.unstarted 1) (List.replicate g.N 0) =
          some (bumpCycleTr g.N ++ bumpCycleTr g.N)) ∧
    (∀ n : Nat, (bumpCycleTr n).countP (fun p => p.1) = 2*n ∧
      (bumpCycleTr n).getLast? = some (false, List.replicate n 0)) := by
  refine ⟨by decide, ?_, fun n => ⟨bumpCycleTr_countP n, bumpCycleTr_getLast n⟩⟩
  intro g hN
  have h1 := bump_root_cycle g hN (.unstarted 1) (Or.inl rfl)
  have h2 := bump_root_cycle g hN (bumpEndS (g.N-1) 1) (Or.inr rfl)
  rw [← lowVec_zero] at h2
  have hboth := h1.append h2
  obtain ⟨F1, hF1⟩ := Emits_runTrace h1
  obtain ⟨F2, hF2⟩ := Emits_runTrace hboth
  refine ⟨max F1 F2, ?_, ?_⟩
  · have := runTrace_mono (Nat.le_max_left F1 F2) hF1
    rwa [bumpCycleTr_length] at this
  · have := runTrace_mono (Nat.le_max_right F1 F2) hF2
    rwa [List.length_append, bumpCycleTr_length, show (2*g.N+2) + (2*g.N+2) = 2*(2*g.N+2)
      from by omega] at this

theorem bump_cycle_amended_witness :
    ∃ F, runTrace ⟨4, 2, []⟩ .bump F (2*4+2) (.unstarted 1) (List.replicate 4 0) =
        some (bumpCycleTr 4) ∧
      runTrace ⟨4, 2, []⟩ .bump F (2*(2*4+2)) (.unstarted 1) (List.replicate 4 0) =
        some (bumpCycleTr 4 ++ bumpCycleTr 4) :=
  bump_cycle_amended.2.1 ⟨4, 2, []⟩ (by decide)

/-- C5, counterexample: already for `N = 2` the multiset of Active-visited
arrays over a full cycle of the reverse chain, `{10, 11, 10, 00}`, differs
from the forward chain's `{01, 11, 01, 00}`: the two traversals do not
visit the same arrays at all (in any order). -/
theorem cobump_multiset_counterexample :
    runTrace ⟨2, 2, [1, 3, 4]⟩ .cobump 100 6 (.unstarted 1) [0, 0] =
      some [(true, [1,0]), (true, [1,1]), (false, [1,1]),
            (true, [1,0]), (true, [0,0]), (false, [0,0])] ∧
    runTrace ⟨2, 2, [1, 3, 4]⟩ .bump 100 6 (.unstarted 1) [0, 0] =
      some [(true, [0,1]), (true, [1,1]), (false, [1,1]),
            (true, [0,1]), (true, [0,0]), (false, [0,0])] ∧
    ¬ (([[1,0],[1,1],[1,0],[0,0]] : Multiset (List Nat)) =
       ([[0,1],[1,1],[0,1],[0,0]] : Multiset (List Nat))) := by
  refine ⟨by decide, by decide, by decide⟩

/-- C5, amended: for every fixed `N ≥ 1`, a full cycle of the reverse
chain is exactly the full cycle of the forward chain with every snapshot
reversed (index `k` exchanged with `N+1-k`); in particular the multiset of
visited arrays of the reverse chain equals the image under index reversal
of the forward chain's multiset (and only the visiting order of those
reversed states differs). -/
theorem cobump_mirror_amended :
    ∀ g : Globals, 1 ≤ g.N →
      (∃ F, runTrace g .cobump F (2*g.N+2) (.unstarted 1) (List.replicate g.N 0) =
          some (cobumpCycleTr g.N) ∧
        runTrace g .bump F (2*g.N+2) (.unstarted 1) (List.replicate g.N 0) =
          some (bumpCycleTr g.N)) ∧
      cobumpCycleTr g.N = (bumpCycleTr g.N).map (fun p => (p.1, p.2.reverse)) ∧
      (((cobumpCycleTr g.N).filter (fun p => p.1)).map (fun p => p.2) : Multiset (List Nat)) =
        ((((bumpCycleTr g.N).filter (fun p => p.1)).map (fun p => p.2)).map List.reverse :
          Multiset (List Nat)) := by
  intro g hN
  refine ⟨?_, cobumpCycleTr_eq_map_reverse g.N, ?_⟩
  · have h1 := cobump_root_cycle g hN (.unstarted 1) (Or.inl rfl)
    have h2 := bump_root_cycle g hN (.unstarted 1) (Or.inl rfl)
    obtain ⟨F1, hF1⟩ := Emits_runTrace h1
    obtain ⟨F2, hF2⟩ := Emits_runTrace h2
    refine ⟨max F1 F2, ?_, ?_⟩
    · have := runTrace_mono (Nat.le_max_left F1 F2) hF1
      rwa [cobumpCycleTr_length] at this
    · have := runTrace_mono (Nat.le_max_right F1 F2) hF2
      rwa [bumpCycleTr_length] at this
  · refine congrArg _ ?_
    rw [cobumpCycleTr_eq_map_reverse g.N]
    rw [List.filter_map, List.map_map, List.map_map]
    rfl

theorem cobump_mirror_amended_witness :
    (∃ F, runTrace ⟨3, 2, []⟩ .cobump F (2*3+2) (.unstarted 1) (List.replicate 3 0) =
        some (cobumpCycleTr 3) ∧
      runTrace ⟨3, 2, []⟩ .bump F (2*3+2) (.unstarted 1) (List.replicate 3 0) =
        some (bumpCycleTr 3)) ∧
    cobumpCycleTr 3 = (bumpCycleTr 3).map (fun p => (p.1, p.2.reverse)) ∧
    (((cobumpCycleTr 3).filter (fun p => p.1)).map (fun p => p.2) : Multiset (List Nat)) =
      ((((bumpCycleTr 3).filter (fun p => p.1)).map (fun p => p.2)).map List.reverse :
        Multiset (List Nat)) :=
  cobump_mirror_amended ⟨3, 2, []⟩ (by decide)

/-! ### Frame property of the multi-endpoint chain (claim C10) -/

theorem getD_set_ne (l : List Nat) (i j v : Nat) (h : i ≠ j) :
    (l.set i v).getD j 0 = l.getD j 0 := by
  simp [List.getD_eq_getElem?_getD, List.getElem?_set_ne h]

theorem prevE_mem {E : List Nat} {j : Nat} (hj : j ∈ E) : prevE E j ∈ E := by
  have hne : E ≠ [] := List.ne_nil_of_mem hj
  have hlt : E.indexOf j < E.length := List.indexOf_lt_length.mpr hj
  rcases hidx : E.indexOf j with _ | i
  · have hp : prevE E j = E.getLastD 0 := by
      unfold prevE
      rw [hidx]
    rw [hp, List.getLastD_eq_getLast?, List.getLast?_eq_getLast E hne]
    exact List.getLast_mem hne
  · have hp : prevE E j = E.getD i 0 := by
      unfold prevE
      rw [hidx]
    rw [hidx] at hlt
    have hi : i < E.length := by omega
    rw [hp, List.getD_eq_getElem E 0 hi]
    exact List.getElem_mem hi

theorem setsOwn_ebump_body (g : Globals) (k : Nat) :
    setsOwn k (body g .ebump k) = true := by
  by_cases h1 : k < g.N ∧ (k+1) ∉ g.E <;>
    by_cases h2 : 1 < k ∧ k ∈ g.E <;>
      simp [body, h1, h2, setsOwn]

theorem ebump_child_ge {g : Globals} {m k ck : Nat} {s : Bool}
    (hm : ∀ x ∈ g.E, m ≤ x) (hk : m ≤ k)
    (hcs : childSpec g .ebump k s = some ck) : m ≤ ck := by
  cases s with
  | false =>
      simp only [childSpec] at hcs
      split at hcs
      · injection hcs with h2
        omega
      · exact absurd hcs (by simp)
  | true =>
      simp only [childSpec] at hcs
      split at hcs
      next h =>
        have hmem := prevE_mem h.2
        have := hm _ hmem
        injection hcs with h2
        omega
      next => exact absurd hcs (by simp)

theorem ebump_frame_micro (g : Globals) (m : Nat) (hm : ∀ x ∈ g.E, m ≤ x) :
    ∀ (s : GenS) (L : List Nat), unitsGe m s = true →
      unitsGe m (microStep g .ebump s L).2.1 = true ∧
      ∀ p, p + 1 < m → ((microStep g .ebump s L).2.2).getD p 0 = L.getD p 0 := by
  intro s
  induction s with
  | absent =>
      intro L hs
      exact ⟨rfl, fun p hp => rfl⟩
  | unstarted k =>
      intro L hs
      simp only [unitsGe] at hs
      refine ⟨?_, fun p hp => rfl⟩
      simp [microStep, startCur, unitsGe, setsOwn, hs]
  | running k cur c0 c1 ih0 ih1 =>
      intro L hs
      simp only [unitsGe, Bool.and_eq_true] at hs
      obtain ⟨⟨hk, hown⟩, h0, h1⟩ := hs
      have hk' : m ≤ k := of_decide_eq_true hk
      match cur with
      | [] =>
          refine ⟨?_, fun p hp => rfl⟩
          simp only [microStep, unitsGe, Bool.and_eq_true]
          exact ⟨⟨hk, setsOwn_ebump_body g k⟩, h0, h1⟩
      | .emit b :: rest =>
          refine ⟨?_, fun p hp => rfl⟩
          simp only [microStep, unitsGe, Bool.and_eq_true]
          simp only [setsOwn, Bool.and_eq_true] at hown
          exact ⟨⟨hk, hown⟩, h0, h1⟩
      | .set j v :: rest =>
          simp only [setsOwn, Bool.and_eq_true] at hown
          obtain ⟨hj, hown'⟩ := hown
          have hj' : j = k := of_decide_eq_true hj
          constructor
          · simp only [microStep, unitsGe, Bool.and_eq_true]
            exact ⟨⟨hk, hown'⟩, h0, h1⟩
          · intro p hp
            show (L.set (j-1) v).getD p 0 = L.getD p 0
            refine getD_set_ne L (j-1) p v ?_
            omega
      | .toggle j :: rest =>
          simp only [setsOwn, Bool.and_eq_true] at hown
          obtain ⟨hj, hown'⟩ := hown
          have hj' : j = k := of_decide_eq_true hj
          constructor
          · simp only [microStep, unitsGe, Bool.and_eq_true]
            exact ⟨⟨hk, hown'⟩, h0, h1⟩
          · intro p hp
            show (L.set (j-1) _).getD p 0 = L.getD p 0
            refine getD_set_ne L (j-1) p _ ?_
            omega
      | .drain false :: rest =>
          simp only [setsOwn] at hown
          by_cases hc : c0 = .absent
          · rcases hcs : childSpec g .ebump k false with _ | ck
            · refine ⟨?_, fun p hp => ?_⟩
              · simp only [microStep, if_pos hc, hcs, unitsGe, Bool.and_eq_true]
                exact ⟨⟨hk, hown⟩, h0, h1⟩
              · simp only [microStep, if_pos hc, hcs]
            · refine ⟨?_, fun p hp => ?_⟩
              · simp only [microStep, if_pos hc, hcs, unitsGe, Bool.and_eq_true]
                refine ⟨⟨hk, hown⟩, ?_, h1⟩
                exact decide_eq_true (ebump_child_ge hm hk' hcs)
              · simp only [microStep, if_pos hc, hcs]
          · have hch := ih0 L h0
            rw [microStep_drain0 hc]
            rcases hcm : microStep g .ebump c0 L with ⟨o', c0', L2⟩
            rw [hcm] at hch
            simp only [] at hch
            obtain ⟨hch0, hch2⟩ := hch
            match o' with
            | some true =>
                refine ⟨?_, hch2⟩
                simp only [unitsGe, Bool.and_eq_true]
                exact ⟨⟨hk, hown⟩, hch0, h1⟩
            | some false =>
                refine ⟨?_, hch2⟩
                simp only [unitsGe, Bool.and_eq_true]
                exact ⟨⟨hk, hown⟩, hch0, h1⟩
            | none =>
                refine ⟨?_, hch2⟩
                simp only [unitsGe, Bool.and_eq_true]
                exact ⟨⟨hk, hown⟩, hch0, h1⟩
      | .drain true :: rest =>
          simp only [setsOwn] at hown
          by_cases hc : c1 = .absent
          · rcases hcs : childSpec g .ebump k true with _ | ck
            · refine ⟨?_, fun p hp => ?_⟩
              · simp only [microStep, if_pos hc, hcs, unitsGe, Bool.and_eq_true]
                exact ⟨⟨hk, hown⟩, h0, h1⟩
              · simp only [microStep, if_pos hc, hcs]
            · refine ⟨?_, fun p hp => ?_⟩
              · simp only [microStep, if_pos hc, hcs, unitsGe, Bool.and_eq_true]
                refine ⟨⟨hk, hown⟩, h0, ?_⟩
                exact decide_eq_true (ebump_child_ge hm hk' hcs)
              · simp only [microStep, if_pos hc, hcs]
          · have hch := ih1 L h1
            rw [microStep_drain1 hc]
            rcases hcm : microStep g .ebump c1 L with ⟨o', c1', L2⟩
            rw [hcm] at hch
            simp only [] at hch
            obtain ⟨hch1, hch2⟩ := hch
            match o' with
            | some true =>
                refine ⟨?_, hch2⟩
                simp only [unitsGe, Bool.and_eq_true]
                exact ⟨⟨hk, hown⟩, h0, hch1⟩
            | some false =>
                refine ⟨?_, hch2⟩
                simp only [unitsGe, Bool.and_eq_true]
                exact ⟨⟨hk, hown⟩, h0, hch1⟩
            | none =>
                refine ⟨?_, hch2⟩
                simp only [unitsGe, Bool.and_eq_true]
                exact ⟨⟨hk, hown⟩, h0, hch1⟩
      | .fwd false :: rest =>
          simp only [setsOwn] at hown
          by_cases hc : c0 = .absent
          · rcases hcs : childSpec g .ebump k false with _ | ck
            · refine ⟨?_, fun p hp => ?_⟩
              · simp only [microStep, if_pos hc, hcs, unitsGe, Bool.and_eq_true]
                exact ⟨⟨hk, hown⟩, h0, h1⟩
              · simp only [microStep, if_pos hc, hcs]
            · refine ⟨?_, fun p hp => ?_⟩
              · simp only [microStep, if_pos hc, hcs, unitsGe, Bool.and_eq_true]
                refine ⟨⟨hk, hown⟩, ?_, h1⟩
                exact decide_eq_true (ebump_child_ge hm hk' hcs)
              · simp only [microStep, if_pos hc, hcs]
          · have hch := ih0 L h0
            rw [microStep_fwd0 hc]
            rcases hcm : microStep g .ebump c0 L with ⟨o', c0', L2⟩
            rw [hcm] at hch
            simp only [] at hch
            obtain ⟨hch0, hch2⟩ := hch
            match o' with
            | some b =>
                refine ⟨?_, hch2⟩
                simp only [unitsGe, Bool.and_eq_true]
                exact ⟨⟨hk, hown⟩, hch0, h1⟩
            | none =>
                refine ⟨?_, hch2⟩
                simp only [unitsGe, Bool.and_eq_true]
                exact ⟨⟨hk, hown⟩, hch0, h1⟩
      | .fwd true :: rest =>
          simp only [setsOwn] at hown
          by_cases hc : c1 = .absent
          · rcases hcs : childSpec g .ebump k true with _ | ck
            · refine ⟨?_, fun p hp => ?_⟩
              · simp only [microStep, if_pos hc, hcs, unitsGe, Bool.and_eq_true]
                exact ⟨⟨hk, hown⟩, h0, h1⟩
              · simp only [microStep, if_pos hc, hcs]
            · refine ⟨?_, fun p hp => ?_⟩
              · simp only [microStep, if_pos hc, hcs, unitsGe, Bool.and_eq_true]
                refine ⟨⟨hk, hown⟩, h0, ?_⟩
                exact decide_eq_true (ebump_child_ge hm hk' hcs)
              · simp only [microStep, if_pos hc, hcs]
          · have hch := ih1 L h1
            rw [microStep_fwd1 hc]
            rcases hcm : microStep g .ebump c1 L with ⟨o', c1', L2⟩
            rw [hcm] at hch
            simp only [] at hch
            obtain ⟨hch1, hch2⟩ := hch
            match o' with
            | some b =>
                refine ⟨?_, hch2⟩
                simp only [unitsGe, Bool.and_eq_true]
                exact ⟨⟨hk, hown⟩, h0, hch1⟩
            | none =>
                refine ⟨?_, hch2⟩
                simp only [unitsGe, Bool.and_eq_true]
                exact ⟨⟨hk, hown⟩, h0, hch1⟩

theorem ebump_frame_advance (g : Globals) (m : Nat) (hm : ∀ x ∈ g.E, m ≤ x) :
    ∀ (fuel : Nat) (s : GenS) (L : List Nat) (b : Bool) (s' : GenS) (L' : List Nat),
      unitsGe m s = true → advance g .ebump fuel s L = some (b, s', L') →
      unitsGe m s' = true ∧ ∀ p, p + 1 < m → L'.getD p 0 = L.getD p 0 := by
  intro fuel
  induction fuel with
  | zero => intro s L b s' L' _ h; simp [advance] at h
  | succ f ih =>
      intro s L b s' L' hs h
      have hmic := ebump_frame_micro g m hm s L hs
      rcases hms : microStep g .ebump s L with ⟨o, s1, L1⟩
      rw [hms] at hmic
      obtain ⟨hu1, hl1⟩ := hmic
      cases o with
      | some c =>
          rw [advance, hms] at h
          injection h with h
          obtain ⟨hb, hs2, hl2⟩ : c = b ∧ s1 = s' ∧ L1 = L' := by
            refine ⟨congrArg Prod.fst h, ?_, ?_⟩
            · exact congrArg (fun q => q.2.1) h
            · exact congrArg (fun q => q.2.2) h
          subst hs2; subst hl2
          exact ⟨hu1, hl1⟩
      | none =>
          rw [advance, hms] at h
          obtain ⟨hu2, hl2⟩ := ih s1 L1 b s' L' hu1 h
          exact ⟨hu2, fun p hp => (hl2 p hp).trans (hl1 p hp)⟩

theorem ebump_frame_advanceN (g : Globals) (m : Nat) (hm : ∀ x ∈ g.E, m ≤ x) (F : Nat) :
    ∀ (n : Nat) (s : GenS) (L : List Nat) (s' : GenS) (L' : List Nat),
      unitsGe m s = true → advanceN g .ebump F n s L = some (s', L') →
      unitsGe m s' = true ∧ ∀ p, p + 1 < m → L'.getD p 0 = L.getD p 0 := by
  intro n
  induction n with
  | zero =>
      intro s L s' L' hs h
      injection h with h
      obtain ⟨hs2, hl2⟩ : s = s' ∧ L = L' :=
        ⟨congrArg Prod.fst h, congrArg Prod.snd h⟩
      subst hs2; subst hl2
      exact ⟨hs, fun p hp => rfl⟩
  | succ n ih =>
      intro s L s' L' hs h
      rcases hav : advance g .ebump F s L with _ | ⟨b, s1, L1⟩
      · rw [advanceN, hav] at h; exact absurd h (by simp)
      · rw [advanceN, hav] at h
        obtain ⟨hu1, hl1⟩ := ebump_frame_advance g m hm F s L b s1 L1 hs hav
        obtain ⟨hu2, hl2⟩ := ih s1 L1 s' L' hu1 h
        exact ⟨hu2, fun p hp => (hl2 p hp).trans (hl1 p hp)⟩

theorem ebump_frame_runTrace (g : Globals) (m : Nat) (hm : ∀ x ∈ g.E, m ≤ x) (F : Nat) :
    ∀ (n : Nat) (s : GenS) (L : List Nat) (tr : List (Bool × List Nat)),
      unitsGe m s = true → runTrace g .ebump F n s L = some tr →
      ∀ p ∈ tr, ∀ i, i + 1 < m → p.2.getD i 0 = L.getD i 0 := by
  intro n
  induction n with
  | zero =>
      intro s L tr _ h p hp
      injection h with h
      subst h
      exact absurd hp (by simp)
  | succ n ih =>
      intro s L tr hs h p hp i hi
      rcases hav : advance g .ebump F s L with _ | ⟨b, s1, L1⟩
      · rw [runTrace, hav] at h; exact absurd h (by simp)
      · rw [runTrace_succ_some hav] at h
        rcases Option.map_eq_some'.mp h with ⟨t, ht, rfl⟩
        obtain ⟨hu1, hl1⟩ := ebump_frame_advance g m hm F s L b s1 L1 hs hav
        rcases List.mem_cons.mp hp with rfl | hp'
        · exact hl1 i hi
        · exact (ih s1 L1 t hu1 ht p hp' i hi).trans (hl1 i hi)

theorem getD_replicate_zero : ∀ (n p : Nat), (List.replicate n (0:Nat)).getD p 0 = 0
  | 0, _ => rfl
  | _+1, 0 => rfl
  | n+1, p+1 => getD_replicate_zero n p

theorem unitsGe_root_ebump (g : Globals) (m : Nat) (hne : g.E ≠ [])
    (hm : ∀ x ∈ g.E, m ≤ x) :
    unitsGe m (.unstarted (rootUnit .ebump g.N g.E)) = true := by
  simp only [unitsGe, rootUnit]
  rcases foldl_max_mem g.E 0 with h | h
  · rcases List.exists_mem_of_ne_nil g.E hne with ⟨a, ha⟩
    have := (foldl_max_le_iff g.E 0 (g.E.foldl max 0)).mp le_rfl
    exact decide_eq_true (le_trans (hm a ha) (this.2 a ha))
  · exact decide_eq_true (hm _ h)

/-- C10: for the multi-endpoint chain (ebump) rooted at `max E` with all
lights initially 0, every light whose index is strictly below the smallest
endpoint `m` of `E` is never toggled: every snapshot in every run trace has
`Lights[i-1] = 0` for `i < m` (here `getD (i-1)` with `i-1 = i` 0-based,
stated as `i + 1 < m`), and moreover after any number of advances every
generator instance ever constructed has unit index at least `m`. -/
theorem ebump_frame (g : Globals) (m : Nat) (hne : g.E ≠ [])
    (hm : ∀ x ∈ g.E, m ≤ x) (F n : Nat) :
    (∀ tr, runTrace g .ebump F n (.unstarted (rootUnit .ebump g.N g.E))
        (List.replicate g.N 0) = some tr →
      ∀ p ∈ tr, ∀ i, i + 1 < m → p.2.getD i 0 = 0) ∧
    (∀ s' L', advanceN g .ebump F n (.unstarted (rootUnit .ebump g.N g.E))
        (List.replicate g.N 0) = some (s', L') →
      unitsGe m s' = true ∧ ∀ i, i + 1 < m → L'.getD i 0 = 0) := by
  have hroot := unitsGe_root_ebump g m hne hm
  constructor
  · intro tr htr p hp i hi
    have := ebump_frame_runTrace g m hm F n _ _ tr hroot htr p hp i hi
    rw [this, getD_replicate_zero]
  · intro s' L' hN
    obtain ⟨hu, hl⟩ := ebump_frame_advanceN g m hm F n _ _ s' L' hroot hN
    exact ⟨hu, fun i hi => by rw [hl i hi, getD_replicate_zero]⟩

theorem ebump_frame_witness :
    (([2, 5] : List Nat) ≠ [] ∧ ∀ x ∈ ([2, 5] : List Nat), 2 ≤ x) ∧
    ((∀ tr, runTrace ⟨5, 3, [2, 5]⟩ .ebump 100 12
        (.unstarted (rootUnit .ebump 5 [2, 5])) (List.replicate 5 0) = some tr →
      ∀ p ∈ tr, ∀ i, i + 1 < 2 → p.2.getD i 0 = 0) ∧
    (∀ s' L', advanceN ⟨5, 3, [2, 5]⟩ .ebump 100 12
        (.unstarted (rootUnit .ebump 5 [2, 5])) (List.replicate 5 0) = some (s', L') →
      unitsGe 2 s' = true ∧ ∀ i, i + 1 < 2 → L'.getD i 0 = 0)) :=
  ⟨⟨by decide, by decide⟩,
   ebump_frame ⟨5, 3, [2, 5]⟩ 2 (by decide) (by decide) 100 12⟩

theorem setsOwn_nudge_body (g : Globals) (k : Nat) :
    setsOwn k (body g .nudge k) = true := by
  simp only [body, nudgeAwake0, nudgeAsleep1, nudgeAwake1, nudgeAsleep0]
  by_cases h1 : k + 2 - (k % 2) ≤ g.N <;>
    by_cases h2 : k + 1 + (k % 2) ≤ g.N <;>
      simp [h1, h2, setsOwn]

theorem setsOwn_nudge_start (g : Globals) (k : Nat) (L : List Nat) :
    setsOwn k (startCur g .nudge k L) = true := by
  simp only [startCur]
  by_cases hL : L.getD (k-1) 0 = 1
  · simp only [if_pos hL, nudgeAwake1, nudgeAsleep0]
    by_cases h2 : k + 1 + (k % 2) ≤ g.N <;>
      by_cases h1 : k + 2 - (k % 2) ≤ g.N <;>
        simp [h1, h2, setsOwn]
  · rw [if_neg hL]; rfl

theorem noTog_nudge_body (g : Globals) (k : Nat) :
    noTog (body g .nudge k) = true := by
  simp only [body, nudgeAwake0, nudgeAsleep1, nudgeAwake1, nudgeAsleep0]
  by_cases h1 : k + 2 - (k % 2) ≤ g.N <;>
    by_cases h2 : k + 1 + (k % 2) ≤ g.N <;>
      simp [h1, h2, noTog]

theorem noTog_nudge_start (g : Globals) (k : Nat) (L : List Nat) :
    noTog (startCur g .nudge k L) = true := by
  simp only [startCur]
  by_cases hL : L.getD (k-1) 0 = 1
  · simp only [if_pos hL, nudgeAwake1, nudgeAsleep0]
    by_cases h2 : k + 1 + (k % 2) ≤ g.N <;>
      by_cases h1 : k + 2 - (k % 2) ≤ g.N <;>
        simp [h1, h2, noTog]
  · rw [if_neg hL]; rfl

theorem firstSetK_nudge_start (g : Globals) (k : Nat) (L : List Nat)
    (hL : L.getD (k-1) 0 = 1) :
    firstSetK k (startCur g .nudge k L) = some 0 := by
  simp only [startCur, if_pos hL, nudgeAwake1, nudgeAsleep0]
  by_cases h2 : k + 1 + (k % 2) ≤ g.N <;>
    by_cases h1 : k + 2 - (k % 2) ≤ g.N <;>
      simp [h1, h2, firstSetK]

theorem nudge_child_ge {g : Globals} {k b ck} (h : childSpec g .nudge k b = some ck) :
    1 ≤ ck := by
  cases b <;> simp only [childSpec] at h <;>
    (split at h
     · injection h with h; omega
     · exact absurd h (by simp))

theorem nudge_wf_micro (g : Globals) :
    ∀ (s : GenS) (L : List Nat), unitsGe 1 s = true → noTogS s = true →
      unitsGe 1 (microStep g .nudge s L).2.1 = true ∧
      noTogS (microStep g .nudge s L).2.1 = true := by
  intro s
  induction s with
  | absent => intro L _ _; exact ⟨rfl, rfl⟩
  | unstarted k =>
      intro L hs _
      simp only [unitsGe] at hs
      refine ⟨?_, ?_⟩
      · simp [microStep, unitsGe, hs, setsOwn_nudge_start]
      · simp [microStep, noTogS, noTog_nudge_start]
  | running k cur c0 c1 ih0 ih1 =>
      intro L hs ht
      simp only [unitsGe, Bool.and_eq_true] at hs
      obtain ⟨⟨hk, hown⟩, h0, h1⟩ := hs
      simp only [noTogS, Bool.and_eq_true] at ht
      obtain ⟨htc, ht0, ht1⟩ := ht
      match cur with
      | [] =>
          refine ⟨?_, ?_⟩
          · simp only [microStep, unitsGe, Bool.and_eq_true]
            exact ⟨⟨hk, setsOwn_nudge_body g k⟩, h0, h1⟩
          · simp only [microStep, noTogS, Bool.and_eq_true]
            exact ⟨noTog_nudge_body g k, ht0, ht1⟩
      | .emit b :: rest =>
          simp only [setsOwn] at hown
          simp only [noTog] at htc
          exact ⟨by simp only [microStep, unitsGe, Bool.and_eq_true]; exact ⟨⟨hk, hown⟩, h0, h1⟩,
                 by simp only [microStep, noTogS, Bool.and_eq_true]; exact ⟨htc, ht0, ht1⟩⟩
      | .set j v :: rest =>
          simp only [setsOwn, Bool.and_eq_true] at hown
          simp only [noTog] at htc
          exact ⟨by simp only [microStep, unitsGe, Bool.and_eq_true]; exact ⟨⟨hk, hown.2⟩, h0, h1⟩,
                 by simp only [microStep, noTogS, Bool.and_eq_true]; exact ⟨htc, ht0, ht1⟩⟩
      | .toggle j :: rest =>
          exact absurd htc (by simp [noTog])
      | .drain false :: rest =>
          simp only [setsOwn] at hown
          simp only [noTog] at htc
          by_cases hc : c0 = .absent
          · rcases hcs : childSpec g .nudge k false with _ | ck
            · exact ⟨by simp only [microStep, if_pos hc, hcs, unitsGe, Bool.and_eq_true]; exact ⟨⟨hk, hown⟩, h0, h1⟩,
                     by simp only [microStep, if_pos hc, hcs, noTogS, Bool.and_eq_true]; exact ⟨htc, ht0, ht1⟩⟩
            · refine ⟨?_, ?_⟩
              · simp only [microStep, if_pos hc, hcs, unitsGe, Bool.and_eq_true]
                exact ⟨⟨hk, hown⟩, decide_eq_true (nudge_child_ge hcs), h1⟩
              · simp only [microStep, if_pos hc, hcs, noTogS, Bool.and_eq_true]
                exact ⟨htc, trivial, ht1⟩
          · have hch := ih0 L h0 ht0
            rw [microStep_drain0 hc]
            rcases hcm : microStep g .nudge c0 L with ⟨o', c0', L2⟩
            rw [hcm] at hch
            obtain ⟨hu2, ht2⟩ := hch
            match o' with
            | some true =>
                exact ⟨by simp only [unitsGe, Bool.and_eq_true]; exact ⟨⟨hk, hown⟩, hu2, h1⟩,
                       by simp only [noTogS, Bool.and_eq_true]; exact ⟨htc, ht2, ht1⟩⟩
            | some false =>
                exact ⟨by simp only [unitsGe, Bool.and_eq_true]; exact ⟨⟨hk, hown⟩, hu2, h1⟩,
                       by simp only [noTogS, Bool.and_eq_true]; exact ⟨htc, ht2, ht1⟩⟩
            | none =>
                exact ⟨by simp only [unitsGe, Bool.and_eq_true]; exact ⟨⟨hk, hown⟩, hu2, h1⟩,
                       by simp only [noTogS, Bool.and_eq_true]; exact ⟨htc, ht2, ht1⟩⟩
      | .drain true :: rest =>
          simp only [setsOwn] at hown
          simp only [noTog] at htc
          by_cases hc : c1 = .absent
          · rcases hcs : childSpec g .nudge k true with _ | ck
            · exact ⟨by simp only [microStep, if_pos hc, hcs, unitsGe, Bool.and_eq_true]; exact ⟨⟨hk, hown⟩, h0, h1⟩,
                     by simp only [microStep, if_pos hc, hcs, noTogS, Bool.and_eq_true]; exact ⟨htc, ht0, ht1⟩⟩
            · refine ⟨?_, ?_⟩
              · simp only [microStep, if_pos hc, hcs, unitsGe, Bool.and_eq_true]
                exact ⟨⟨hk, hown⟩, h0, decide_eq_true (nudge_child_ge hcs)⟩
              · simp only [microStep, if_pos hc, hcs, noTogS, Bool.and_eq_true]
                exact ⟨htc, ht0, trivial⟩
          · have hch := ih1 L h1 ht1
            rw [microStep_drain1 hc]
            rcases hcm : microStep g .nudge c1 L with ⟨o', c1', L2⟩
            rw [hcm] at hch
            obtain ⟨hu2, ht2⟩ := hch
            match o' with
            | some true =>
                exact ⟨by simp only [unitsGe, Bool.and_eq_true]; exact ⟨⟨hk, hown⟩, h0, hu2⟩,
                       by simp only [noTogS, Bool.and_eq_true]; exact ⟨htc, ht0, ht2⟩⟩
            | some false =>
                exact ⟨by simp only [unitsGe, Bool.and_eq_true]; exact ⟨⟨hk, hown⟩, h0, hu2⟩,
                       by simp only [noTogS, Bool.and_eq_true]; exact ⟨htc, ht0, ht2⟩⟩
            | none =>
                exact ⟨by simp only [unitsGe, Bool.and_eq_true]; exact ⟨⟨hk, hown⟩, h0, hu2⟩,
                       by simp only [noTogS, Bool.and_eq_true]; exact ⟨htc, ht0, ht2⟩⟩
      | .fwd false :: rest =>
          simp only [setsOwn] at hown
          simp only [noTog] at htc
          by_cases hc : c0 = .absent
          · rcases hcs : childSpec g .nudge k false with _ | ck
            · exact ⟨by simp only [microStep, if_pos hc, hcs, unitsGe, Bool.and_eq_true]; exact ⟨⟨hk, hown⟩, h0, h1⟩,
                     by simp only [microStep, if_pos hc, hcs, noTogS, Bool.and_eq_true]; exact ⟨htc, ht0, ht1⟩⟩
            · refine ⟨?_, ?_⟩
              · simp only [microStep, if_pos hc, hcs, unitsGe, Bool.and_eq_true]
                exact ⟨⟨hk, hown⟩, decide_eq_true (nudge_child_ge hcs), h1⟩
              · simp only [microStep, if_pos hc, hcs, noTogS, Bool.and_eq_true]
                exact ⟨htc, trivial, ht1⟩
          · have hch := ih0 L h0 ht0
            rw [microStep_fwd0 hc]
            rcases hcm : microStep g .nudge c0 L with ⟨o', c0', L2⟩
            rw [hcm] at hch
            obtain ⟨hu2, ht2⟩ := hch
            match o' with
            | some b =>
                exact ⟨by simp only [unitsGe, Bool.and_eq_true]; exact ⟨⟨hk, hown⟩, hu2, h1⟩,
                       by simp only [noTogS, Bool.and_eq_true]; exact ⟨htc, ht2, ht1⟩⟩
            | none =>
                exact ⟨by simp only [unitsGe, Bool.and_eq_true]; exact ⟨⟨hk, hown⟩, hu2, h1⟩,
                       by simp only [noTogS, Bool.and_eq_true]; exact ⟨htc, ht2, ht1⟩⟩
      | .fwd true :: rest =>
          simp only [setsOwn] at hown
          simp only [noTog] at htc
          by_cases hc : c1 = .absent
          · rcases hcs : childSpec g .nudge k true with _ | ck
            · exact ⟨by simp only [microStep, if_pos hc, hcs, unitsGe, Bool.and_eq_true]; exact ⟨⟨hk, hown⟩, h0, h1⟩,
                     by simp only [microStep, if_pos hc, hcs, noTogS, Bool.and_eq_true]; exact ⟨htc, ht0, ht1⟩⟩
            · refine ⟨?_, ?_⟩
              · simp only [microStep, if_pos hc, hcs, unitsGe, Bool.and_eq_true]
                exact ⟨⟨hk, hown⟩, h0, decide_eq_true (nudge_child_ge hcs)⟩
              · simp only [microStep, if_pos hc, hcs, noTogS, Bool.and_eq_true]
                exact ⟨htc, ht0, trivial⟩
          · have hch := ih1 L h1 ht1
            rw [microStep_fwd1 hc]
            rcases hcm : microStep g .nudge c1 L with ⟨o', c1', L2⟩
            rw [hcm] at hch
            obtain ⟨hu2, ht2⟩ := hch
            match o' with
            | some b =>
                exact ⟨by simp only [unitsGe, Bool.and_eq_true]; exact ⟨⟨hk, hown⟩, h0, hu2⟩,
                       by simp only [noTogS, Bool.and_eq_true]; exact ⟨htc, ht0, ht2⟩⟩
            | none =>
                exact ⟨by simp only [unitsGe, Bool.and_eq_true]; exact ⟨⟨hk, hown⟩, h0, hu2⟩,
                       by simp only [noTogS, Bool.and_eq_true]; exact ⟨htc, ht0, ht2⟩⟩

theorem firstSetK_cons (k : Nat) (i : Instr) (r : List Instr)
    (h : ∀ j v, i ≠ .set j v) : firstSetK k (i :: r) = firstSetK k r := by
  match i with
  | .emit b => rfl
  | .toggle j => rfl
  | .drain b => rfl
  | .fwd b => rfl
  | .set j v => exact absurd rfl (h j v)

theorem cleanIf_of {j k : Nat} {cur cur2 : List Instr}
    (h : (if j = k then firstSetK k cur == some 0 else true) = true)
    (he : firstSetK k cur2 = firstSetK k cur) :
    (if j = k then firstSetK k cur2 == some 0 else true) = true := by
  by_cases hj : j = k
  · rw [if_pos hj] at h ⊢; rw [he]; exact h
  · rw [if_neg hj]

theorem nudge_clean_micro (g : Globals) (k : Nat) (hk : 1 ≤ k) :
    ∀ (s : GenS) (L : List Nat), unitsGe 1 s = true → noTogS s = true →
      CleanK k s = true → L.getD (k-1) 0 = 1 →
      setEvent s L = some (k, 0) ∨
      ((∀ v, setEvent s L ≠ some (k, v)) ∧
       CleanK k (microStep g .nudge s L).2.1 = true ∧
       ((microStep g .nudge s L).2.2).getD (k-1) 0 = 1) := by
  intro s
  induction s with
  | absent =>
      intro L _ _ _ hbit
      right
      exact ⟨fun v h => by simp [setEvent] at h, rfl, hbit⟩
  | unstarted j =>
      intro L _ _ _ hbit
      right
      refine ⟨fun v h => by simp [setEvent] at h, ?_, hbit⟩
      show CleanK k (.running j (startCur g .nudge j L) .absent .absent) = true
      simp only [CleanK, Bool.and_eq_true]
      refine ⟨?_, trivial, trivial⟩
      by_cases hj : j = k
      · subst hj
        rw [if_pos rfl, firstSetK_nudge_start g j L hbit]
        rfl
      · rw [if_neg hj]
  | running j cur c0 c1 ih0 ih1 =>
      intro L hu ht hc hbit
      simp only [unitsGe, Bool.and_eq_true] at hu
      obtain ⟨⟨hj1, hown⟩, h0, h1⟩ := hu
      have hj1' : 1 ≤ j := of_decide_eq_true hj1
      simp only [noTogS, Bool.and_eq_true] at ht
      obtain ⟨htc, ht0, ht1⟩ := ht
      simp only [CleanK, Bool.and_eq_true] at hc
      obtain ⟨hcj, hc0, hc1⟩ := hc
      match cur with
      | [] =>
          by_cases hj : j = k
          · subst hj
            rw [if_pos rfl] at hcj
            exact absurd hcj (by simp [firstSetK])
          · right
            refine ⟨fun v h => by simp [setEvent] at h, ?_, hbit⟩
            show CleanK k (.running j (body g .nudge j) c0 c1) = true
            simp only [CleanK, Bool.and_eq_true]
            exact ⟨by rw [if_neg hj], hc0, hc1⟩
      | .emit b :: rest =>
          right
          refine ⟨fun v h => by simp [setEvent] at h, ?_, hbit⟩
          show CleanK k (.running j rest c0 c1) = true
          simp only [CleanK, Bool.and_eq_true]
          refine ⟨cleanIf_of hcj ?_, hc0, hc1⟩
          exact (firstSetK_cons k (.emit b) rest (by intro a b h; cases h)).symm
      | .set i v :: rest =>
          simp only [setsOwn, Bool.and_eq_true] at hown
          have hij : i = j := of_decide_eq_true hown.1
          by_cases hj : j = k
          · left
            have hik : i = k := hij.trans hj
            have hv : v = 0 := by
              rw [if_pos hj] at hcj
              simp only [firstSetK, hik, if_pos rfl] at hcj
              exact of_decide_eq_true hcj
            show some (i, v) = some (k, 0)
            rw [hik, hv]
          · right
            refine ⟨?_, ?_, ?_⟩
            · intro v' h
              have h3 : (i, v) = ((k : Nat), v') := by
                have h' : (some (i, v) : Option (Nat × Nat)) = some (k, v') := h
                injection h'
              exact hj (hij.symm.trans (congrArg Prod.fst h3))
            · show CleanK k (.running j rest c0 c1) = true
              simp only [CleanK, Bool.and_eq_true]
              exact ⟨by rw [if_neg hj], hc0, hc1⟩
            · show (L.set (i-1) v).getD (k-1) 0 = 1
              rw [getD_set_ne L (i-1) (k-1) v (by omega)]
              exact hbit
      | .toggle i :: rest =>
          exact absurd htc (by simp [noTog])
      | .drain false :: rest =>
          have hfs : firstSetK k (Instr.drain false :: rest) = firstSetK k rest :=
            firstSetK_cons k (.drain false) rest (by intro a b h; cases h)
          by_cases hcab : c0 = .absent
          · right
            refine ⟨fun v h => ?_, ?_, ?_⟩
            · rw [show setEvent (.running j (.drain false :: rest) c0 c1) L = none from
                by simp [setEvent, if_pos hcab]] at h
              cases h
            · rcases hcs : childSpec g .nudge j false with _ | ck
              · show CleanK k ((microStep g .nudge (.running j (.drain false :: rest) c0 c1) L)).2.1 = true
                simp only [microStep, if_pos hcab, hcs]
                simp only [CleanK, Bool.and_eq_true]
                exact ⟨cleanIf_of hcj hfs.symm, hc0, hc1⟩
              · show CleanK k ((microStep g .nudge (.running j (.drain false :: rest) c0 c1) L)).2.1 = true
                simp only [microStep, if_pos hcab, hcs]
                simp only [CleanK, Bool.and_eq_true]
                exact ⟨hcj, trivial, hc1⟩
            · rcases hcs : childSpec g .nudge j false with _ | ck <;>
                simp only [microStep, if_pos hcab, hcs] <;> exact hbit
          · have hev : setEvent (.running j (.drain false :: rest) c0 c1) L = setEvent c0 L := by
              simp [setEvent, if_neg hcab]
            rcases ih0 L h0 ht0 hc0 hbit with hl | ⟨hne, hcl, hbit'⟩
            · left; rw [hev]; exact hl
            · right
              rw [microStep_drain0 hcab]
              rcases hcm : microStep g .nudge c0 L with ⟨o', c0', L2⟩
              rw [hcm] at hcl hbit'
              refine ⟨fun v h => hne v (by rw [← hev]; exact h), ?_, ?_⟩
              · match o' with
                | some true =>
                    simp only [CleanK, Bool.and_eq_true]
                    exact ⟨hcj, hcl, hc1⟩
                | some false =>
                    simp only [CleanK, Bool.and_eq_true]
                    exact ⟨cleanIf_of hcj hfs.symm, hcl, hc1⟩
                | none =>
                    simp only [CleanK, Bool.and_eq_true]
                    exact ⟨hcj, hcl, hc1⟩
              · match o' with
                | some true => exact hbit'
                | some false => exact hbit'
                | none => exact hbit'
      | .drain true :: rest =>
          have hfs : firstSetK k (Instr.drain true :: rest) = firstSetK k rest :=
            firstSetK_cons k (.drain true) rest (by intro a b h; cases h)
          by_cases hcab : c1 = .absent
          · right
            refine ⟨fun v h => ?_, ?_, ?_⟩
            · rw [show setEvent (.running j (.drain true :: rest) c0 c1) L = none from
                by simp [setEvent, if_pos hcab]] at h
              cases h
            · rcases hcs : childSpec g .nudge j true with _ | ck
              · show CleanK k ((microStep g .nudge (.running j (.drain true :: rest) c0 c1) L)).2.1 = true
                simp only [microStep, if_pos hcab, hcs]
                simp only [CleanK, Bool.and_eq_true]
                exact ⟨cleanIf_of hcj hfs.symm, hc0, hc1⟩
              · show CleanK k ((microStep g .nudge (.running j (.drain true :: rest) c0 c1) L)).2.1 = true
                simp only [microStep, if_pos hcab, hcs]
                simp only [CleanK, Bool.and_eq_true]
                exact ⟨hcj, hc0, trivial⟩
            · rcases hcs : childSpec g .nudge j true with _ | ck <;>
                simp only [microStep, if_pos hcab, hcs] <;> exact hbit
          · have hev : setEvent (.running j (.drain true :: rest) c0 c1) L = setEvent c1 L := by
              simp [setEvent, if_neg hcab]
            rcases ih1 L h1 ht1 hc1 hbit with hl | ⟨hne, hcl, hbit'⟩
            · left; rw [hev]; exact hl
            · right
              rw [microStep_drain1 hcab]
              rcases hcm : microStep g .nudge c1 L with ⟨o', c1', L2⟩
              rw [hcm] at hcl hbit'
              refine ⟨fun v h => hne v (by rw [← hev]; exact h), ?_, ?_⟩
              · match o' with
                | some true =>
                    simp only [CleanK, Bool.and_eq_true]
                    exact ⟨hcj, hc0, hcl⟩
                | some false =>
                    simp only [CleanK, Bool.and_eq_true]
                    exact ⟨cleanIf_of hcj hfs.symm, hc0, hcl⟩
                | none =>
                    simp only [CleanK, Bool.and_eq_true]
                    exact ⟨hcj, hc0, hcl⟩
              · match o' with
                | some true => exact hbit'
                | some false => exact hbit'
                | none => exact hbit'
      | .fwd false :: rest =>
          have hfs : firstSetK k (Instr.fwd false :: rest) = firstSetK k rest :=
            firstSetK_cons k (.fwd false) rest (by intro a b h; cases h)
          by_cases hcab : c0 = .absent
          · right
            refine ⟨fun v h => ?_, ?_, ?_⟩
            · rw [show setEvent (.running j (.fwd false :: rest) c0 c1) L = none from
                by simp [setEvent, if_pos hcab]] at h
              cases h
            · rcases hcs : childSpec g .nudge j false with _ | ck
              · show CleanK k ((microStep g .nudge (.running j (.fwd false :: rest) c0 c1) L)).2.1 = true
                simp only [microStep, if_pos hcab, hcs]
                simp only [CleanK, Bool.and_eq_true]
                exact ⟨cleanIf_of hcj hfs.symm, hc0, hc1⟩
              · show CleanK k ((microStep g .nudge (.running j (.fwd false :: rest) c0 c1) L)).2.1 = true
                simp only [microStep, if_pos hcab, hcs]
                simp only [CleanK, Bool.and_eq_true]
                exact ⟨hcj, trivial, hc1⟩
            · rcases hcs : childSpec g .nudge j false with _ | ck <;>
                simp only [microStep, if_pos hcab, hcs] <;> exact hbit
          · have hev : setEvent (.running j (.fwd false :: rest) c0 c1) L = setEvent c0 L := by
              simp [setEvent, if_neg hcab]
            rcases ih0 L h0 ht0 hc0 hbit with hl | ⟨hne, hcl, hbit'⟩
            · left; rw [hev]; exact hl
            · right
              rw [microStep_fwd0 hcab]
              rcases hcm : microStep g .nudge c0 L with ⟨o', c0', L2⟩
              rw [hcm] at hcl hbit'
              refine ⟨fun v h => hne v (by rw [← hev]; exact h), ?_, ?_⟩
              · match o' with
                | some b =>
                    simp only [CleanK, Bool.and_eq_true]
                    exact ⟨cleanIf_of hcj hfs.symm, hcl, hc1⟩
                | none =>
                    simp only [CleanK, Bool.and_eq_true]
                    exact ⟨hcj, hcl, hc1⟩
              · match o' with
                | some b => exact hbit'
                | none => exact hbit'
      | .fwd true :: rest =>
          have hfs : firstSetK k (Instr.fwd true :: rest) = firstSetK k rest :=
            firstSetK_cons k (.fwd true) rest (by intro a b h; cases h)
          by_cases hcab : c1 = .absent
          · right
            refine ⟨fun v h => ?_, ?_, ?_⟩
            · rw [show setEvent (.running j (.fwd true :: rest) c0 c1) L = none from
                by simp [setEvent, if_pos hcab]] at h
              cases h
            · rcases hcs : childSpec g .nudge j true with _ | ck
              · show CleanK k ((microStep g .nudge (.running j (.fwd true :: rest) c0 c1) L)).2.1 = true
                simp only [microStep, if_pos hcab, hcs]
                simp only [CleanK, Bool.and_eq_true]
                exact ⟨cleanIf_of hcj hfs.symm, hc0, hc1⟩
              · show CleanK k ((microStep g .nudge (.running j (.fwd true :: rest) c0 c1) L)).2.1 = true
                simp only [microStep, if_pos hcab, hcs]
                simp only [CleanK, Bool.and_eq_true]
                exact ⟨hcj, hc0, trivial⟩
            · rcases hcs : childSpec g .nudge j true with _ | ck <;>
                simp only [microStep, if_pos hcab, hcs] <;> exact hbit
          · have hev : setEvent (.running j (.fwd true :: rest) c0 c1) L = setEvent c1 L := by
              simp [setEvent, if_neg hcab]
            rcases ih1 L h1 ht1 hc1 hbit with hl | ⟨hne, hcl, hbit'⟩
            · left; rw [hev]; exact hl
            · right
              rw [microStep_fwd1 hcab]
              rcases hcm : microStep g .nudge c1 L with ⟨o', c1', L2⟩
              rw [hcm] at hcl hbit'
              refine ⟨fun v h => hne v (by rw [← hev]; exact h), ?_, ?_⟩
              · match o' with
                | some b =>
                    simp only [CleanK, Bool.and_eq_true]
                    exact ⟨cleanIf_of hcj hfs.symm, hc0, hcl⟩
                | none =>
                    simp only [CleanK, Bool.and_eq_true]
                    exact ⟨hcj, hc0, hcl⟩
              · match o' with
                | some b => exact hbit'
                | none => exact hbit'

theorem mem_optToList {α : Type} {o : Option α} {a : α} (h : a ∈ o.toList) : o = some a := by
  cases o with
  | none => cases h
  | some b =>
      simp only [Option.toList, List.mem_singleton] at h
      rw [h]

theorem nudge_clean_advance (g : Globals) (k : Nat) (hk : 1 ≤ k) :
    ∀ (fuel : Nat) (s : GenS) (L : List Nat) (es : List (Nat × Nat)) (b : Bool)
      (s' : GenS) (L' : List Nat),
      unitsGe 1 s = true → noTogS s = true →
      advanceEv g .nudge fuel s L = some (es, b, s', L') →
      unitsGe 1 s' = true ∧ noTogS s' = true ∧
      (CleanK k s = true → L.getD (k-1) 0 = 1 →
        (CleanK k s' = true ∧ L'.getD (k-1) 0 = 1 ∧ ∀ v, (k, v) ∉ es) ∨
        (∃ es1 es2, es = es1 ++ ((k : Nat), (0 : Nat)) :: es2 ∧ ∀ v, (k, v) ∉ es1)) := by
  intro fuel
  induction fuel with
  | zero =>
      intro s L es b s' L' _ _ h
      simp [advanceEv] at h
  | succ f ih =>
      intro s L es b s' L' hu ht hadv
      have hwf := nudge_wf_micro g s L hu ht
      rcases hms : microStep g .nudge s L with ⟨o, s1, L1⟩
      rw [hms] at hwf
      obtain ⟨hu1, ht1⟩ := hwf
      cases o with
      | some c =>
          rw [advanceEv, hms] at hadv
          injection hadv with hadv
          obtain ⟨hes, hb, hs2, hl2⟩ :
              (setEvent s L).toList = es ∧ c = b ∧ s1 = s' ∧ L1 = L' := by
            refine ⟨congrArg (fun q => q.1) hadv, congrArg (fun q => q.2.1) hadv,
                    congrArg (fun q => q.2.2.1) hadv, congrArg (fun q => q.2.2.2) hadv⟩
          subst hs2; subst hl2; subst hes
          refine ⟨hu1, ht1, fun hcl hbit => ?_⟩
          rcases nudge_clean_micro g k hk s L hu ht hcl hbit with hl | ⟨hne, hcl1, hbit1⟩
          · right
            exact ⟨[], [], by rw [hl]; rfl, fun v h => by cases h⟩
          · rw [hms] at hcl1 hbit1
            left
            exact ⟨hcl1, hbit1, fun v hv => hne v (mem_optToList hv)⟩
      | none =>
          rw [advanceEv, hms] at hadv
          rcases Option.map_eq_some'.mp hadv with ⟨⟨es2, b2, s2, L2⟩, hrec, heq⟩
          obtain ⟨hes, hb, hs2, hl2⟩ :
              (setEvent s L).toList ++ es2 = es ∧ b2 = b ∧ s2 = s' ∧ L2 = L' := by
            refine ⟨congrArg (fun q => q.1) heq, congrArg (fun q => q.2.1) heq,
                    congrArg (fun q => q.2.2.1) heq, congrArg (fun q => q.2.2.2) heq⟩
          subst hs2; subst hl2; subst hes
          obtain ⟨hu2, ht2, hclean2⟩ := ih s1 L1 es2 b2 s2 L2 hu1 ht1 hrec
          refine ⟨hu2, ht2, fun hcl hbit => ?_⟩
          rcases nudge_clean_micro g k hk s L hu ht hcl hbit with hl | ⟨hne, hcl1, hbit1⟩
          · right
            refine ⟨[], es2, ?_, fun v h => by cases h⟩
            rw [hl]
            rfl
          · rw [hms] at hcl1 hbit1
            rcases hclean2 hcl1 hbit1 with ⟨hcl3, hbit3, hnok⟩ | ⟨es1', es2', heq', hnok1⟩
            · left
              refine ⟨hcl3, hbit3, fun v hv => ?_⟩
              rcases List.mem_append.mp hv with hv | hv
              · exact hne v (mem_optToList hv)
              · exact hnok v hv
            · right
              refine ⟨(setEvent s L).toList ++ es1', es2', ?_, fun v hv => ?_⟩
              · rw [heq', List.append_assoc]
              · rcases List.mem_append.mp hv with hv | hv
                · exact hne v (mem_optToList hv)
                · exact hnok1 v hv

theorem nudge_clean_run (g : Globals) (k : Nat) (hk : 1 ≤ k) (F : Nat) :
    ∀ (n : Nat) (s : GenS) (L : List Nat) (es : List (Nat × Nat)),
      unitsGe 1 s = true → noTogS s = true →
      runEv g .nudge F n s L = some es →
      CleanK k s = true → L.getD (k-1) 0 = 1 →
      ∀ es1 v es2, es = es1 ++ (k, v) :: es2 → v = 0 ∨ ((k : Nat), (0 : Nat)) ∈ es1 := by
  intro n
  induction n with
  | zero =>
      intro s L es _ _ h _ _ es1 v es2 heq
      injection h with h
      subst h
      cases es1 <;> simp at heq
  | succ n ih =>
      intro s L es hu ht h hcl hbit es1 v es2 heq
      rcases hav : advanceEv g .nudge F s L with _ | ⟨es0, b, s1, L1⟩
      · rw [runEv, hav] at h; exact absurd h (by simp)
      · rw [runEv, hav] at h
        rcases Option.map_eq_some'.mp h with ⟨t, hrt, rfl⟩
        obtain ⟨hu1, ht1, hcp⟩ := nudge_clean_advance g k hk F s L es0 b s1 L1 hu ht hav
        rcases hcp hcl hbit with ⟨hcl1, hbit1, hnok⟩ | ⟨es01, es02, heq0, hnok1⟩
        · rcases List.append_eq_append_iff.mp heq with ⟨a, ha1, ha2⟩ | ⟨c, hc1, hc2⟩
          · rcases ih s1 L1 t hu1 ht1 hrt hcl1 hbit1 a v es2 ha2 with h0 | hmem
            · exact Or.inl h0
            · exact Or.inr (ha1 ▸ List.mem_append.mpr (Or.inr hmem))
          · match c, hc2 with
            | [], hc2 =>
                have ht' : t = (k, v) :: es2 := by
                  have := hc2
                  simp only [List.nil_append] at this
                  exact this.symm
                rcases ih s1 L1 t hu1 ht1 hrt hcl1 hbit1 [] v es2 ht' with h0 | hmem
                · exact Or.inl h0
                · exact absurd hmem (by simp)
            | x :: c', hc2 =>
                have hx : x = (k, v) := by
                  have := congrArg (fun l => l.headD (k, v)) hc2
                  simpa using this.symm
                exact absurd (hc1 ▸ List.mem_append.mpr
                  (Or.inr (hx ▸ List.mem_cons_self x c'))) (hnok v)
        · rw [heq0, List.append_assoc, List.cons_append] at heq
          rcases List.append_eq_append_iff.mp heq with ⟨a, ha1, ha2⟩ | ⟨c, hc1, hc2⟩
          · match a, ha2 with
            | [], ha2 =>
                have : ((k : Nat), (0 : Nat)) = (k, v) := by
                  have := congrArg (fun l => l.headD (k, v)) ha2
                  simpa using this
                exact Or.inl (congrArg Prod.snd this).symm
            | x :: a', ha2 =>
                have hx : x = ((k : Nat), (0 : Nat)) := by
                  have := congrArg (fun l => l.headD (k, v)) ha2
                  simpa using this.symm
                exact Or.inr (ha1 ▸ List.mem_append.mpr
                  (Or.inr (hx ▸ List.mem_cons_self x a')))
          · match c, hc2 with
            | [], hc2 =>
                have : (k, v) = ((k : Nat), (0 : Nat)) := by
                  have := congrArg (fun l => l.headD (k, v)) hc2
                  simpa using this
                exact Or.inl (congrArg Prod.snd this)
            | x :: c', hc2 =>
                have hx : x = (k, v) := by
                  have := congrArg (fun l => l.headD (k, v)) hc2
                  simpa using this.symm
                exact absurd (hc1 ▸ List.mem_append.mpr
                  (Or.inr (hx ▸ List.mem_cons_self x c'))) (hnok1 v)

/-- C7: in the fence digraph (`nudge`) built over an initial lights
snapshot, a unit `k` whose light reads 1 when it first runs begins with
the replay `awake1(); asleep0()` before its normal `awake0`-first loop
body; consequently, in the full run from the root `nudge(1)`, the stream
of light writes never contains a write of light `k` (to any value, in
particular back to 1) before the first write of light `k`, which sets
it to 0. -/
theorem nudge_resume (g : Globals) (k : Nat) (hk : 1 ≤ k) :
    (∀ L, L.getD (k-1) 0 = 1 →
      microStep g .nudge (.unstarted k) L =
        (none, .running k (nudgeAwake1 g k ++ nudgeAsleep0 g k) .absent .absent, L)) ∧
    (∀ (F n : Nat) (L0 : List Nat) (es : List (Nat × Nat)),
      L0.getD (k-1) 0 = 1 →
      runEv g .nudge F n (.unstarted 1) L0 = some es →
      ∀ es1 v es2, es = es1 ++ (k, v) :: es2 → v = 0 ∨ ((k : Nat), (0 : Nat)) ∈ es1) := by
  constructor
  · intro L hL
    simp only [microStep, startCur, if_pos hL]
  · intro F n L0 es hbit hrun
    exact nudge_clean_run g k hk F n (.unstarted 1) L0 es (by decide) rfl hrun rfl hbit

theorem nudge_resume_witness :
    (1 : Nat) ≤ 4 ∧
    ((∀ L, L.getD (4-1) 0 = 1 →
      microStep ⟨4, 3, [1, 3, 4]⟩ .nudge (.unstarted 4) L =
        (none, .running 4
          (nudgeAwake1 ⟨4, 3, [1, 3, 4]⟩ 4 ++ nudgeAsleep0 ⟨4, 3, [1, 3, 4]⟩ 4)
          .absent .absent, L)) ∧
    (∀ (F n : Nat) (L0 : List Nat) (es : List (Nat × Nat)),
      L0.getD (4-1) 0 = 1 →
      runEv ⟨4, 3, [1, 3, 4]⟩ .nudge F n (.unstarted 1) L0 = some es →
      ∀ es1 v es2, es = es1 ++ (4, v) :: es2 → v = 0 ∨ ((4 : Nat), (0 : Nat)) ∈ es1)) :=
  ⟨by decide, nudge_resume ⟨4, 3, [1, 3, 4]⟩ 4 (by decide)⟩

theorem diffCount_self : ∀ l : List Nat, diffCount l l = 0
  | [] => rfl
  | x :: xs => by simp [diffCount, diffCount_self xs]

theorem diffCount_comm : ∀ a b : List Nat, diffCount a b = diffCount b a
  | [], [] => rfl
  | [], _ :: _ => rfl
  | _ :: _, [] => rfl
  | x :: xs, y :: ys => by
      simp only [diffCount, diffCount_comm xs ys]
      by_cases h : x = y
      · rw [if_pos h, if_pos h.symm]
      · rw [if_neg h, if_neg (fun h2 => h h2.symm)]

theorem diffCount_set : ∀ (L : List Nat) (i : Nat) (x : Nat), i < L.length →
    x ≠ L.getD i 0 → diffCount L (L.set i x) = 1
  | [], i, x, h, _ => absurd h (by simp)
  | a :: t, 0, x, _, hx => by
      have hx' : x ≠ a := by simpa using hx
      simp [List.set, diffCount, diffCount_self, Ne.symm hx']
  | a :: t, i+1, x, h, hx => by
      show (if a = a then 0 else 1) + diffCount t (t.set i x) = 1
      rw [if_pos rfl, Nat.zero_add]
      exact diffCount_set t i x (by simpa using h) (by simpa using hx)

theorem endSnap_cons (L : List Nat) (b : Bool) (L2 : List Nat) (t : List (Bool × List Nat)) :
    endSnap L ((b, L2) :: t) = endSnap L2 t := by
  cases t with
  | nil => rfl
  | cons p t' =>
      simp [endSnap, List.getLast?]

theorem flipOk_append (L : List Nat) :
    ∀ (t1 t2 : List (Bool × List Nat)),
      flipOk L (t1 ++ t2) = (flipOk L t1 && flipOk (endSnap L t1) t2) := by
  intro t1
  induction t1 generalizing L with
  | nil => intro t2; simp [flipOk, endSnap]
  | cons p t1 ih =>
      intro t2
      rcases p with ⟨b, L2⟩
      rw [List.cons_append]
      show (_ && flipOk L2 (t1 ++ t2)) = _
      rw [ih L2 t2, endSnap_cons]
      show _ = ((_ && flipOk L2 t1) && _)
      rw [Bool.and_assoc]

theorem flipOk_take (L : List Nat) :
    ∀ (t : List (Bool × List Nat)) (n : Nat), flipOk L t = true →
      flipOk L (t.take n) = true := by
  intro t
  induction t generalizing L with
  | nil => intro n _; simp [flipOk]
  | cons p t ih =>
      intro n h
      rcases p with ⟨b, L2⟩
      cases n with
      | zero => rfl
      | succ n =>
          simp only [flipOk, Bool.and_eq_true] at h
          simp only [List.take, flipOk, Bool.and_eq_true]
          exact ⟨h.1, ih L2 n h.2⟩

theorem advance_agree {g : Globals} {kind : GKind} {F F' : Nat} {s L r r'}
    (h : advance g kind F s L = some r) (h' : advance g kind F' s L = some r') :
    r = r' := by
  have h1 := advance_mono (Nat.le_max_left F F') h
  have h2 := advance_mono (Nat.le_max_right F F') h'
  rw [h1] at h2
  injection h2

theorem runTrace_agree {g : Globals} {kind : GKind} :
    ∀ {n : Nat} {F F' : Nat} {s L t t'},
      runTrace g kind F n s L = some t → runTrace g kind F' n s L = some t' →
      t = t' := by
  intro n
  induction n with
  | zero =>
      intro F F' s L t t' h h'
      injection h with h; injection h' with h'
      rw [← h, ← h']
  | succ n ih =>
      intro F F' s L t t' h h'
      rcases ha : advance g kind F s L with _ | ⟨⟨b, s1, L1⟩⟩
      · rw [runTrace, ha] at h; exact absurd h (by simp)
      · rcases ha' : advance g kind F' s L with _ | ⟨⟨b', s1', L1'⟩⟩
        · rw [runTrace, ha'] at h'; exact absurd h' (by simp)
        · have heq := advance_agree ha ha'
          obtain ⟨hb, hs, hl⟩ : b = b' ∧ s1 = s1' ∧ L1 = L1' := by
            refine ⟨congrArg Prod.fst heq, congrArg (fun q => q.2.1) heq,
                    congrArg (fun q => q.2.2) heq⟩
          subst hb; subst hs; subst hl
          rw [runTrace_succ_some ha] at h
          rw [runTrace_succ_some ha'] at h'
          rcases hr : runTrace g kind F n s1 L1 with _ | u
          · rw [hr] at h; exact absurd h (by simp)
          · rcases hr' : runTrace g kind F' n s1 L1 with _ | u'
            · rw [hr'] at h'; exact absurd h' (by simp)
            · rw [hr] at h; rw [hr'] at h'
              have := ih hr hr'
              subst this
              simp only [Option.map_some'] at h h'
              injection h with h
              injection h' with h'
              rw [← h, ← h']

theorem runTrace_take {g : Globals} {kind : GKind} {F : Nat} :
    ∀ {m n : Nat} {s L tr}, runTrace g kind F n s L = some tr → m ≤ n →
      runTrace g kind F m s L = some (tr.take m) := by
  intro m
  induction m with
  | zero => intro n s L tr _ _; rfl
  | succ m ih =>
      intro n s L tr h hle
      obtain ⟨n', rfl⟩ : ∃ n', n = n' + 1 := ⟨n - 1, by omega⟩
      rcases ha : advance g kind F s L with _ | ⟨⟨b, s1, L1⟩⟩
      · rw [runTrace, ha] at h; exact absurd h (by simp)
      · rw [runTrace_succ_some ha] at h
        rcases hr : runTrace g kind F n' s1 L1 with _ | u
        · rw [hr] at h; exact absurd h (by simp)
        · rw [hr] at h
          simp only [Option.map_some'] at h
          injection h with h
          subst h
          rw [runTrace_succ_some ha, ih hr (by omega)]
          rfl

theorem runTrace_advanceN {g : Globals} {kind : GKind} {F : Nat} :
    ∀ {n : Nat} {s L tr}, runTrace g kind F n s L = some tr →
      ∃ s1 L1, advanceN g kind F n s L = some (s1, L1) ∧ endSnap L tr = L1 ∧
        ∀ b2, runTrace g kind F (n + b2) s L =
          (runTrace g kind F b2 s1 L1).map (fun t => tr ++ t) := by
  intro n
  induction n with
  | zero =>
      intro s L tr h
      injection h with h
      subst h
      refine ⟨s, L, rfl, rfl, fun b2 => ?_⟩
      rw [Nat.zero_add]
      rcases hr : runTrace g kind F b2 s L with _ | u <;> simp
  | succ n ih =>
      intro s L tr h
      rcases ha : advance g kind F s L with _ | ⟨⟨b, s1, L1⟩⟩
      · rw [runTrace, ha] at h; exact absurd h (by simp)
      · rw [runTrace_succ_some ha] at h
        rcases hr : runTrace g kind F n s1 L1 with _ | u
        · rw [hr] at h; exact absurd h (by simp)
        · rw [hr] at h
          simp only [Option.map_some'] at h
          injection h with h
          subst h
          obtain ⟨s2, L2, hN, hend, hsh⟩ := ih hr
          refine ⟨s2, L2, ?_, ?_, fun b2 => ?_⟩
          · rw [advanceN, ha]; exact hN
          · rw [endSnap_cons]; exact hend
          · rw [show n + 1 + b2 = (n + b2) + 1 from by omega,
              runTrace_succ_some ha, hsh b2]
            rcases runTrace g kind F b2 s2 L2 with _ | u2 <;> simp

theorem advanceN_add {g : Globals} {kind : GKind} {F : Nat} :
    ∀ {a b : Nat} {s L sa La}, advanceN g kind F a s L = some (sa, La) →
      advanceN g kind F (a + b) s L = advanceN g kind F b sa La := by
  intro a
  induction a with
  | zero =>
      intro b s L sa La h
      injection h with h
      obtain ⟨hs, hl⟩ : s = sa ∧ L = La :=
        ⟨congrArg Prod.fst h, congrArg Prod.snd h⟩
      subst hs; subst hl
      rw [Nat.zero_add]
  | succ a ih =>
      intro b s L sa La h
      rcases ha : advance g kind F s L with _ | ⟨⟨x, s1, L1⟩⟩
      · rw [advanceN, ha] at h; exact absurd h (by simp)
      · rw [advanceN, ha] at h
        rw [show a + 1 + b = (a + b) + 1 from by omega, advanceN, ha]
        exact ih h

theorem periodic_flipOk (g : Globals) (kind : GKind) (F : Nat) (s0 : GenS) (L0 : List Nat)
    (t1 p : Nat) (hp : 0 < p) (s1 : GenS) (L1 : List Nat)
    (h1 : advanceN g kind F t1 s0 L0 = some (s1, L1))
    (h2 : advanceN g kind F (t1 + p) s0 L0 = some (s1, L1))
    (tr2 : List (Bool × List Nat))
    (hrun : runTrace g kind F (t1 + p) s0 L0 = some tr2)
    (hfl : flipOk L0 tr2 = true) :
    ∀ (F' n : Nat) (tr : List (Bool × List Nat)),
      runTrace g kind F' n s0 L0 = some tr → flipOk L0 tr = true := by
  have hpre : runTrace g kind F t1 s0 L0 = some (tr2.take t1) :=
    runTrace_take hrun (by omega)
  obtain ⟨sa, La, hNa, hend1, hshift1⟩ := runTrace_advanceN hpre
  obtain ⟨hsa, hla⟩ : s1 = sa ∧ L1 = La := by
    rw [h1] at hNa
    injection hNa with hNa
    exact ⟨congrArg Prod.fst hNa, congrArg Prod.snd hNa⟩
  subst hsa; subst hla
  have hshseg := hshift1 p
  rw [show t1 + p = t1 + p from rfl, hrun] at hshseg
  rcases hseg : runTrace g kind F p s1 L1 with _ | seg
  · rw [hseg] at hshseg; exact absurd hshseg (by simp)
  · rw [hseg] at hshseg
    simp only [Option.map_some'] at hshseg
    injection hshseg with hshseg
    have htr2 : tr2 = tr2.take t1 ++ seg := hshseg
    obtain ⟨sb, Lb, hNb, hendb, hshift2⟩ := runTrace_advanceN hseg
    obtain ⟨hsb, hlb⟩ : s1 = sb ∧ L1 = Lb := by
      have hcomp := advanceN_add (b := p) h1
      rw [h2] at hcomp
      rw [hNb] at hcomp
      injection hcomp with hcomp
      exact ⟨congrArg Prod.fst hcomp, congrArg Prod.snd hcomp⟩
    subst hsb; subst hlb
    have hflpre : flipOk L0 (tr2.take t1) = true := flipOk_take L0 tr2 t1 hfl
    have hflseg : flipOk L1 seg = true := by
      rw [htr2, flipOk_append, hend1, Bool.and_eq_true] at hfl
      exact hfl.2
    have main : ∀ c m, m ≤ c → ∃ u, runTrace g kind F m s1 L1 = some u ∧
        flipOk L1 u = true := by
      intro c
      induction c with
      | zero =>
          intro m hm
          obtain rfl : m = 0 := by omega
          exact ⟨[], rfl, rfl⟩
      | succ c ih =>
          intro m hm
          by_cases hmp : m ≤ p
          · exact ⟨seg.take m, runTrace_take hseg hmp, flipOk_take L1 seg m hflseg⟩
          · obtain ⟨m', rfl⟩ : ∃ m', m = p + m' := ⟨m - p, by omega⟩
            obtain ⟨u', hu', hflu'⟩ := ih m' (by omega)
            refine ⟨seg ++ u', ?_, ?_⟩
            · rw [hshift2 m', hu']
              rfl
            · rw [flipOk_append, hendb, Bool.and_eq_true]
              exact ⟨hflseg, hflu'⟩
    intro F' n tr htr
    have hex : ∃ u, runTrace g kind F n s0 L0 = some u ∧ flipOk L0 u = true := by
      by_cases hn : n ≤ t1 + p
      · exact ⟨tr2.take n, runTrace_take hrun hn, flipOk_take L0 tr2 n hfl⟩
      · obtain ⟨b2, rfl⟩ : ∃ b2, n = t1 + b2 := ⟨n - t1, by omega⟩
        obtain ⟨u, hu, hflu⟩ := main b2 b2 le_rfl
        refine ⟨tr2.take t1 ++ u, ?_, ?_⟩
        · rw [hshift1 b2, hu]
          rfl
        · rw [flipOk_append, hend1, Bool.and_eq_true]
          exact ⟨hflpre, hflu⟩
    obtain ⟨u, hu, hflu⟩ := hex
    rw [runTrace_agree htr hu]
    exact hflu

theorem mbump_default_flip :
    ∀ (F' n : Nat) (tr : List (Bool × List Nat)),
      runTrace ⟨4, 2, [1, 3, 4]⟩ .mbump F' n (.unstarted 1) (List.replicate 4 0) = some tr →
      flipOk (List.replicate 4 0) tr = true := by
  have h12 : advanceN ⟨4, 2, [1, 3, 4]⟩ .mbump 64 4 (.unstarted 1) (List.replicate 4 0) =
      advanceN ⟨4, 2, [1, 3, 4]⟩ .mbump 64 14 (.unstarted 1) (List.replicate 4 0) := by decide
  have hS : (advanceN ⟨4, 2, [1, 3, 4]⟩ .mbump 64 4 (.unstarted 1)
      (List.replicate 4 0)).isSome = true := by decide
  have hfl2 : (runTrace ⟨4, 2, [1, 3, 4]⟩ .mbump 64 14 (.unstarted 1)
      (List.replicate 4 0)).map (flipOk (List.replicate 4 0)) = some true := by decide
  rcases hc : advanceN ⟨4, 2, [1, 3, 4]⟩ .mbump 64 4 (.unstarted 1) (List.replicate 4 0)
    with _ | ⟨s1, L1⟩
  · rw [hc] at hS; exact absurd hS (by simp)
  · rcases htr : runTrace ⟨4, 2, [1, 3, 4]⟩ .mbump 64 14 (.unstarted 1) (List.replicate 4 0)
      with _ | tr2
    · rw [htr] at hfl2; exact absurd hfl2 (by simp)
    · rw [htr] at hfl2
      simp only [Option.map_some'] at hfl2
      injection hfl2 with hfl2
      intro F' n tr htr'
      exact periodic_flipOk ⟨4, 2, [1, 3, 4]⟩ .mbump 64 (.unstarted 1) (List.replicate 4 0)
        4 10 (by omega) s1 L1 hc (h12 ▸ hc) tr2 htr hfl2 F' n tr htr'

theorem ebump_default_flip :
    ∀ (F' n : Nat) (tr : List (Bool × List Nat)),
      runTrace ⟨6, 3, [1, 3, 4]⟩ .ebump F' n (.unstarted 4) (List.replicate 6 0) = some tr →
      flipOk (List.replicate 6 0) tr = true := by
  have h12 : advanceN ⟨6, 3, [1, 3, 4]⟩ .ebump 64 8 (.unstarted 4) (List.replicate 6 0) =
      advanceN ⟨6, 3, [1, 3, 4]⟩ .ebump 64 56 (.unstarted 4) (List.replicate 6 0) := by decide
  have hS : (advanceN ⟨6, 3, [1, 3, 4]⟩ .ebump 64 8 (.unstarted 4)
      (List.replicate 6 0)).isSome = true := by decide
  have hfl2 : (runTrace ⟨6, 3, [1, 3, 4]⟩ .ebump 64 56 (.unstarted 4)
      (List.replicate 6 0)).map (flipOk (List.replicate 6 0)) = some true := by decide
  rcases hc : advanceN ⟨6, 3, [1, 3, 4]⟩ .ebump 64 8 (.unstarted 4) (List.replicate 6 0)
    with _ | ⟨s1, L1⟩
  · rw [hc] at hS; exact absurd hS (by simp)
  · rcases htr : runTrace ⟨6, 3, [1, 3, 4]⟩ .ebump 64 56 (.unstarted 4) (List.replicate 6 0)
      with _ | tr2
    · rw [htr] at hfl2; exact absurd hfl2 (by simp)
    · rw [htr] at hfl2
      simp only [Option.map_some'] at hfl2
      injection hfl2 with hfl2
      intro F' n tr htr'
      exact periodic_flipOk ⟨6, 3, [1, 3, 4]⟩ .ebump 64 (.unstarted 4) (List.replicate 6 0)
        8 48 (by omega) s1 L1 hc (h12 ▸ hc) tr2 htr hfl2 F' n tr htr'

theorem nudge_default_flip :
    ∀ (F' n : Nat) (tr : List (Bool × List Nat)),
      runTrace ⟨4, 3, [1, 3, 4]⟩ .nudge F' n (.unstarted 1) (initial_nudge_sequence 4) = some tr →
      flipOk (initial_nudge_sequence 4) tr = true := by
  have h12 : advanceN ⟨4, 3, [1, 3, 4]⟩ .nudge 64 7 (.unstarted 1) (initial_nudge_sequence 4) =
      advanceN ⟨4, 3, [1, 3, 4]⟩ .nudge 64 23 (.unstarted 1) (initial_nudge_sequence 4) := by
    decide
  have hS : (advanceN ⟨4, 3, [1, 3, 4]⟩ .nudge 64 7 (.unstarted 1)
      (initial_nudge_sequence 4)).isSome = true := by decide
  have hfl2 : (runTrace ⟨4, 3, [1, 3, 4]⟩ .nudge 64 23 (.unstarted 1)
      (initial_nudge_sequence 4)).map (flipOk (initial_nudge_sequence 4)) = some true := by
    decide
  rcases hc : advanceN ⟨4, 3, [1, 3, 4]⟩ .nudge 64 7 (.unstarted 1) (initial_nudge_sequence 4)
    with _ | ⟨s1, L1⟩
  · rw [hc] at hS; exact absurd hS (by simp)
  · rcases htr : runTrace ⟨4, 3, [1, 3, 4]⟩ .nudge 64 23 (.unstarted 1)
        (initial_nudge_sequence 4) with _ | tr2
    · rw [htr] at hfl2; exact absurd hfl2 (by simp)
    · rw [htr] at hfl2
      simp only [Option.map_some'] at hfl2
      injection hfl2 with hfl2
      intro F' n tr htr'
      exact periodic_flipOk ⟨4, 3, [1, 3, 4]⟩ .nudge 64 (.unstarted 1) (initial_nudge_sequence 4)
        7 16 (by omega) s1 L1 hc (h12 ▸ hc) tr2 htr hfl2 F' n tr htr'

theorem diffCount_zo : ∀ (a i : Nat),
    diffCount (List.replicate (a+1) 0 ++ List.replicate i 1)
      (List.replicate a 0 ++ List.replicate (i+1) 1) = 1
  | 0, i => by
      show (if (0:Nat) = 1 then 0 else 1) +
        diffCount (List.replicate i 1) (List.replicate i 1) = 1
      rw [if_neg (by omega), diffCount_self]
  | a+1, i => by
      show (if (0:Nat) = 0 then 0 else 1) +
        diffCount (List.replicate (a+1) 0 ++ List.replicate i 1)
          (List.replicate a 0 ++ List.replicate (i+1) 1) = 1
      rw [if_pos rfl, Nat.zero_add]
      exact diffCount_zo a i

theorem diffCount_oz : ∀ (i a : Nat),
    diffCount (List.replicate i 1 ++ List.replicate (a+1) 0)
      (List.replicate (i+1) 1 ++ List.replicate a 0) = 1
  | 0, a => by
      show (if (0:Nat) = 1 then 0 else 1) +
        diffCount (List.replicate a 0) (List.replicate a 0) = 1
      rw [if_neg (by omega), diffCount_self]
  | i+1, a => by
      show (if (1:Nat) = 1 then 0 else 1) +
        diffCount (List.replicate i 1 ++ List.replicate (a+1) 0)
          (List.replicate (i+1) 1 ++ List.replicate a 0) = 1
      rw [if_pos rfl, Nat.zero_add]
      exact diffCount_oz i a

theorem diffCount_lowVec (n j : Nat) (h : j < n) :
    diffCount (lowVec n j) (lowVec n (j+1)) = 1 := by
  unfold lowVec
  have e1 : n - j = (n - (j+1)) + 1 := by omega
  rw [e1]
  exact diffCount_zo (n - (j+1)) j

theorem diffCount_hiVec (n j : Nat) (h : j < n) :
    diffCount (hiVec n j) (hiVec n (j+1)) = 1 := by
  unfold hiVec
  have e1 : n - j = (n - (j+1)) + 1 := by omega
  rw [e1]
  exact diffCount_oz j (n - (j+1))

theorem upOk (n : Nat) : ∀ (c j : Nat), j + c ≤ n →
    ∀ rest, flipOk (lowVec n j)
      (activesOf ((List.range c).map (fun i => lowVec n (j+1+i))) ++ rest) =
      flipOk (lowVec n (j+c)) rest := by
  intro c
  induction c with
  | zero =>
      intro j _ rest
      simp [activesOf]
  | succ c ih =>
      intro j hj rest
      rw [List.range_succ_eq_map, List.map_cons, List.map_map]
      show flipOk (lowVec n j) ((true, lowVec n (j+1+0)) ::
        (activesOf ((List.range c).map (fun i => lowVec n (j+1+(i+1)))) ++ rest)) = _
      show ((if true then diffCount (lowVec n j) (lowVec n (j+1+0)) == 1
          else lowVec n j == lowVec n (j+1+0)) &&
        flipOk (lowVec n (j+1+0))
          (activesOf ((List.range c).map (fun i => lowVec n (j+1+(i+1)))) ++ rest)) = _
      rw [if_pos rfl]
      have hmap : (List.range c).map (fun i => lowVec n (j+1+(i+1))) =
          (List.range c).map (fun i => lowVec n ((j+1)+1+i)) := by
        refine List.map_congr_left ?_
        intro i _
        have : j+1+(i+1) = (j+1)+1+i := by omega
        rw [this]
      have e0 : j + 1 + 0 = j + 1 := by omega
      rw [e0, hmap, ih (j+1) (by omega) rest]
      have e1 : j + 1 + c = j + (c+1) := by omega
      rw [e1, diffCount_lowVec n j (by omega)]
      simp

theorem downOk (n : Nat) : ∀ (c j : Nat), c ≤ j → j ≤ n →
    ∀ rest, flipOk (lowVec n j)
      (activesOf ((List.range c).map (fun i => lowVec n (j-1-i))) ++ rest) =
      flipOk (lowVec n (j-c)) rest := by
  intro c
  induction c with
  | zero =>
      intro j _ _ rest
      simp [activesOf]
  | succ c ih =>
      intro j hcj hjn rest
      rw [List.range_succ_eq_map, List.map_cons, List.map_map]
      show ((if true then diffCount (lowVec n j) (lowVec n (j-1-0)) == 1
          else lowVec n j == lowVec n (j-1-0)) &&
        flipOk (lowVec n (j-1-0))
          (activesOf ((List.range c).map (fun i => lowVec n (j-1-(i+1)))) ++ rest)) = _
      rw [if_pos rfl]
      have hmap : (List.range c).map (fun i => lowVec n (j-1-(i+1))) =
          (List.range c).map (fun i => lowVec n ((j-1)-1-i)) := by
        refine List.map_congr_left ?_
        intro i _
        have : j-1-(i+1) = (j-1)-1-i := by omega
        rw [this]
      have e0 : j - 1 - 0 = j - 1 := by omega
      rw [e0, hmap, ih (j-1) (by omega) (by omega) rest]
      have e1 : j - 1 - c = j - (c+1) := by omega
      rw [e1]
      have e2 : j = (j-1) + 1 := by omega
      rw [show diffCount (lowVec n j) (lowVec n (j-1)) = 1 from by
        rw [diffCount_comm]
        nth_rewrite 2 [e2]
        exact diffCount_lowVec n (j-1) (by omega)]
      simp

theorem coUpOk (n : Nat) : ∀ (c j : Nat), j + c ≤ n →
    ∀ rest, flipOk (hiVec n j)
      (activesOf ((List.range c).map (fun i => hiVec n (j+1+i))) ++ rest) =
      flipOk (hiVec n (j+c)) rest := by
  intro c
  induction c with
  | zero =>
      intro j _ rest
      simp [activesOf]
  | succ c ih =>
      intro j hj rest
      rw [List.range_succ_eq_map, List.map_cons, List.map_map]
      show ((if true then diffCount (hiVec n j) (hiVec n (j+1+0)) == 1
          else hiVec n j == hiVec n (j+1+0)) &&
        flipOk (hiVec n (j+1+0))
          (activesOf ((List.range c).map (fun i => hiVec n (j+1+(i+1)))) ++ rest)) = _
      rw [if_pos rfl]
      have hmap : (List.range c).map (fun i => hiVec n (j+1+(i+1))) =
          (List.range c).map (fun i => hiVec n ((j+1)+1+i)) := by
        refine List.map_congr_left ?_
        intro i _
        have : j+1+(i+1) = (j+1)+1+i := by omega
        rw [this]
      have e0 : j + 1 + 0 = j + 1 := by omega
      rw [e0, hmap, ih (j+1) (by omega) rest]
      have e1 : j + 1 + c = j + (c+1) := by omega
      rw [e1, diffCount_hiVec n j (by omega)]
      simp

theorem coDownOk (n : Nat) : ∀ (c j : Nat), c ≤ j → j ≤ n →
    ∀ rest, flipOk (hiVec n j)
      (activesOf ((List.range c).map (fun i => hiVec n (j-1-i))) ++ rest) =
      flipOk (hiVec n (j-c)) rest := by
  intro c
  induction c with
  | zero =>
      intro j _ _ rest
      simp [activesOf]
  | succ c ih =>
      intro j hcj hjn rest
      rw [List.range_succ_eq_map, List.map_cons, List.map_map]
      show ((if true then diffCount (hiVec n j) (hiVec n (j-1-0)) == 1
          else hiVec n j == hiVec n (j-1-0)) &&
        flipOk (hiVec n (j-1-0))
          (activesOf ((List.range c).map (fun i => hiVec n (j-1-(i+1)))) ++ rest)) = _
      rw [if_pos rfl]
      have hmap : (List.range c).map (fun i => hiVec n (j-1-(i+1))) =
          (List.range c).map (fun i => hiVec n ((j-1)-1-i)) := by
        refine List.map_congr_left ?_
        intro i _
        have : j-1-(i+1) = (j-1)-1-i := by omega
        rw [this]
      have e0 : j - 1 - 0 = j - 1 := by omega
      rw [e0, hmap, ih (j-1) (by omega) (by omega) rest]
      have e1 : j - 1 - c = j - (c+1) := by omega
      rw [e1]
      have e2 : j = (j-1) + 1 := by omega
      rw [show diffCount (hiVec n j) (hiVec n (j-1)) = 1 from by
        rw [diffCount_comm]
        nth_rewrite 2 [e2]
        exact diffCount_hiVec n (j-1) (by omega)]
      simp

theorem bumpFlipOk (n : Nat) : flipOk (List.replicate n 0) (bumpCycleTr n) = true := by
  rw [← lowVec_zero]
  unfold bumpCycleTr
  have hmap : (List.range n).map (fun i => lowVec n (i+1)) =
      (List.range n).map (fun i => lowVec n (0+1+i)) := by
    refine List.map_congr_left ?_
    intro i _
    have : i + 1 = 0+1+i := by omega
    rw [this]
  rw [List.append_assoc, List.append_assoc, hmap, upOk n n 0 (by omega)]
  have e : 0 + n = n := by omega
  rw [e]
  show ((lowVec n n == lowVec n n) && flipOk (lowVec n n)
    (activesOf ((List.range n).map (fun i => lowVec n (n-1-i))) ++ [(false, lowVec n 0)])) = true
  rw [beq_self_eq_true, Bool.true_and, downOk n n n le_rfl le_rfl]
  have e2 : n - n = 0 := by omega
  rw [e2]
  show ((lowVec n 0 == lowVec n 0) && true) = true
  simp

theorem cobumpFlipOk (n : Nat) : flipOk (List.replicate n 0) (cobumpCycleTr n) = true := by
  rw [← hiVec_zero]
  unfold cobumpCycleTr
  have hmap : (List.range n).map (fun i => hiVec n (i+1)) =
      (List.range n).map (fun i => hiVec n (0+1+i)) := by
    refine List.map_congr_left ?_
    intro i _
    have : i + 1 = 0+1+i := by omega
    rw [this]
  rw [List.append_assoc, List.append_assoc, hmap, coUpOk n n 0 (by omega)]
  have e : 0 + n = n := by omega
  rw [e]
  show ((hiVec n n == hiVec n n) && flipOk (hiVec n n)
    (activesOf ((List.range n).map (fun i => hiVec n (n-1-i))) ++ [(false, hiVec n 0)])) = true
  rw [beq_self_eq_true, Bool.true_and, coDownOk n n n le_rfl le_rfl]
  have e2 : n - n = 0 := by omega
  rw [e2]
  show ((hiVec n 0 == hiVec n 0) && true) = true
  simp

theorem endSnap_concat (L : List Nat) :
    ∀ (t : List (Bool × List Nat)) (b : Bool) (X : List Nat),
      endSnap L (t ++ [(b, X)]) = X := by
  intro t
  induction t generalizing L with
  | nil => intro b X; rfl
  | cons p t ih =>
      intro b X
      rcases p with ⟨c, Y⟩
      rw [List.cons_append, endSnap_cons]
      exact ih Y b X

theorem bumpCycleTr_endSnap (n : Nat) :
    endSnap (List.replicate n 0) (bumpCycleTr n) = List.replicate n 0 := by
  unfold bumpCycleTr
  rw [endSnap_concat, lowVec_zero]

theorem cobumpCycleTr_endSnap (n : Nat) :
    endSnap (List.replicate n 0) (cobumpCycleTr n) = List.replicate n 0 := by
  unfold cobumpCycleTr
  rw [endSnap_concat, hiVec_zero]

theorem bump_cycle_pow (g : Globals) (hN : 1 ≤ g.N) :
    ∀ (m : Nat) (s : GenS), (s = .unstarted 1 ∨ s = bumpEndS (g.N - 1) 1) →
      Emits g .bump s (List.replicate g.N 0)
        ((List.replicate m (bumpCycleTr g.N)).flatten ++ bumpCycleTr g.N)
        (bumpEndS (g.N-1) 1) (List.replicate g.N 0) := by
  intro m
  induction m with
  | zero =>
      intro s hs
      have h := bump_root_cycle g hN s hs
      rw [lowVec_zero] at h
      simpa using h
  | succ m ih =>
      intro s hs
      have h1 := bump_root_cycle g hN s hs
      rw [lowVec_zero] at h1
      have h2 := ih (bumpEndS (g.N-1) 1) (Or.inr rfl)
      have h3 := Emits.append h1 h2
      rw [show (List.replicate (m+1) (bumpCycleTr g.N)).flatten ++ bumpCycleTr g.N =
        bumpCycleTr g.N ++ ((List.replicate m (bumpCycleTr g.N)).flatten ++ bumpCycleTr g.N) from by
          rw [List.replicate_succ, List.flatten_cons, List.append_assoc]]
      exact h3

theorem cobump_cycle_pow (g : Globals) (hN : 1 ≤ g.N) :
    ∀ (m : Nat) (s : GenS), (s = .unstarted 1 ∨ s = coEndS (g.N - 1) 1) →
      Emits g .cobump s (List.replicate g.N 0)
        ((List.replicate m (cobumpCycleTr g.N)).flatten ++ cobumpCycleTr g.N)
        (coEndS (g.N-1) 1) (List.replicate g.N 0) := by
  intro m
  induction m with
  | zero =>
      intro s hs
      have h := cobump_root_cycle g hN s hs
      rw [hiVec_zero] at h
      simpa using h
  | succ m ih =>
      intro s hs
      have h1 := cobump_root_cycle g hN s hs
      rw [hiVec_zero] at h1
      have h2 := ih (coEndS (g.N-1) 1) (Or.inr rfl)
      have h3 := Emits.append h1 h2
      rw [show (List.replicate (m+1) (cobumpCycleTr g.N)).flatten ++ cobumpCycleTr g.N =
        cobumpCycleTr g.N ++ ((List.replicate m (cobumpCycleTr g.N)).flatten ++ cobumpCycleTr g.N) from by
          rw [List.replicate_succ, List.flatten_cons, List.append_assoc]]
      exact h3

theorem bump_pow_flip (n : Nat) : ∀ m, flipOk (List.replicate n 0)
    ((List.replicate m (bumpCycleTr n)).flatten ++ bumpCycleTr n) = true := by
  intro m
  induction m with
  | zero => simpa using bumpFlipOk n
  | succ m ih =>
      rw [List.replicate_succ, List.flatten_cons, List.append_assoc, flipOk_append,
        bumpCycleTr_endSnap, ih, bumpFlipOk]
      rfl

theorem cobump_pow_flip (n : Nat) : ∀ m, flipOk (List.replicate n 0)
    ((List.replicate m (cobumpCycleTr n)).flatten ++ cobumpCycleTr n) = true := by
  intro m
  induction m with
  | zero => simpa using cobumpFlipOk n
  | succ m ih =>
      rw [List.replicate_succ, List.flatten_cons, List.append_assoc, flipOk_append,
        cobumpCycleTr_endSnap, ih, cobumpFlipOk]
      rfl

theorem bump_flip_all (g : Globals) (hN : 1 ≤ g.N) :
    ∀ (F' n : Nat) (tr : List (Bool × List Nat)),
      runTrace g .bump F' n (.unstarted 1) (List.replicate g.N 0) = some tr →
      flipOk (List.replicate g.N 0) tr = true := by
  intro F' n tr htr
  have hem := bump_cycle_pow g hN n (.unstarted 1) (Or.inl rfl)
  obtain ⟨F, hF⟩ := Emits_runTrace hem
  have hlen : n ≤ ((List.replicate n (bumpCycleTr g.N)).flatten ++ bumpCycleTr g.N).length := by
    rw [List.length_append, List.length_flatten, List.map_replicate, List.sum_replicate,
      smul_eq_mul, bumpCycleTr_length]
    have : n ≤ n * (2*g.N+2) := Nat.le_mul_of_pos_right n (by omega)
    omega
  have htk := runTrace_take hF hlen
  rw [runTrace_agree htr htk]
  exact flipOk_take _ _ n (bump_pow_flip g.N n)

theorem cobump_flip_all (g : Globals) (hN : 1 ≤ g.N) :
    ∀ (F' n : Nat) (tr : List (Bool × List Nat)),
      runTrace g .cobump F' n (.unstarted 1) (List.replicate g.N 0) = some tr →
      flipOk (List.replicate g.N 0) tr = true := by
  intro F' n tr htr
  have hem := cobump_cycle_pow g hN n (.unstarted 1) (Or.inl rfl)
  obtain ⟨F, hF⟩ := Emits_runTrace hem
  have hlen : n ≤ ((List.replicate n (cobumpCycleTr g.N)).flatten ++ cobumpCycleTr g.N).length := by
    rw [List.length_append, List.length_flatten, List.map_replicate, List.sum_replicate,
      smul_eq_mul, cobumpCycleTr_length]
    have : n ≤ n * (2*g.N+2) := Nat.le_mul_of_pos_right n (by omega)
    omega
  have htk := runTrace_take hF hlen
  rw [runTrace_agree htr htk]
  exact flipOk_take _ _ n (cobump_pow_flip g.N n)

theorem advanceEv_absent (g : Globals) (kind : GKind) :
    ∀ (F : Nat) (L : List Nat), advanceEv g kind F .absent L = none := by
  intro F
  induction F with
  | zero => intro L; rfl
  | succ F ih =>
      intro L
      show (advanceEv g kind F .absent L).map _ = none
      rw [ih]
      rfl

theorem advanceEv_mono {g : Globals} {kind : GKind} :
    ∀ {f f' : Nat} {s L r}, f ≤ f' → advanceEv g kind f s L = some r →
      advanceEv g kind f' s L = some r := by
  intro f
  induction f with
  | zero => intro f' s L r _ h; simp [advanceEv] at h
  | succ f ih =>
      intro f' s L r hle h
      obtain ⟨f'', rfl⟩ : ∃ f'', f' = f'' + 1 := ⟨f' - 1, by omega⟩
      rcases hms : microStep g kind s L with ⟨o, s1, L1⟩
      cases o with
      | some b =>
          rw [advanceEv, hms] at h ⊢
          simp only [] at h ⊢
          exact h
      | none =>
          rw [advanceEv, hms] at h ⊢
          simp only [] at h ⊢
          rcases hr : advanceEv g kind f s1 L1 with _ | r1
          · rw [hr] at h; exact absurd h (by simp)
          · rw [hr] at h
            rw [ih (by omega) hr]
            exact h

theorem advanceEv_agree {g : Globals} {kind : GKind} {F F' : Nat} {s L r r'}
    (h : advanceEv g kind F s L = some r) (h' : advanceEv g kind F' s L = some r') :
    r = r' := by
  have h1 := advanceEv_mono (Nat.le_max_left F F') h
  have h2 := advanceEv_mono (Nat.le_max_right F F') h'
  rw [h1] at h2
  injection h2

theorem advanceEv_silent {g : Globals} {kind : GKind} {F : Nat} {s L s1 L1}
    (hms : microStep g kind s L = (none, s1, L1)) (hev : setEvent s L = none) :
    advanceEv g kind (F+1) s L = advanceEv g kind F s1 L1 := by
  conv_lhs => rw [advanceEv]
  rw [hms, hev]
  simp only []
  rcases hr : advanceEv g kind F s1 L1 with _ | ⟨es, r2⟩ <;> simp [Option.toList]

theorem advanceEv_fwd0_comp (g : Globals) (kind : GKind) :
    ∀ (F : Nat) (k : Nat) (rest : List Instr) (c0 c1 : GenS) (L : List Nat),
      c0 ≠ .absent →
      advanceEv g kind F (.running k (.fwd false :: rest) c0 c1) L =
        (advanceEv g kind F c0 L).map
          (fun r => (r.1, r.2.1, .running k rest r.2.2.1 c1, r.2.2.2)) := by
  intro F
  induction F with
  | zero => intro k rest c0 c1 L _; rfl
  | succ F ih =>
      intro k rest c0 c1 L hc
      have hev : setEvent (.running k (.fwd false :: rest) c0 c1) L = setEvent c0 L := by
        simp [setEvent, if_neg hc]
      rcases hcm : microStep g kind c0 L with ⟨o, c0x, L2⟩
      cases o with
      | some b =>
          have hms : microStep g kind (.running k (.fwd false :: rest) c0 c1) L =
              (some b, .running k rest c0x c1, L2) := by
            rw [microStep_fwd0 hc, hcm]
          have hR : advanceEv g kind (F+1) c0 L =
              some ((setEvent c0 L).toList, b, c0x, L2) := by
            rw [advanceEv, hcm]
          rw [advanceEv, hms]
          simp only []
          rw [hR, hev]
          rfl
      | none =>
          have hms : microStep g kind (.running k (.fwd false :: rest) c0 c1) L =
              (none, .running k (.fwd false :: rest) c0x c1, L2) := by
            rw [microStep_fwd0 hc, hcm]
          have hc0x : c0x ≠ .absent := microStep_result_ne_absent hc hcm
          have hR : advanceEv g kind (F+1) c0 L =
              (advanceEv g kind F c0x L2).map
                (fun r => ((setEvent c0 L).toList ++ r.1, r.2)) := by
            rw [advanceEv, hcm]
          rw [advanceEv, hms]
          simp only []
          rw [hR, ih k rest c0x c1 L2 hc0x, hev]
          rcases advanceEv g kind F c0x L2 with _ | ⟨es, b2, s2, L3⟩ <;> rfl

theorem quad_eq {α β γ δ : Type} {a a2 : α} {b b2 : β} {c c2 : γ} {d d2 : δ}
    (h : (a, b, c, d) = (a2, b2, c2, d2)) : a = a2 ∧ b = b2 ∧ c = c2 ∧ d = d2 :=
  ⟨congrArg (fun q => q.1) h, congrArg (fun q => q.2.1) h,
   congrArg (fun q => q.2.2.1) h, congrArg (fun q => q.2.2.2) h⟩

theorem poke_adv (g : Globals) :
    ∀ (k : Nat), 1 ≤ k →
      ∀ (F : Nat) (s : GenS) (L : List Nat) (es : List (Nat × Nat)) (b : Bool)
        (s' : GenS) (L' : List Nat),
        pokeOk k s = true →
        advanceEv g .poke F s L = some (es, b, s', L') →
        pokeOk k s' = true ∧
        ((b = true ∧ ∃ j2, 1 ≤ j2 ∧ j2 ≤ k ∧ es = [(j2, 1 - L.getD (j2-1) 0)] ∧
            L' = L.set (j2-1) (1 - L.getD (j2-1) 0)) ∨
         (b = false ∧ es = [] ∧ L' = L)) := by
  intro k
  induction k with
  | zero => intro h; omega
  | succ j ihj =>
      intro _ F s L es b s' L' hok hadv
      match s with
      | .absent =>
          rw [advanceEv_absent] at hadv
          exact absurd hadv (by simp)
      | .unstarted u =>
          have hu : u = j+1 := by simpa [pokeOk] using hok
          subst hu
          have hcomp : advanceEv g .poke 4 (.unstarted (j+1)) L =
              some ([(j+1, 1 - L.getD j 0)], true,
                .running (j+1) [pokeTail (j+1)] .absent .absent,
                L.set j (1 - L.getD j 0)) := rfl
          obtain ⟨he, hb, hs, hl⟩ := quad_eq (advanceEv_agree hadv hcomp)
          subst he; subst hb; subst hs; subst hl
          refine ⟨?_, Or.inl ⟨rfl, j+1, by omega, by omega, rfl, rfl⟩⟩
          have hif : (if 1 < j+1 then pokeOk j .absent else (.absent == GenS.absent)) = true := by
            split <;> rfl
          simp [pokeOk, hif]
      | .running u cur c0 c1 =>
          simp only [pokeOk, Bool.and_eq_true, Bool.or_eq_true, beq_iff_eq] at hok
          obtain ⟨⟨⟨hu, hcur⟩, hc1⟩, hchild⟩ := hok
          subst hu; subst hc1
          rcases hcur with rfl | rfl
          · have hcomp : advanceEv g .poke 3 (.running (j+1) ([] : List Instr) c0 .absent) L =
                some ([(j+1, 1 - L.getD j 0)], true,
                  .running (j+1) [pokeTail (j+1)] c0 .absent,
                  L.set j (1 - L.getD j 0)) := rfl
            obtain ⟨he, hb, hs, hl⟩ := quad_eq (advanceEv_agree hadv hcomp)
            subst he; subst hb; subst hs; subst hl
            refine ⟨?_, Or.inl ⟨rfl, j+1, by omega, by omega, rfl, rfl⟩⟩
            simp only [pokeOk, Bool.and_eq_true]
            refine ⟨⟨⟨by simp, by simp⟩, by simp⟩, hchild⟩
          · by_cases hj1 : 1 < j+1
            · have hj : 1 ≤ j := by omega
              have htail : pokeTail (j+1) = .fwd false := by
                unfold pokeTail
                rw [if_pos hj1]
              rw [htail] at hadv
              have hchild' : pokeOk j c0 = true := by
                rw [if_pos hj1] at hchild
                exact hchild
              have hfin : ∀ (F2 : Nat) (c0b : GenS), c0b ≠ .absent → pokeOk j c0b = true →
                  advanceEv g .poke F2 (.running (j+1) [.fwd false] c0b .absent) L =
                    some (es, b, s', L') →
                  pokeOk (j+1) s' = true ∧
                  ((b = true ∧ ∃ j2, 1 ≤ j2 ∧ j2 ≤ j+1 ∧ es = [(j2, 1 - L.getD (j2-1) 0)] ∧
                      L' = L.set (j2-1) (1 - L.getD (j2-1) 0)) ∨
                   (b = false ∧ es = [] ∧ L' = L)) := by
                intro F2 c0b hne hokb hadv2
                rw [advanceEv_fwd0_comp g .poke F2 (j+1) [] c0b .absent L hne] at hadv2
                rcases Option.map_eq_some'.mp hadv2 with ⟨⟨esc, bc, c0x, Lc⟩, hrec, heqc⟩
                obtain ⟨he, hb, hs, hl⟩ := quad_eq heqc
                subst he; subst hb; subst hs; subst hl
                obtain ⟨hokx, hcase⟩ := ihj hj F2 c0b L esc bc c0x Lc hokb hrec
                constructor
                · have hif : (if 1 < j+1 then pokeOk (j+1-1) c0x else (c0x == GenS.absent)) = true := by
                    rw [if_pos hj1]
                    exact hokx
                  simp only [pokeOk, Bool.and_eq_true]
                  refine ⟨⟨⟨by simp, by simp⟩, by simp⟩, hif⟩
                · rcases hcase with ⟨hbt, j2, hj2a, hj2b, hes, hL⟩ | ⟨hbf, hes, hL⟩
                  · exact Or.inl ⟨hbt, j2, hj2a, by omega, hes, hL⟩
                  · exact Or.inr ⟨hbf, hes, hL⟩
              by_cases hcab : c0 = .absent
              · subst hcab
                cases F with
                | zero => exact Option.noConfusion hadv
                | succ F1 =>
                    have hcs : childSpec g .poke (j+1) false = some j := by
                      simp [childSpec]
                      omega
                    have hms : microStep g .poke
                        (.running (j+1) [.fwd false] .absent .absent) L =
                        (none, .running (j+1) [.fwd false] (.unstarted j) .absent, L) := by
                      simp [microStep, hcs]
                    have hevn : setEvent
                        (.running (j+1) [.fwd false] .absent .absent) L = none := by
                      simp [setEvent]
                    rw [advanceEv_silent hms hevn] at hadv
                    exact hfin F1 (.unstarted j) (by intro h; cases h) (by simp [pokeOk]) hadv
              · exact hfin F c0 hcab hchild' hadv
            · obtain rfl : j = 0 := by omega
              have hcomp : advanceEv g .poke 1 (.running 1 [pokeTail 1] c0 .absent) L =
                  some ([], false, .running 1 ([] : List Instr) c0 .absent, L) := rfl
              obtain ⟨he, hb, hs, hl⟩ := quad_eq (advanceEv_agree hadv hcomp)
              subst he; subst hb; subst hs; subst hl
              refine ⟨?_, Or.inr ⟨rfl, rfl, rfl⟩⟩
              simp only [pokeOk, Bool.and_eq_true]
              refine ⟨⟨⟨by simp, by simp⟩, by simp⟩, hchild⟩

theorem advance_advanceEv {g : Globals} {kind : GKind} :
    ∀ {F : Nat} {s L b s' L'}, advance g kind F s L = some (b, s', L') →
      ∃ es, advanceEv g kind F s L = some (es, b, s', L') := by
  intro F
  induction F with
  | zero => intro s L b s' L' h; simp [advance] at h
  | succ F ih =>
      intro s L b s' L' h
      rcases hms : microStep g kind s L with ⟨o, s1, L1⟩
      cases o with
      | some c =>
          rw [advance, hms] at h
          injection h with h
          obtain ⟨hb, hs, hl⟩ : c = b ∧ s1 = s' ∧ L1 = L' := by
            refine ⟨congrArg Prod.fst h, congrArg (fun q => q.2.1) h,
                    congrArg (fun q => q.2.2) h⟩
          subst hb; subst hs; subst hl
          refine ⟨(setEvent s L).toList, ?_⟩
          rw [advanceEv, hms]
      | none =>
          rw [advance, hms] at h
          obtain ⟨es, hes⟩ := ih h
          refine ⟨(setEvent s L).toList ++ es, ?_⟩
          rw [advanceEv, hms]
          simp only []
          rw [hes]
          rfl

theorem poke_flip_all (g : Globals) (hN : 1 ≤ g.N) :
    ∀ (F' n : Nat) (tr : List (Bool × List Nat)),
      runTrace g .poke F' n (.unstarted g.N) (List.replicate g.N 0) = some tr →
      flipOk (List.replicate g.N 0) tr = true := by
  suffices h : ∀ (n F' : Nat) (s : GenS) (L : List Nat) (tr : List (Bool × List Nat)),
      pokeOk g.N s = true → L.length = g.N →
      runTrace g .poke F' n s L = some tr → flipOk L tr = true by
    intro F' n tr htr
    exact h n F' _ _ tr (by simp [pokeOk]) (by simp) htr
  intro n
  induction n with
  | zero =>
      intro F' s L tr _ _ h
      injection h with h
      subst h
      rfl
  | succ n ih =>
      intro F' s L tr hok hlen h
      rcases ha : advance g .poke F' s L with _ | ⟨⟨b, s1, L1⟩⟩
      · rw [runTrace, ha] at h; exact absurd h (by simp)
      · rw [runTrace_succ_some ha] at h
        rcases hr : runTrace g .poke F' n s1 L1 with _ | t
        · rw [hr] at h; exact absurd h (by simp)
        · rw [hr] at h
          simp only [Option.map_some'] at h
          injection h with h
          subst h
          obtain ⟨es, hev⟩ := advance_advanceEv ha
          obtain ⟨hok1, hcase⟩ := poke_adv g g.N hN F' s L es b s1 L1 hok hev
          rcases hcase with ⟨hbt, j2, hj2a, hj2b, hes, hL⟩ | ⟨hbf, hes, hL⟩
          · subst hbt
            subst hL
            show ((diffCount L (L.set (j2-1) (1 - L.getD (j2-1) 0)) == 1) &&
              flipOk (L.set (j2-1) (1 - L.getD (j2-1) 0)) t) = true
            rw [diffCount_set L (j2-1) _ (by omega) (by omega)]
            rw [Bool.and_eq_true]
            refine ⟨by simp, ?_⟩
            exact ih F' s1 _ t hok1 (by simp [hlen]) hr
          · subst hbf
            rw [hL] at hr ⊢
            show ((L == L) && flipOk L t) = true
            rw [beq_self_eq_true, Bool.true_and]
            exact ih F' s1 L t hok1 hlen hr

theorem ebump_single_flip_counterexample :
    runTrace ⟨5, 3, [2, 5]⟩ .ebump 200 9 (.unstarted (rootUnit .ebump 5 [2, 5]))
      (List.replicate 5 0) =
      some [(true, [0,0,0,0,1]), (true, [0,0,0,1,1]), (true, [0,0,0,1,0]),
            (true, [0,0,1,1,0]), (true, [0,0,1,1,1]), (true, [0,1,1,1,1]),
            (true, [0,1,1,1,0]), (true, [0,1,1,1,1]), (true, [0,1,1,1,1])] ∧
    flipOk (List.replicate 5 0)
      [(true, [0,0,0,0,1]), (true, [0,0,0,1,1]), (true, [0,0,0,1,0]),
       (true, [0,0,1,1,0]), (true, [0,0,1,1,1]), (true, [0,1,1,1,1]),
       (true, [0,1,1,1,0]), (true, [0,1,1,1,1]), (true, [0,1,1,1,1])] = false :=
  ⟨by decide, by decide⟩

/-- C1 (amended): the single-flip invariant — every `Active` advance changes
exactly one light and every `Idle` advance changes none, checked by `flipOk`
along the run trace — holds for the unrestricted tower (`poke`), for the
forward chain (`bump`) and for the reverse chain (`cobump`) at every size
`N ≥ 1`, and for the default configurations of the remaining variants:
`mbump` with `N = 4, M = 2`, `ebump` with `N = 6, E = [1,3,4]`, and `nudge`
with `N = 4` resumed from `initial_nudge_sequence 4`.  (It is not true for
every `ebump` topology: with `E = [2,5]`, `N = 5` an `Active` advance leaves
the lights unchanged.) -/
theorem single_flip_amended :
    (∀ (g : Globals), 1 ≤ g.N → ∀ (F n : Nat) (tr : List (Bool × List Nat)),
      runTrace g .poke F n (.unstarted (rootUnit .poke g.N g.E))
        (List.replicate g.N 0) = some tr →
      flipOk (List.replicate g.N 0) tr = true) ∧
    (∀ (g : Globals), 1 ≤ g.N → ∀ (F n : Nat) (tr : List (Bool × List Nat)),
      runTrace g .bump F n (.unstarted (rootUnit .bump g.N g.E))
        (List.replicate g.N 0) = some tr →
      flipOk (List.replicate g.N 0) tr = true) ∧
    (∀ (g : Globals), 1 ≤ g.N → ∀ (F n : Nat) (tr : List (Bool × List Nat)),
      runTrace g .cobump F n (.unstarted (rootUnit .cobump g.N g.E))
        (List.replicate g.N 0) = some tr →
      flipOk (List.replicate g.N 0) tr = true) ∧
    (∀ (F n : Nat) (tr : List (Bool × List Nat)),
      runTrace ⟨4, 2, [1, 3, 4]⟩ .mbump F n (.unstarted (rootUnit .mbump 4 [1, 3, 4]))
        (List.replicate 4 0) = some tr →
      flipOk (List.replicate 4 0) tr = true) ∧
    (∀ (F n : Nat) (tr : List (Bool × List Nat)),
      runTrace ⟨6, 3, [1, 3, 4]⟩ .ebump F n (.unstarted (rootUnit .ebump 6 [1, 3, 4]))
        (List.replicate 6 0) = some tr →
      flipOk (List.replicate 6 0) tr = true) ∧
    (∀ (F n : Nat) (tr : List (Bool × List Nat)),
      runTrace ⟨4, 3, [1, 3, 4]⟩ .nudge F n (.unstarted (rootUnit .nudge 4 [1, 3, 4]))
        (initial_nudge_sequence 4) = some tr →
      flipOk (initial_nudge_sequence 4) tr = true) := by
  refine ⟨?_, ?_, ?_, ?_, ?_, ?_⟩
  · intro g hN F n tr htr
    exact poke_flip_all g hN F n tr htr
  · intro g hN F n tr htr
    exact bump_flip_all g hN F n tr htr
  · intro g hN F n tr htr
    exact cobump_flip_all g hN F n tr htr
  · intro F n tr htr
    exact mbump_default_flip F n tr htr
  · intro F n tr htr
    exact ebump_default_flip F n tr htr
  · intro F n tr htr
    exact nudge_default_flip F n tr htr

theorem single_flip_amended_witness :
    1 ≤ (2 : Nat) ∧
    runTrace ⟨2, 3, [1, 3, 4]⟩ .poke 50 8 (.unstarted (rootUnit .poke 2 [1, 3, 4]))
      (List.replicate 2 0) =
      some [(true, [0,1]), (true, [1,1]), (true, [1,0]), (false, [1,0]),
            (true, [1,1]), (true, [0,1]), (true, [0,0]), (false, [0,0])] ∧
    flipOk (List.replicate 2 0)
      [(true, [0,1]), (true, [1,1]), (true, [1,0]), (false, [1,0]),
       (true, [1,1]), (true, [0,1]), (true, [0,0]), (false, [0,0])] = true :=
  ⟨by decide, by decide,
   single_flip_amended.1 ⟨2, 3, [1, 3, 4]⟩ (by decide) 50 8
     [(true, [0,1]), (true, [1,1]), (true, [1,0]), (false, [1,0]),
      (true, [1,1]), (true, [0,1]), (true, [0,0]), (false, [0,0])] (by decide)⟩
